import Mathlib

/-!
# Sidechain registry (`src/sc/sidechain.cpp`)

A shallow embedding of the sidechain manager `ScMgr` (persistent registry and
validation rules) and of the overlay `ScCoinsViewCache` (staged map, erase set,
apply / undo / flush), followed by theorems about them.

Conventions of the embedding.
* `uint256` is a natural number; `CAmount` (a signed 64-bit amount) is an integer.
  Signed overflow is undefined behaviour in C++ and amounts are bounded by the
  node's money range, so `balance += amount` is integer addition.
* `std::map<uint256, T>` is a list of entries with strictly increasing keys
  (`StdMap`), so iteration visits the entries in key order as the C++ container
  does. `std::set<uint256>` is a `StdMap Unit`.
* A member function that mutates `*this` and returns `bool` becomes a function
  returning the `bool` together with the state it leaves behind, also when the
  `bool` is `false`.
* Logging (`LogPrint`, `LogPrintf`, `error`) has no effect on the state and is
  left out.
-/

namespace Sidechain

abbrev uint256 := Nat

abbrev CAmount := Int

/-! ## Ordered containers -/

namespace Raw

variable {β : Type}

/-- The keys of a list of entries, in list order. -/
def keys (l : List (uint256 × β)) : List uint256 := l.map Prod.fst

/-- Lookup of a key: the value of the first entry carrying it. -/
def find : List (uint256 × β) → uint256 → Option β
  | [], _ => none
  | (k', v) :: t, k => if k' = k then some v else find t k

/-- Store `v` under `k`, keeping the keys in increasing order: the entry of an
equal key is replaced, otherwise the new entry goes before the first larger key. -/
def put : List (uint256 × β) → uint256 → β → List (uint256 × β)
  | [], k, v => [(k, v)]
  | (k', v') :: t, k, v =>
    if k < k' then (k, v) :: (k', v') :: t
    else if k = k' then (k, v) :: t
    else (k', v') :: put t k v

/-- Remove the entries of key `k`. -/
def erase (l : List (uint256 × β)) (k : uint256) : List (uint256 × β) :=
  l.filter (fun e => decide (e.1 ≠ k))

/-- Apply `f` in place to the value stored under `k`. -/
def modify (f : β → β) : List (uint256 × β) → uint256 → List (uint256 × β)
  | [], _ => []
  | (k', v) :: t, k => if k' = k then (k', f v) :: t else (k', v) :: modify f t k

theorem mem_keys_put (l : List (uint256 × β)) (k : uint256) (v : β) (x : uint256) :
    x ∈ keys (put l k v) ↔ x = k ∨ x ∈ keys l := by
  induction l with
  | nil => simp [put, keys]
  | cons e t ih =>
    obtain ⟨k', v'⟩ := e
    unfold put
    by_cases h1 : k < k'
    · simp [h1, keys]
    · by_cases h2 : k = k'
      · subst h2
        simp [keys]
      · simp only [h1, h2, if_false]
        have ih' := ih
        simp only [keys] at ih' ⊢
        simp only [List.map_cons, List.mem_cons, ih']
        tauto

theorem put_sorted (l : List (uint256 × β)) (k : uint256) (v : β)
    (h : (keys l).Pairwise (· < ·)) : (keys (put l k v)).Pairwise (· < ·) := by
  induction l with
  | nil => simp [put, keys]
  | cons e t ih =>
    obtain ⟨k', v'⟩ := e
    have h' : (k' :: keys t).Pairwise (· < ·) := by simpa [keys] using h
    rw [List.pairwise_cons] at h'
    unfold put
    by_cases h1 : k < k'
    · simp only [h1, if_true]
      show (k :: k' :: keys t).Pairwise (· < ·)
      refine List.pairwise_cons.mpr ⟨?_, List.pairwise_cons.mpr h'⟩
      intro a ha
      rcases List.mem_cons.mp ha with rfl | ha
      · exact h1
      · exact lt_trans h1 (h'.1 a ha)
    · by_cases h2 : k = k'
      · subst h2
        simp only [lt_irrefl, if_false, if_true]
        show (k :: keys t).Pairwise (· < ·)
        exact List.pairwise_cons.mpr h'
      · simp only [h1, h2, if_false]
        show (k' :: keys (put t k v)).Pairwise (· < ·)
        refine List.pairwise_cons.mpr ⟨?_, ih h'.2⟩
        intro a ha
        rcases (mem_keys_put t k v a).mp ha with rfl | ha
        · exact lt_of_le_of_ne (not_lt.mp h1) (Ne.symm h2)
        · exact h'.1 a ha

theorem keys_erase_sublist (l : List (uint256 × β)) (k : uint256) :
    (keys (erase l k)).Sublist (keys l) := by
  unfold keys erase
  exact List.Sublist.map _ (List.filter_sublist l)

theorem erase_sorted (l : List (uint256 × β)) (k : uint256)
    (h : (keys l).Pairwise (· < ·)) : (keys (erase l k)).Pairwise (· < ·) :=
  List.Pairwise.sublist (keys_erase_sublist l k) h

theorem keys_modify (f : β → β) (l : List (uint256 × β)) (k : uint256) :
    keys (modify f l k) = keys l := by
  induction l with
  | nil => rfl
  | cons e t ih =>
    obtain ⟨k', v'⟩ := e
    unfold modify
    by_cases h : k' = k
    · simp [h, keys]
    · simp only [h, if_false]
      simp only [keys, List.map_cons] at ih ⊢
      rw [ih]

theorem modify_sorted (f : β → β) (l : List (uint256 × β)) (k : uint256)
    (h : (keys l).Pairwise (· < ·)) : (keys (modify f l k)).Pairwise (· < ·) := by
  rw [keys_modify]
  exact h

end Raw

/-- A `std::map<uint256, β>`: entries with strictly increasing keys. -/
structure StdMap (β : Type) where
  entries : List (uint256 × β)
  sorted : (Raw.keys entries).Pairwise (· < ·)

namespace StdMap

variable {β : Type}

/-- The empty container (`clear()`, default construction). -/
def empty : StdMap β := ⟨[], List.Pairwise.nil⟩

/-- The keys in iteration order. -/
def keys (m : StdMap β) : List uint256 := Raw.keys m.entries

/-- `m.find(k)`: the mapped value, `none` standing for `m.end()`. -/
def find (m : StdMap β) (k : uint256) : Option β := Raw.find m.entries k

/-- `m[k] = v`. -/
def assign (m : StdMap β) (k : uint256) (v : β) : StdMap β :=
  ⟨Raw.put m.entries k v, Raw.put_sorted m.entries k v m.sorted⟩

/-- `m.insert(std::make_pair(k, v))`: the container afterwards and `.second`,
which is `false`, the container untouched, when the key is already there. -/
def insert (m : StdMap β) (k : uint256) (v : β) : StdMap β × Bool :=
  match m.find k with
  | some _ => (m, false)
  | none => (m.assign k v, true)

/-- `m.erase(k)`: the container afterwards and the number of entries removed. -/
def erase (m : StdMap β) (k : uint256) : StdMap β × Nat :=
  (⟨Raw.erase m.entries k, Raw.erase_sorted m.entries k m.sorted⟩,
    match m.find k with
    | some _ => 1
    | none => 0)

/-- Write through an iterator obtained from `find(k)`: `it->second = f (it->second)`. -/
def modify (m : StdMap β) (k : uint256) (f : β → β) : StdMap β :=
  ⟨Raw.modify f m.entries k, Raw.modify_sorted f m.entries k m.sorted⟩

end StdMap

/-! ## Data model -/

/-- The creation parameters of a sidechain (`creationData`). -/
structure ScCreationParameters where
  withdrawalEpochLength : Int
deriving DecidableEq, Repr

/-- The record kept for one sidechain (`ScInfo`). `dImmatureAmounts` maps a
maturity height to an amount; nothing in sidechain.cpp writes it. -/
structure ScInfo where
  creationBlockHash : uint256
  creationBlockHeight : Int
  creationTxHash : uint256
  balance : CAmount
  creationData : ScCreationParameters
  dImmatureAmounts : List (Int × CAmount)
deriving DecidableEq, Repr

/-- Modelled from the spec: the default-constructed record `ScInfo()`, whose
constructor is declared in sc/sidechain.h (not in src). The spec gives a newly
inserted record a zero balance; `createSidechain` overwrites the four creation
fields, so their defaults are never observed. -/
def ScInfo.init : ScInfo :=
  { creationBlockHash := 0
    creationBlockHeight := -1
    creationTxHash := 0
    balance := 0
    creationData := { withdrawalEpochLength := -1 }
    dImmatureAmounts := [] }

/-- The statement `balance += amount` on a record. -/
def ScInfo.addBalance (amount : CAmount) (info : ScInfo) : ScInfo :=
  { info with balance := info.balance + amount }

/-- The type `ScInfoMap`, a `std::map<uint256, ScInfo>`. -/
abbrev ScInfoMap := StdMap ScInfo

/-- A `std::set<uint256>`. -/
abbrev ScIdSet := StdMap Unit

/-- A sidechain creation output of a transaction (an element of `vsc_ccout`). -/
structure CTxScCreationOut where
  scId : uint256
  withdrawalEpochLength : Int
deriving DecidableEq, Repr

/-- A forward-transfer output of a transaction (an element of `vft_ccout`). -/
structure CTxForwardTransferOut where
  scId : uint256
  nValue : CAmount
deriving DecidableEq, Repr

/-- A joinsplit description; its content is not read by sidechain.cpp. -/
structure JSDescription where
  vpub_old : CAmount
  vpub_new : CAmount
deriving DecidableEq, Repr

/-- Modelled from the spec: the transaction abstraction (primitives/transaction.h
is not in src). `hash` is what `GetHash()` returns and `fScVersion` what
`IsScVersion()` returns, that is whether the declared version supports sidechain
outputs. -/
structure CTransaction where
  hash : uint256
  fScVersion : Bool
  vjoinsplit : List JSDescription
  vsc_ccout : List CTxScCreationOut
  vft_ccout : List CTxForwardTransferOut
deriving DecidableEq, Repr

/-- The call `tx.GetHash()`. -/
def CTransaction.GetHash (tx : CTransaction) : uint256 := tx.hash

/-- The call `tx.IsScVersion()`. -/
def CTransaction.IsScVersion (tx : CTransaction) : Bool := tx.fScVersion

/-- Modelled from the spec: `tx.ccIsNull()` (primitives/transaction.h is not in
src), true when the transaction carries zero sidechain-related outputs, neither
a creation nor a forward transfer. -/
def CTransaction.ccIsNull (tx : CTransaction) : Bool :=
  tx.vsc_ccout.isEmpty && tx.vft_ccout.isEmpty

/-- The block abstraction: sidechain.cpp reads its hash only. -/
structure CBlock where
  hash : uint256
deriving DecidableEq, Repr

/-- The call `block.GetHash()`. -/
def CBlock.GetHash (block : CBlock) : uint256 := block.hash

/-- The undo record of one transaction: the forward-transfer and creation
records needed to reverse it (undo.h is not in src; sidechain.cpp reads `scId`
and `nValue` of the first and `scId` of the second). -/
structure CTxUndo where
  vft_ccout : List CTxForwardTransferOut
  vsc_ccout : List CTxScCreationOut
deriving DecidableEq, Repr

/-- The mempool abstraction: `mapTx`, the pending transactions by hash;
`it->second.GetTx()` is the second component of an element. -/
structure CTxMemPool where
  mapTx : List (uint256 × CTransaction)
deriving DecidableEq, Repr

/-- Modelled from the spec: the validation state (consensus/validation.h is not
in src): whether a rejection was recorded, the misbehaviour weight and the
reason code. -/
structure CValidationState where
  fInvalid : Bool
  nDoS : Int
  chRejectCode : Nat
  strRejectReason : String
deriving DecidableEq, Repr

/-- The reject code `REJECT_INVALID`. -/
def REJECT_INVALID : Nat := 16

/-- Modelled from the spec: `state.DoS(level, ret, code, reason)` records the
rejection and hands back `ret`. -/
def CValidationState.DoS (state : CValidationState) (level : Int) (ret : Bool)
    (chRejectCodeIn : Nat) (strRejectReasonIn : String) : Bool × CValidationState :=
  (ret, { fInvalid := true
          nDoS := state.nDoS + level
          chRejectCode := chRejectCodeIn
          strRejectReason := strRejectReasonIn })

/-- Modelled from the spec: `state.Invalid(ret, code, reason)`, a rejection of
weight zero. -/
def CValidationState.Invalid (state : CValidationState) (ret : Bool)
    (chRejectCodeIn : Nat) (strRejectReasonIn : String) : Bool × CValidationState :=
  state.DoS 0 ret chRejectCodeIn strRejectReasonIn

/-! ## The durable store -/

/-- The record type tag `DB_SC_INFO`. -/
def DB_SC_INFO : Char := 'i'

/-- One record of the store: its key (type tag, ScId) and its value, `none`
when the stored bytes do not deserialize as an `ScInfo`. -/
structure DbRecord where
  chType : Char
  keyScId : uint256
  value : Option ScInfo
deriving DecidableEq, Repr

/-- A `CLevelDBBatch` as sidechain.cpp builds them: one write or one erase
under the key `(DB_SC_INFO, scId)`. -/
inductive CLevelDBBatch where
  | Write (scId : uint256) (info : ScInfo)
  | Erase (scId : uint256)
deriving DecidableEq, Repr

/-- Whether a record sits under the key `(DB_SC_INFO, scId)`. -/
def DbRecord.hasKey (r : DbRecord) (scId : uint256) : Bool :=
  decide (r.chType = DB_SC_INFO) && decide (r.keyScId = scId)

/-- The records after a batch took effect. -/
def CLevelDBBatch.applyTo : CLevelDBBatch → List DbRecord → List DbRecord
  | .Write scId info, rs =>
    if rs.any (fun r => r.hasKey scId) then
      rs.map (fun r => if r.hasKey scId then { r with value := some info } else r)
    else rs ++ [{ chType := DB_SC_INFO, keyScId := scId, value := some info }]
  | .Erase scId, rs => rs.filter (fun r => !r.hasKey scId)

/-- Modelled from the spec: the embedded key-value store behind
`CLevelDBWrapper` (leveldbwrapper.h is not in src). `records` is its content;
`faults` fixes the outcome of the successive `WriteBatch` calls, `true` for a
call that fails (returns false or throws) and leaves the content as it was; once
the list is used up every call succeeds. -/
structure CLevelDBWrapper where
  records : List DbRecord
  faults : List Bool
deriving DecidableEq, Repr

/-- The call `db->WriteBatch(batch, true)`: whether it succeeded, and the store
afterwards. -/
def CLevelDBWrapper.WriteBatch (db : CLevelDBWrapper) (batch : CLevelDBBatch) :
    Bool × CLevelDBWrapper :=
  match db.faults with
  | [] => (true, { records := batch.applyTo db.records, faults := [] })
  | false :: rest => (true, { records := batch.applyTo db.records, faults := rest })
  | true :: rest => (false, { records := db.records, faults := rest })

/-! ## The overlay state and the registry -/

/-- The overlay `ScCoinsViewCache`: the staged map `mUpdate` and the erase set
`sErase`. -/
structure ScCoinsViewCache where
  mUpdate : ScInfoMap
  sErase : ScIdSet

/-- The member `ScCoinsViewCache::sidechainExists`. -/
def ScCoinsViewCache.sidechainExists (v : ScCoinsViewCache) (scId : uint256) : Bool :=
  (v.mUpdate.find scId).isSome

/-- The singleton `ScMgr`: the persistent mapping `mScInfo` and the store
handle `db`, `none` standing for the null pointer before initialisation. -/
structure ScMgr where
  mScInfo : ScInfoMap
  db : Option CLevelDBWrapper

namespace ScMgr

/-- The member `ScMgr::sidechainExists`; `scView` is `none` for a null pointer. -/
def sidechainExists (mgr : ScMgr) (scId : uint256) (scView : Option ScCoinsViewCache) :
    Bool :=
  match scView with
  | some view => view.sidechainExists scId
  | none => (mgr.mScInfo.find scId).isSome

/-- The member `ScMgr::copyScInfoMap`: every entry is assigned into `mapCopy`. -/
def copyScInfoMap (mgr : ScMgr) (mapCopy : ScInfoMap) : ScInfoMap :=
  mgr.mScInfo.entries.foldl (fun acc e => acc.assign e.1 e.2) mapCopy

/-- The member `ScMgr::getScInfo`: a copy of the record, `none` for `false`. -/
def getScInfo (mgr : ScMgr) (scId : uint256) : Option ScInfo :=
  mgr.mScInfo.find scId

/-- The member `ScMgr::getSidechainBalance`, which answers `-1` for an unknown ScId. -/
def getSidechainBalance (mgr : ScMgr) (scId : uint256) : CAmount :=
  match mgr.mScInfo.find scId with
  | none => -1
  | some info => info.balance

/-- The member `ScMgr::anyForwardTransaction`. -/
def anyForwardTransaction (tx : CTransaction) (scId : uint256) : Bool :=
  tx.vft_ccout.any (fun fwd => decide (fwd.scId = scId))

/-- The member `ScMgr::hasSidechainCreationOutput`. -/
def hasSidechainCreationOutput (tx : CTransaction) (scId : uint256) : Bool :=
  tx.vsc_ccout.any (fun sc => decide (sc.scId = scId))

/-- The member `ScMgr::IsTxApplicableToState`: the first loop returns false at a
creation output whose ScId exists, the second at a forward transfer whose target
neither exists nor is created by `tx`. -/
def IsTxApplicableToState (mgr : ScMgr) (tx : CTransaction)
    (scView : Option ScCoinsViewCache) : Bool :=
  if tx.vsc_ccout.any (fun sc => mgr.sidechainExists sc.scId scView) then false
  else if tx.vft_ccout.any (fun ft =>
      !mgr.sidechainExists ft.scId scView && !hasSidechainCreationOutput tx ft.scId) then false
  else true

/-- The member `ScMgr::checkTxSemanticValidity`. -/
def checkTxSemanticValidity (tx : CTransaction) (state : CValidationState) :
    Bool × CValidationState :=
  if !tx.IsScVersion then
    if !tx.ccIsNull then
      state.DoS 100 false REJECT_INVALID "sidechain-tx-version"
    else (true, state)
  else if tx.vjoinsplit.length > 0 then
    state.DoS 100 false REJECT_INVALID "sidechain-tx-version"
  else if tx.vsc_ccout.any (fun sc => !anyForwardTransaction tx sc.scId) then
    state.DoS 100 false REJECT_INVALID "sidechain-creation-missing-fwd-transfer"
  else (true, state)

/-- The member `ScMgr::hasSCCreationConflictsInMempool`: false as soon as a
creation output of a pool transaction carries the ScId of a creation output of
`tx`, true when the loops run to their end. -/
def hasSCCreationConflictsInMempool (pool : CTxMemPool) (tx : CTransaction) : Bool :=
  if tx.vsc_ccout.any (fun sc =>
      pool.mapTx.any (fun it =>
        it.2.vsc_ccout.any (fun mpSc => decide (mpSc.scId = sc.scId)))) then false
  else true

/-- The member `ScMgr::IsTxAllowedInMempool`. -/
def IsTxAllowedInMempool (pool : CTxMemPool) (tx : CTransaction) (state : CValidationState) :
    Bool × CValidationState :=
  if !hasSCCreationConflictsInMempool pool tx then
    state.Invalid false REJECT_INVALID "sidechain-creation"
  else (true, state)

/-- The member `ScMgr::writeToDb`: false when the store is not initialised or
the batch fails. -/
def writeToDb (mgr : ScMgr) (scId : uint256) (info : ScInfo) : Bool × ScMgr :=
  match mgr.db with
  | none => (false, mgr)
  | some db =>
    ((db.WriteBatch (.Write scId info)).1, { mgr with db := some (db.WriteBatch (.Write scId info)).2 })

/-- The member `ScMgr::eraseFromDb`: the outcome of the batch is logged only. -/
def eraseFromDb (mgr : ScMgr) (scId : uint256) : ScMgr :=
  match mgr.db with
  | none => mgr
  | some db => { mgr with db := some (db.WriteBatch (.Erase scId)).2 }

end ScMgr

namespace ScCoinsViewCache

/-- The constructor: `mUpdate.clear()` and then a copy of the registry. -/
def ctor (mgr : ScMgr) : ScCoinsViewCache :=
  { mUpdate := mgr.copyScInfoMap StdMap.empty, sErase := StdMap.empty }

/-- The member `updateSidechainBalance`: the balance is written before it is
tested, so a false answer for a negative result leaves the new balance staged. -/
def updateSidechainBalance (v : ScCoinsViewCache) (scId : uint256) (amount : CAmount) :
    Bool × ScCoinsViewCache :=
  match v.mUpdate.find scId with
  | none => (false, v)
  | some info =>
    (!decide (info.balance + amount < 0),
      { v with mUpdate := v.mUpdate.modify scId (ScInfo.addBalance amount) })

/-- The member `addSidechain`. -/
def addSidechain (v : ScCoinsViewCache) (scId : uint256) (info : ScInfo) :
    Bool × ScCoinsViewCache :=
  ((v.mUpdate.insert scId info).2, { v with mUpdate := (v.mUpdate.insert scId info).1 })

/-- The member `removeSidechain`. -/
def removeSidechain (v : ScCoinsViewCache) (scId : uint256) : ScCoinsViewCache :=
  { mUpdate := (v.mUpdate.erase scId).1, sErase := (v.sErase.insert scId ()).1 }

/-- The record `createSidechain` builds for a creation output. -/
def newScInfo (blockHash txHash : uint256) (nHeight : Int) (sc : CTxScCreationOut) : ScInfo :=
  { ScInfo.init with
    creationBlockHash := blockHash
    creationBlockHeight := nHeight
    creationTxHash := txHash
    creationData := { ScInfo.init.creationData with
      withdrawalEpochLength := sc.withdrawalEpochLength } }

/-- The loop of `createSidechain` over the creation outputs still to handle. -/
def createSidechainLoop (blockHash txHash : uint256) (nHeight : Int) :
    List CTxScCreationOut → ScCoinsViewCache → Bool × ScCoinsViewCache
  | [], v => (true, v)
  | sc :: rest, v =>
    if v.sidechainExists sc.scId then (false, v)
    else if (v.addSidechain sc.scId (newScInfo blockHash txHash nHeight sc)).1 then
      createSidechainLoop blockHash txHash nHeight rest
        (v.addSidechain sc.scId (newScInfo blockHash txHash nHeight sc)).2
    else (false, (v.addSidechain sc.scId (newScInfo blockHash txHash nHeight sc)).2)

/-- The member `createSidechain`. -/
def createSidechain (v : ScCoinsViewCache) (tx : CTransaction) (block : CBlock)
    (nHeight : Int) : Bool × ScCoinsViewCache :=
  createSidechainLoop block.GetHash tx.GetHash nHeight tx.vsc_ccout v

/-- The member `deleteSidechain`. -/
def deleteSidechain (v : ScCoinsViewCache) (scId : uint256) : Bool × ScCoinsViewCache :=
  match v.mUpdate.find scId with
  | none => (false, v)
  | some info => if info.balance > 0 then (false, v) else (true, v.removeSidechain scId)

/-- The loop `updateSidechainBalance(scId, amount)` over the (scId, amount)
arguments of the successive calls, returning false at the first call that fails. -/
def updateBalanceLoop : List (uint256 × CAmount) → ScCoinsViewCache →
    Bool × ScCoinsViewCache
  | [], v => (true, v)
  | call :: rest, v =>
    if (v.updateSidechainBalance call.1 call.2).1 then
      updateBalanceLoop rest (v.updateSidechainBalance call.1 call.2).2
    else (false, (v.updateSidechainBalance call.1 call.2).2)

/-- The member `UpdateScCoins(const CTransaction&, const CBlock&, int)`: apply.
The second loop calls `updateSidechainBalance(ft.scId, ft.nValue)`. -/
def UpdateScCoins (v : ScCoinsViewCache) (tx : CTransaction) (block : CBlock) (nHeight : Int) :
    Bool × ScCoinsViewCache :=
  if (v.createSidechain tx block nHeight).1 then
    updateBalanceLoop (tx.vft_ccout.map (fun ft => (ft.scId, ft.nValue)))
      (v.createSidechain tx block nHeight).2
  else (false, (v.createSidechain tx block nHeight).2)

/-- The second loop of the undo: `deleteSidechain` for each creation record. -/
def deleteLoop : List CTxScCreationOut → ScCoinsViewCache → Bool × ScCoinsViewCache
  | [], v => (true, v)
  | crUndo :: rest, v =>
    if (v.deleteSidechain crUndo.scId).1 then deleteLoop rest (v.deleteSidechain crUndo.scId).2
    else (false, (v.deleteSidechain crUndo.scId).2)

/-- The member `UpdateScCoins(const CTxUndo&)`: undo. The first loop calls
`updateSidechainBalance(ftUndo.scId, -ftUndo.nValue)`. -/
def UpdateScCoinsUndo (v : ScCoinsViewCache) (txundo : CTxUndo) : Bool × ScCoinsViewCache :=
  if (updateBalanceLoop (txundo.vft_ccout.map (fun ftUndo => (ftUndo.scId, -ftUndo.nValue))) v).1 then
    deleteLoop txundo.vsc_ccout
      (updateBalanceLoop (txundo.vft_ccout.map (fun ftUndo => (ftUndo.scId, -ftUndo.nValue))) v).2
  else
    (false, (updateBalanceLoop (txundo.vft_ccout.map (fun ftUndo => (ftUndo.scId, -ftUndo.nValue))) v).2)

/-- The first loop of `Flush`: write each staged entry to the store and then
publish it in the registry, stopping at the first failed write. -/
def flushWriteLoop : List (uint256 × ScInfo) → ScMgr → Bool × ScMgr
  | [], mgr => (true, mgr)
  | entry :: rest, mgr =>
    if (mgr.writeToDb entry.1 entry.2).1 then
      flushWriteLoop rest
        { (mgr.writeToDb entry.1 entry.2).2 with
          mScInfo := (mgr.writeToDb entry.1 entry.2).2.mScInfo.assign entry.1 entry.2 }
    else (false, (mgr.writeToDb entry.1 entry.2).2)

/-- The second loop of `Flush`: erase each ScId of the erase set from the
registry and then from the store, stopping at the first one the registry lacks. -/
def flushEraseLoop : List uint256 → ScMgr → Bool × ScMgr
  | [], mgr => (true, mgr)
  | entry :: rest, mgr =>
    if (mgr.mScInfo.erase entry).2 ≠ 0 then
      flushEraseLoop rest (ScMgr.eraseFromDb { mgr with mScInfo := (mgr.mScInfo.erase entry).1 } entry)
    else (false, { mgr with mScInfo := (mgr.mScInfo.erase entry).1 })

/-- The member `Flush`: its answer and the registry it leaves. -/
def Flush (v : ScCoinsViewCache) (mgr : ScMgr) : Bool × ScMgr :=
  if (flushWriteLoop v.mUpdate.entries mgr).1 then
    flushEraseLoop v.sErase.keys (flushWriteLoop v.mUpdate.entries mgr).2
  else (false, (flushWriteLoop v.mUpdate.entries mgr).2)

end ScCoinsViewCache

/-! ## Loading the registry: the model of the scan -/

/-- The loop of `initialUpdateFromDb` over the records the iterator yields. A
record of type `DB_SC_INFO` whose value deserializes is assigned into
`mScInfo`; a record of another type makes the function return false; a record
that does not deserialize (the exception is caught) makes it return false as
well. A key that does not deserialize takes the same path as a value that does
not, before anything is written, and is represented by such a record. -/
def ScMgr.initialUpdateFromDbLoop : List DbRecord → ScMgr → Bool × ScMgr
  | [], mgr => (true, mgr)
  | r :: rest, mgr =>
    if r.chType = DB_SC_INFO then
      match r.value with
      | some info =>
        initialUpdateFromDbLoop rest { mgr with mScInfo := mgr.mScInfo.assign r.keyScId info }
      | none => (false, mgr)
    else (false, mgr)

/-- The store `initialUpdateFromDb` opens: the one found under the data
directory, emptied first when `fWipe` is set. -/
def openedStore (disk : CLevelDBWrapper) (fWipe : Bool) : CLevelDBWrapper :=
  if fWipe then { disk with records := [] } else disk

/-- The records the iterator yields: all of them when it walks the whole store
and ends with an ok status (`scanLimit = none`), the first `n` when it becomes
invalid after `n` records with an error status (`scanLimit = some n`). -/
def scannedRecords (db : CLevelDBWrapper) (scanLimit : Option Nat) : List DbRecord :=
  match scanLimit with
  | none => db.records
  | some n => db.records.take n

/-- The member `ScMgr::initialUpdateFromDb`: its answer, the function-static
flag `initDone` afterwards, and the registry afterwards. `initDone` is the flag
before the call, `disk` the store found under the data directory and
`scanLimit` the behaviour of the iterator. After the loop the answer is
`it->status().ok()`. -/
def ScMgr.initialUpdateFromDb (initDone : Bool) (mgr : ScMgr) (disk : CLevelDBWrapper)
    (scanLimit : Option Nat) (_cacheSize : Nat) (fWipe : Bool) : Bool × Bool × ScMgr :=
  if initDone then (false, true, mgr)
  else if (ScMgr.initialUpdateFromDbLoop (scannedRecords (openedStore disk fWipe) scanLimit)
      { mgr with db := some (openedStore disk fWipe) }).1 then
    (scanLimit.isNone, true,
      (ScMgr.initialUpdateFromDbLoop (scannedRecords (openedStore disk fWipe) scanLimit)
        { mgr with db := some (openedStore disk fWipe) }).2)
  else
    (false, true,
      (ScMgr.initialUpdateFromDbLoop (scannedRecords (openedStore disk fWipe) scanLimit)
        { mgr with db := some (openedStore disk fWipe) }).2)

/-! ## Sequences of calls and assumptions on the store -/

/-- Every durable store operation succeeds: the store is initialised and no
`WriteBatch` call ahead fails. -/
def ScMgr.storeReliable (mgr : ScMgr) : Bool :=
  match mgr.db with
  | none => false
  | some db => db.faults.all (fun b => !b)

/-- The undo record carrying the forward-transfer and creation outputs of a
transaction. -/
def CTxUndo.ofTx (tx : CTransaction) : CTxUndo :=
  { vft_ccout := tx.vft_ccout, vsc_ccout := tx.vsc_ccout }

/-- One call on an overlay: an apply or an undo. -/
inductive ScOp where
  | apply (tx : CTransaction) (block : CBlock) (nHeight : Int)
  | undo (txundo : CTxUndo)
deriving DecidableEq, Repr

/-- The call made on an overlay: its answer and the overlay it leaves. -/
def ScOp.run (v : ScCoinsViewCache) : ScOp → Bool × ScCoinsViewCache
  | .apply tx block nHeight => v.UpdateScCoins tx block nHeight
  | .undo txundo => v.UpdateScCoinsUndo txundo

/-- A sequence of calls made one after the other on an overlay, whatever they
answer: whether all of them answered true, and the overlay left at the end. -/
def runOps : List ScOp → ScCoinsViewCache → Bool × ScCoinsViewCache
  | [], v => (true, v)
  | op :: rest, v =>
    ((op.run v).1 && (runOps rest (op.run v).2).1, (runOps rest (op.run v).2).2)

/-- Apply `tx` on a fresh overlay of the registry, then flush that overlay:
the answer of the apply, the answer of `Flush`, the registry left. -/
def applyAndFlush (mgr : ScMgr) (tx : CTransaction) (block : CBlock) (nHeight : Int) :
    Bool × Bool × ScMgr :=
  (((ScCoinsViewCache.ctor mgr).UpdateScCoins tx block nHeight).1,
    ((ScCoinsViewCache.ctor mgr).UpdateScCoins tx block nHeight).2.Flush mgr)

/-- Apply an undo record on a fresh overlay of the registry, then flush that
overlay: the answer of the undo, the answer of `Flush`, the registry left. -/
def undoAndFlush (mgr : ScMgr) (txundo : CTxUndo) : Bool × Bool × ScMgr :=
  (((ScCoinsViewCache.ctor mgr).UpdateScCoinsUndo txundo).1,
    ((ScCoinsViewCache.ctor mgr).UpdateScCoinsUndo txundo).2.Flush mgr)

/-- Every balance of a container of records is at least 0. -/
def balancesNonneg (m : ScInfoMap) : Prop :=
  ∀ k info, m.find k = some info → 0 ≤ info.balance

/-! ## Lookup facts about the containers -/

namespace Raw

variable {β : Type}

theorem entries_find_isSome_iff (l : List (uint256 × β)) (k : uint256) :
    (find l k).isSome = true ↔ k ∈ keys l := by
  induction l with
  | nil => simp [find, keys]
  | cons e t ih =>
    obtain ⟨k', v'⟩ := e
    unfold find
    by_cases h : k' = k
    · simp [h, keys]
    · simp only [h, if_false, ih]
      simp only [keys, List.map_cons, List.mem_cons]
      constructor
      · intro hk
        exact Or.inr hk
      · rintro (hk | hk)
        · exact absurd hk.symm h
        · exact hk

theorem entries_find_eq_none_iff (l : List (uint256 × β)) (k : uint256) :
    find l k = none ↔ k ∉ keys l := by
  rw [← entries_find_isSome_iff]
  cases find l k <;> simp

theorem find_put (l : List (uint256 × β)) (k : uint256) (v : β) (x : uint256) :
    find (put l k v) x = if x = k then some v else find l x := by
  induction l with
  | nil =>
    by_cases hx : x = k
    · simp [put, find, hx]
    · have hx' : ¬ k = x := fun h => hx h.symm
      simp [put, find, hx, hx']
  | cons e t ih =>
    obtain ⟨k', v'⟩ := e
    unfold put
    by_cases h1 : k < k'
    · simp only [h1, if_true]
      by_cases hx : x = k
      · simp [find, hx]
      · have hx' : ¬ k = x := fun h => hx h.symm
        simp [find, hx, hx']
    · by_cases h2 : k = k'
      · subst h2
        simp only [lt_irrefl, if_false, if_true]
        by_cases hx : x = k
        · simp [find, hx]
        · have hx' : ¬ k = x := fun h => hx h.symm
          simp [find, hx, hx']
      · simp only [h1, h2, if_false]
        by_cases hx : x = k
        · subst hx
          have h2' : ¬ k' = x := fun h => h2 h.symm
          simp [find, h2', ih]
        · by_cases hk : k' = x
          · simp [find, hk, hx]
          · simp [find, hk, hx, ih]

theorem entries_find_erase (l : List (uint256 × β)) (k x : uint256) :
    find (erase l k) x = if x = k then none else find l x := by
  induction l with
  | nil => simp [erase, find]
  | cons e t ih =>
    obtain ⟨k', v'⟩ := e
    have ih' : find (List.filter (fun e => !decide (e.1 = k)) t) x =
        if x = k then none else find t x := by
      simpa [erase] using ih
    by_cases h : k' = k
    · subst h
      by_cases hx : x = k'
      · subst hx
        simpa [erase, find, List.filter_cons] using ih'
      · have hx' : ¬ k' = x := fun h => hx h.symm
        simp [erase, find, List.filter_cons, hx, hx', ih']
    · by_cases hx : x = k
      · subst hx
        simp [erase, find, List.filter_cons, h, ih']
      · simp [erase, find, List.filter_cons, h, hx, ih']

theorem entries_find_modify (f : β → β) (l : List (uint256 × β)) (k x : uint256) :
    find (modify f l k) x = if x = k then (find l k).map f else find l x := by
  induction l with
  | nil => simp [modify, find]
  | cons e t ih =>
    obtain ⟨k', v'⟩ := e
    unfold modify
    by_cases h : k' = k
    · subst h
      by_cases hx : x = k'
      · simp [find, hx]
      · have hx' : ¬ k' = x := fun h => hx h.symm
        simp [find, hx, hx']
    · simp only [h, if_false]
      by_cases hx : x = k
      · subst hx
        simp [find, h, ih]
      · by_cases hk : k' = x
        · simp [find, hk, hx]
        · simp [find, hk, hx, ih]

theorem find_eq_none_of_lt (l : List (uint256 × β)) (k : uint256)
    (h : ∀ a ∈ keys l, k < a) : find l k = none := by
  rw [entries_find_eq_none_iff]
  intro hk
  exact lt_irrefl k (h k hk)

theorem sorted_tail {k : uint256} {v : β} {t : List (uint256 × β)}
    (h : (keys ((k, v) :: t)).Pairwise (· < ·)) :
    (∀ a ∈ keys t, k < a) ∧ (keys t).Pairwise (· < ·) := by
  have h' : (k :: keys t).Pairwise (· < ·) := by simpa [keys] using h
  exact List.pairwise_cons.mp h'

/-- Two lists with strictly increasing keys and the same lookups are equal. -/
theorem entries_ext_find [DecidableEq β] (l l' : List (uint256 × β))
    (hl : (keys l).Pairwise (· < ·)) (hl' : (keys l').Pairwise (· < ·))
    (h : ∀ x, find l x = find l' x) : l = l' := by
  induction l generalizing l' with
  | nil =>
    cases l' with
    | nil => rfl
    | cons e' t' =>
      obtain ⟨k', v'⟩ := e'
      have := h k'
      simp [find] at this
  | cons e t ih =>
    obtain ⟨k, v⟩ := e
    cases l' with
    | nil =>
      have := h k
      simp [find] at this
    | cons e' t' =>
      obtain ⟨k', v'⟩ := e'
      obtain ⟨hlt, hst⟩ := sorted_tail hl
      obtain ⟨hlt', hst'⟩ := sorted_tail hl'
      have hkk : k = k' := by
        rcases lt_trichotomy k k' with hc | hc | hc
        · exfalso
          have h1 := h k
          have hne : ¬ k' = k := fun e => (ne_of_lt hc) e.symm
          have hnone : find t' k = none :=
            find_eq_none_of_lt t' k (fun a ha => lt_trans hc (hlt' a ha))
          simp [find, hne, hnone] at h1
        · exact hc
        · exfalso
          have h1 := h k'
          have hne : ¬ k = k' := fun e => (ne_of_lt hc) e.symm
          have hnone : find t k' = none :=
            find_eq_none_of_lt t k' (fun a ha => lt_trans hc (hlt a ha))
          simp [find, hne, hnone] at h1
      subst hkk
      have hvv : v = v' := by
        have h1 := h k
        simpa [find] using h1
      subst hvv
      have htt : t = t' := by
        apply ih t' hst hst'
        intro x
        by_cases hx : k = x
        · subst hx
          rw [find_eq_none_of_lt t k hlt, find_eq_none_of_lt t' k hlt']
        · have h1 := h x
          simpa [find, hx] using h1
      rw [htt]

end Raw

namespace StdMap

variable {β : Type}

theorem find_isSome_iff (m : StdMap β) (k : uint256) :
    (m.find k).isSome = true ↔ k ∈ m.keys :=
  Raw.entries_find_isSome_iff m.entries k

theorem find_eq_none_iff (m : StdMap β) (k : uint256) :
    m.find k = none ↔ k ∉ m.keys :=
  Raw.entries_find_eq_none_iff m.entries k

theorem find_empty (x : uint256) : (StdMap.empty : StdMap β).find x = none := rfl

theorem find_assign (m : StdMap β) (k : uint256) (v : β) (x : uint256) :
    (m.assign k v).find x = if x = k then some v else m.find x :=
  Raw.find_put m.entries k v x

theorem find_erase (m : StdMap β) (k x : uint256) :
    (m.erase k).1.find x = if x = k then none else m.find x :=
  Raw.entries_find_erase m.entries k x

theorem find_modify (m : StdMap β) (k : uint256) (f : β → β) (x : uint256) :
    (m.modify k f).find x = if x = k then (m.find k).map f else m.find x :=
  Raw.entries_find_modify f m.entries k x

theorem erase_count_ne_zero_iff (m : StdMap β) (k : uint256) :
    (m.erase k).2 ≠ 0 ↔ (m.find k).isSome = true := by
  unfold erase
  cases m.find k <;> simp

theorem insert_snd (m : StdMap β) (k : uint256) (v : β) :
    (m.insert k v).2 = (m.find k).isNone := by
  unfold insert
  cases m.find k <;> rfl

theorem find_insert (m : StdMap β) (k : uint256) (v : β) (x : uint256) :
    (m.insert k v).1.find x = if x = k then some ((m.find k).getD v) else m.find x := by
  unfold insert
  cases hk : m.find k with
  | none => simp [find_assign]
  | some w =>
    by_cases hx : x = k
    · simp [hx, hk]
    · simp [hx]

theorem eq_of_entries_eq {m m' : StdMap β} (h : m.entries = m'.entries) : m = m' := by
  cases m
  cases m'
  cases h
  rfl

/-- Containers with the same lookups are the same container. -/
theorem ext_find [DecidableEq β] (m m' : StdMap β) (h : ∀ x, m.find x = m'.find x) :
    m = m' :=
  eq_of_entries_eq (Raw.entries_ext_find m.entries m'.entries m.sorted m'.sorted h)

theorem keys_nodup (m : StdMap β) : m.keys.Nodup := by
  have h := m.sorted
  unfold keys
  exact h.imp (fun hab => ne_of_lt hab)

theorem mem_keys_iff (m : StdMap β) (k : uint256) : k ∈ m.keys ↔ (m.find k).isSome = true :=
  (find_isSome_iff m k).symm

theorem mem_keys_insert (m : StdMap β) (k : uint256) (v : β) (x : uint256) :
    x ∈ (m.insert k v).1.keys ↔ x = k ∨ x ∈ m.keys := by
  rw [mem_keys_iff, mem_keys_iff, find_insert]
  by_cases hx : x = k
  · simp [hx]
  · simp [hx]

end StdMap

/-! ## Sample values -/

/-- A validation state before any rejection. -/
def sampleState : CValidationState :=
  { fInvalid := false, nDoS := 0, chRejectCode := 0, strRejectReason := "" }

/-- A transaction creating ScId 7 and forwarding 100 to it. -/
def sampleTxCreateFund : CTransaction :=
  { hash := 1, fScVersion := true, vjoinsplit := [],
    vsc_ccout := [{ scId := 7, withdrawalEpochLength := 10 }],
    vft_ccout := [{ scId := 7, nValue := 100 }] }

/-- A second transaction creating ScId 7. -/
def sampleTxCreateAgain : CTransaction :=
  { hash := 2, fScVersion := true, vjoinsplit := [],
    vsc_ccout := [{ scId := 7, withdrawalEpochLength := 20 }],
    vft_ccout := [{ scId := 7, nValue := 5 }] }

/-- A transaction of a version without sidechain support that carries a
forward transfer. -/
def sampleTxOldVersion : CTransaction :=
  { hash := 3, fScVersion := false, vjoinsplit := [], vsc_ccout := [],
    vft_ccout := [{ scId := 7, nValue := 100 }] }

/-- A transaction of a sidechain version that carries a joinsplit. -/
def sampleTxJoinsplit : CTransaction :=
  { hash := 4, fScVersion := true, vjoinsplit := [{ vpub_old := 0, vpub_new := 0 }],
    vsc_ccout := [], vft_ccout := [] }

/-- A pool holding `sampleTxCreateFund`. -/
def samplePool : CTxMemPool :=
  { mapTx := [(1, sampleTxCreateFund)] }

/-- A block of hash 9. -/
def sampleBlock : CBlock := { hash := 9 }

/-- An overlay with nothing staged and nothing to erase. -/
def sampleEmptyView : ScCoinsViewCache :=
  { mUpdate := StdMap.empty, sErase := StdMap.empty }

/-- The overlay after `sampleTxCreateFund` was applied to the empty one at
height 5: ScId 7 staged with balance 100. -/
def sampleFundedView : ScCoinsViewCache :=
  (sampleEmptyView.UpdateScCoins sampleTxCreateFund sampleBlock 5).2

/-- A record of balance `b` whose creation fields are those `sampleTxCreateFund`
leaves when applied at height 5 in `sampleBlock`. -/
def sampleInfo (b : CAmount) : ScInfo :=
  { creationBlockHash := 9, creationBlockHeight := 5, creationTxHash := 1, balance := b,
    creationData := { withdrawalEpochLength := 10 }, dImmatureAmounts := [] }

/-- A registry with no sidechain over an empty store that never fails. -/
def sampleMgrEmpty : ScMgr :=
  { mScInfo := StdMap.empty, db := some { records := [], faults := [] } }

/-- A registry holding ScId 7 with balance `b`, over a store that holds the
same record and never fails. -/
def sampleMgrWith (b : CAmount) : ScMgr :=
  { mScInfo := StdMap.empty.assign 7 (sampleInfo b),
    db := some { records := [{ chType := DB_SC_INFO, keyScId := 7, value := some (sampleInfo b) }],
                 faults := [] } }

/-- A transaction forwarding 50 to ScId 7 and creating nothing. -/
def sampleTxForward : CTransaction :=
  { hash := 5, fScVersion := true, vjoinsplit := [], vsc_ccout := [],
    vft_ccout := [{ scId := 7, nValue := 50 }] }

/-- On one overlay: undo the creation of ScId 7, then apply the transaction
that creates ScId 7 and forwards 100 to it, at height 5 in `sampleBlock`. -/
def sampleOpsRecreate : List ScOp :=
  [ScOp.undo { vft_ccout := [], vsc_ccout := [{ scId := 7, withdrawalEpochLength := 10 }] },
   ScOp.apply sampleTxCreateFund sampleBlock 5]

/-- The undo record of `sampleTxCreateFund`. -/
def sampleUndo : CTxUndo :=
  { vft_ccout := sampleTxCreateFund.vft_ccout, vsc_ccout := sampleTxCreateFund.vsc_ccout }

/-! ## Validation rules -/

/-- C1: with a view supplied, `IsTxApplicableToState` answers true exactly when
(a) no creation output of the transaction has an ScId that is a key of the
staged map and (b) every forward transfer targets a key of the staged map or an
ScId created by the same transaction; and the answer is the same for any
registry and any erase set, the staged map being the same. -/
theorem IsTxApplicableToState_iff (mgr : ScMgr) (tx : CTransaction) (view : ScCoinsViewCache) :
    (mgr.IsTxApplicableToState tx (some view) = true ↔
      (∀ sc ∈ tx.vsc_ccout, sc.scId ∉ view.mUpdate.keys) ∧
      (∀ ft ∈ tx.vft_ccout,
        ft.scId ∈ view.mUpdate.keys ∨ ∃ sc ∈ tx.vsc_ccout, sc.scId = ft.scId)) ∧
    (∀ (mgr' : ScMgr) (sErase' : ScIdSet),
      mgr'.IsTxApplicableToState tx (some { mUpdate := view.mUpdate, sErase := sErase' }) =
        mgr.IsTxApplicableToState tx (some view)) := by
  refine ⟨?_, fun _ _ => rfl⟩
  have hex : ∀ k, view.sidechainExists k = true ↔ k ∈ view.mUpdate.keys := fun k =>
    view.mUpdate.find_isSome_iff k
  unfold ScMgr.IsTxApplicableToState
  simp only [ScMgr.sidechainExists, ScMgr.hasSidechainCreationOutput]
  by_cases h1 : tx.vsc_ccout.any (fun sc => view.sidechainExists sc.scId) = true
  · simp only [h1, if_true]
    constructor
    · intro h
      exact absurd h (by simp)
    · rintro ⟨ha, _⟩
      obtain ⟨sc, hsc, hx⟩ := List.any_eq_true.mp h1
      exact absurd ((hex _).mp hx) (ha sc hsc)
  · have h1' : ∀ sc ∈ tx.vsc_ccout, sc.scId ∉ view.mUpdate.keys := by
      intro sc hsc hk
      exact h1 (List.any_eq_true.mpr ⟨sc, hsc, (hex _).mpr hk⟩)
    simp only [h1, Bool.false_eq_true, if_false]
    by_cases h2 : tx.vft_ccout.any (fun ft =>
        !view.sidechainExists ft.scId &&
          !tx.vsc_ccout.any (fun sc => decide (sc.scId = ft.scId))) = true
    · simp only [h2, if_true]
      constructor
      · intro h
        exact absurd h (by simp)
      · rintro ⟨_, hb⟩
        obtain ⟨ft, hft, hx⟩ := List.any_eq_true.mp h2
        simp only [Bool.and_eq_true, Bool.not_eq_true', Bool.not_eq_eq_eq_not] at hx
        rcases hb ft hft with hk | ⟨sc, hsc, he⟩
        · have := (hex _).mpr hk
          rw [hx.1] at this
          exact absurd this (by simp)
        · have hany : tx.vsc_ccout.any (fun sc => decide (sc.scId = ft.scId)) = true :=
            List.any_eq_true.mpr ⟨sc, hsc, by simp [he]⟩
          rw [hany] at hx
          exact absurd hx.2 (by simp)
    · simp only [h2, Bool.false_eq_true, if_false, true_iff]
      refine ⟨h1', ?_⟩
      intro ft hft
      by_cases hk : ft.scId ∈ view.mUpdate.keys
      · exact Or.inl hk
      · right
        by_contra hno
        apply h2
        refine List.any_eq_true.mpr ⟨ft, hft, ?_⟩
        have hnex : view.sidechainExists ft.scId = false := by
          cases hv : view.sidechainExists ft.scId
          · rfl
          · exact absurd ((hex _).mp hv) hk
        have hnany : tx.vsc_ccout.any (fun sc => decide (sc.scId = ft.scId)) = false := by
          cases hv : tx.vsc_ccout.any (fun sc => decide (sc.scId = ft.scId))
          · rfl
          · obtain ⟨sc, hsc, he⟩ := List.any_eq_true.mp hv
            exact absurd ⟨sc, hsc, of_decide_eq_true he⟩ hno
        simp [hnex, hnany]

theorem anyForwardTransaction_iff (tx : CTransaction) (scId : uint256) :
    ScMgr.anyForwardTransaction tx scId = true ↔ ∃ ft ∈ tx.vft_ccout, ft.scId = scId := by
  simp [ScMgr.anyForwardTransaction, List.any_eq_true]

/-- C2: for a transaction of a sidechain version without joinsplits,
`checkTxSemanticValidity` accepts exactly when every creation output's ScId is
the target of a forward transfer of the same transaction; a creation output
without such a forward transfer makes it reject. -/
theorem checkTxSemanticValidity_funding (tx : CTransaction) (state : CValidationState)
    (hver : tx.IsScVersion = true) (hjs : tx.vjoinsplit = []) :
    ((ScMgr.checkTxSemanticValidity tx state).1 = true ↔
      ∀ sc ∈ tx.vsc_ccout, ∃ ft ∈ tx.vft_ccout, ft.scId = sc.scId) ∧
    (∀ sc ∈ tx.vsc_ccout, (∀ ft ∈ tx.vft_ccout, ft.scId ≠ sc.scId) →
      (ScMgr.checkTxSemanticValidity tx state).1 = false) := by
  have key : (ScMgr.checkTxSemanticValidity tx state).1 = true ↔
      ∀ sc ∈ tx.vsc_ccout, ∃ ft ∈ tx.vft_ccout, ft.scId = sc.scId := by
    unfold ScMgr.checkTxSemanticValidity
    simp only [hver, hjs, Bool.not_true, List.length_nil, gt_iff_lt, lt_irrefl, if_false,
      Bool.false_eq_true]
    by_cases h : tx.vsc_ccout.any (fun sc => !ScMgr.anyForwardTransaction tx sc.scId) = true
    · simp only [h, if_true, CValidationState.DoS, Bool.false_eq_true, false_iff]
      intro hall
      obtain ⟨sc, hsc, hx⟩ := List.any_eq_true.mp h
      have := (anyForwardTransaction_iff tx sc.scId).mpr (hall sc hsc)
      rw [this] at hx
      exact absurd hx (by simp)
    · simp only [h, Bool.false_eq_true, if_false, true_iff]
      intro sc hsc
      apply (anyForwardTransaction_iff tx sc.scId).mp
      cases hv : ScMgr.anyForwardTransaction tx sc.scId
      · exact absurd (List.any_eq_true.mpr ⟨sc, hsc, by simp [hv]⟩) h
      · rfl
  refine ⟨key, ?_⟩
  intro sc hsc hno
  cases hv : (ScMgr.checkTxSemanticValidity tx state).1
  · rfl
  · obtain ⟨ft, hft, he⟩ := key.mp hv sc hsc
    exact absurd he (hno ft hft)

/-- C2 at a concrete transaction: version supporting sidechains, no joinsplit,
one creation of ScId 7 funded by a forward transfer of 100. -/
theorem checkTxSemanticValidity_funding_witness :
    (ScMgr.checkTxSemanticValidity sampleTxCreateFund sampleState).1 = true :=
  ((checkTxSemanticValidity_funding sampleTxCreateFund sampleState rfl rfl).1).mpr
    (by simp [sampleTxCreateFund])

/-- C3: version consistency of `checkTxSemanticValidity`. A transaction whose
version does not support sidechain outputs is valid exactly when it has no
creation and no forward-transfer output; a transaction whose version supports
them and that carries a joinsplit is invalid. -/
theorem checkTxSemanticValidity_version (tx : CTransaction) (state : CValidationState) :
    (tx.IsScVersion = false →
      ((ScMgr.checkTxSemanticValidity tx state).1 = true ↔
        tx.vsc_ccout = [] ∧ tx.vft_ccout = [])) ∧
    (tx.IsScVersion = true → tx.vjoinsplit ≠ [] →
      (ScMgr.checkTxSemanticValidity tx state).1 = false) := by
  constructor
  · intro hver
    unfold ScMgr.checkTxSemanticValidity
    have hnull : tx.ccIsNull = true ↔ tx.vsc_ccout = [] ∧ tx.vft_ccout = [] := by
      simp [CTransaction.ccIsNull, List.isEmpty_iff]
    rw [← hnull]
    cases tx.ccIsNull <;> simp [hver, CValidationState.DoS]
  · intro hver hjs
    unfold ScMgr.checkTxSemanticValidity
    have hlen : tx.vjoinsplit.length > 0 := List.length_pos.mpr hjs
    simp only [hver, Bool.not_true, Bool.false_eq_true, if_false, hlen, if_true,
      CValidationState.DoS]

/-- C3 at concrete transactions: an old-version transaction with a forward
transfer is not valid, and a sidechain-version transaction with a joinsplit is
invalid. -/
theorem checkTxSemanticValidity_version_witness :
    (ScMgr.checkTxSemanticValidity sampleTxOldVersion sampleState).1 ≠ true ∧
    (ScMgr.checkTxSemanticValidity sampleTxJoinsplit sampleState).1 = false :=
  ⟨fun h => by
      have := ((checkTxSemanticValidity_version sampleTxOldVersion sampleState).1 rfl).mp h
      simp [sampleTxOldVersion] at this,
    (checkTxSemanticValidity_version sampleTxJoinsplit sampleState).2 rfl
      (by simp [sampleTxJoinsplit])⟩

theorem hasSCCreationConflictsInMempool_eq_false_iff (pool : CTxMemPool) (tx : CTransaction) :
    ScMgr.hasSCCreationConflictsInMempool pool tx = false ↔
      ∃ sc ∈ tx.vsc_ccout, ∃ it ∈ pool.mapTx, ∃ mpSc ∈ it.2.vsc_ccout,
        mpSc.scId = sc.scId := by
  unfold ScMgr.hasSCCreationConflictsInMempool
  by_cases h : tx.vsc_ccout.any (fun sc =>
      pool.mapTx.any (fun it =>
        it.2.vsc_ccout.any (fun mpSc => decide (mpSc.scId = sc.scId)))) = true
  · simp only [h, if_true, true_iff]
    obtain ⟨sc, hsc, h1⟩ := List.any_eq_true.mp h
    obtain ⟨it, hit, h2⟩ := List.any_eq_true.mp h1
    obtain ⟨mpSc, hmp, h3⟩ := List.any_eq_true.mp h2
    exact ⟨sc, hsc, it, hit, mpSc, hmp, of_decide_eq_true h3⟩
  · simp only [h, Bool.false_eq_true, if_false, Bool.true_eq_false, false_iff]
    rintro ⟨sc, hsc, it, hit, mpSc, hmp, he⟩
    exact h (List.any_eq_true.mpr ⟨sc, hsc, List.any_eq_true.mpr ⟨it, hit,
      List.any_eq_true.mpr ⟨mpSc, hmp, decide_eq_true he⟩⟩⟩)

/-- C4: `IsTxAllowedInMempool` rejects a transaction exactly when one of its
creation outputs has the ScId of a creation output of a pool transaction. Hence
a transaction without creation outputs is accepted, a pool without creation
outputs accepts every transaction, and a second creation of an ScId the pool
already creates is rejected. -/
theorem IsTxAllowedInMempool_rejects_iff (pool : CTxMemPool) (tx : CTransaction)
    (state : CValidationState) :
    ((ScMgr.IsTxAllowedInMempool pool tx state).1 = false ↔
      ∃ sc ∈ tx.vsc_ccout, ∃ it ∈ pool.mapTx, ∃ mpSc ∈ it.2.vsc_ccout,
        mpSc.scId = sc.scId) ∧
    (tx.vsc_ccout = [] → (ScMgr.IsTxAllowedInMempool pool tx state).1 = true) ∧
    ((∀ it ∈ pool.mapTx, it.2.vsc_ccout = []) →
      (ScMgr.IsTxAllowedInMempool pool tx state).1 = true) := by
  have key : (ScMgr.IsTxAllowedInMempool pool tx state).1 = false ↔
      ∃ sc ∈ tx.vsc_ccout, ∃ it ∈ pool.mapTx, ∃ mpSc ∈ it.2.vsc_ccout,
        mpSc.scId = sc.scId := by
    rw [← hasSCCreationConflictsInMempool_eq_false_iff]
    unfold ScMgr.IsTxAllowedInMempool
    cases ScMgr.hasSCCreationConflictsInMempool pool tx <;>
      simp [CValidationState.Invalid, CValidationState.DoS]
  refine ⟨key, ?_, ?_⟩
  · intro hnil
    cases hv : (ScMgr.IsTxAllowedInMempool pool tx state).1
    · obtain ⟨sc, hsc, _⟩ := key.mp hv
      rw [hnil] at hsc
      exact absurd hsc (List.not_mem_nil sc)
    · rfl
  · intro hpool
    cases hv : (ScMgr.IsTxAllowedInMempool pool tx state).1
    · obtain ⟨sc, _, it, hit, mpSc, hmp, _⟩ := key.mp hv
      rw [hpool it hit] at hmp
      exact absurd hmp (List.not_mem_nil mpSc)
    · rfl

/-- C4 at a concrete pool: the pool holds a transaction creating ScId 7; a
second transaction creating ScId 7 is rejected. -/
theorem IsTxAllowedInMempool_rejects_witness :
    (ScMgr.IsTxAllowedInMempool samplePool sampleTxCreateAgain sampleState).1 = false :=
  ((IsTxAllowedInMempool_rejects_iff samplePool sampleTxCreateAgain sampleState).1).mpr
    (by simp [samplePool, sampleTxCreateAgain, sampleTxCreateFund])

/-- C5, the claim refuted as stated: with a pool transaction creating ScId 7
and a transaction creating ScId 7 too, a matching creation exists and yet
`hasSCCreationConflictsInMempool` returns false, not true. -/
theorem hasSCCreationConflictsInMempool_false_on_conflict :
    (∃ sc ∈ sampleTxCreateAgain.vsc_ccout, ∃ it ∈ samplePool.mapTx,
        ∃ mpSc ∈ it.2.vsc_ccout, mpSc.scId = sc.scId) ∧
    ScMgr.hasSCCreationConflictsInMempool samplePool sampleTxCreateAgain = false ∧
    ¬ (ScMgr.hasSCCreationConflictsInMempool samplePool sampleTxCreateAgain = true ↔
        ∃ sc ∈ sampleTxCreateAgain.vsc_ccout, ∃ it ∈ samplePool.mapTx,
          ∃ mpSc ∈ it.2.vsc_ccout, mpSc.scId = sc.scId) := by
  have hex : ∃ sc ∈ sampleTxCreateAgain.vsc_ccout, ∃ it ∈ samplePool.mapTx,
      ∃ mpSc ∈ it.2.vsc_ccout, mpSc.scId = sc.scId := by
    simp [samplePool, sampleTxCreateAgain, sampleTxCreateFund]
  have hf : ScMgr.hasSCCreationConflictsInMempool samplePool sampleTxCreateAgain = false := by
    decide
  refine ⟨hex, hf, ?_⟩
  rw [hf]
  intro h
  exact absurd (h.mpr hex) (by simp)

/-- C5 as amended: `hasSCCreationConflictsInMempool` returns false exactly when
a creation output of the transaction has the ScId of a creation output of a
pending pool transaction, and true exactly when there is no such match. -/
theorem hasSCCreationConflictsInMempool_polarity (pool : CTxMemPool) (tx : CTransaction) :
    (ScMgr.hasSCCreationConflictsInMempool pool tx = false ↔
      ∃ sc ∈ tx.vsc_ccout, ∃ it ∈ pool.mapTx, ∃ mpSc ∈ it.2.vsc_ccout,
        mpSc.scId = sc.scId) ∧
    (ScMgr.hasSCCreationConflictsInMempool pool tx = true ↔
      ¬ ∃ sc ∈ tx.vsc_ccout, ∃ it ∈ pool.mapTx, ∃ mpSc ∈ it.2.vsc_ccout,
        mpSc.scId = sc.scId) := by
  refine ⟨hasSCCreationConflictsInMempool_eq_false_iff pool tx, ?_⟩
  rw [← hasSCCreationConflictsInMempool_eq_false_iff]
  cases ScMgr.hasSCCreationConflictsInMempool pool tx <;> simp

/-! ## The overlay: apply and undo -/

/-- The sum of the amounts among `calls` whose ScId is `k`. -/
def callSum : List (uint256 × CAmount) → uint256 → CAmount
  | [], _ => 0
  | call :: rest, k => (if call.1 = k then call.2 else 0) + callSum rest k

/-- The sum of the amounts of the forward-transfer outputs targeting `k`. -/
def ftSum (fts : List CTxForwardTransferOut) (k : uint256) : CAmount :=
  ((fts.filter (fun ft => decide (ft.scId = k))).map (fun ft => ft.nValue)).sum

/-- The balance staged for `k`, 0 when `k` is not staged. -/
def ScCoinsViewCache.balanceOf (v : ScCoinsViewCache) (k : uint256) : CAmount :=
  match v.mUpdate.find k with
  | some info => info.balance
  | none => 0

theorem callSum_apply (fts : List CTxForwardTransferOut) (k : uint256) :
    callSum (fts.map (fun ft => (ft.scId, ft.nValue))) k = ftSum fts k := by
  induction fts with
  | nil => rfl
  | cons ft rest ih =>
    have ih' : callSum (List.map (fun ft => (ft.scId, ft.nValue)) rest) k =
        ftSum rest k := ih
    by_cases h : ft.scId = k
    · simp [callSum, ftSum, List.filter_cons, h, ih'] at ih' ⊢
    · simp [callSum, ftSum, List.filter_cons, h, ih'] at ih' ⊢

theorem callSum_undo (fts : List CTxForwardTransferOut) (k : uint256) :
    callSum (fts.map (fun ftUndo => (ftUndo.scId, -ftUndo.nValue))) k = -ftSum fts k := by
  induction fts with
  | nil => rfl
  | cons ft rest ih =>
    by_cases h : ft.scId = k
    · simp [callSum, ftSum, List.filter_cons, h] at ih ⊢
      rw [ih]
      ring
    · simp [callSum, ftSum, List.filter_cons, h] at ih ⊢
      rw [ih]

theorem addBalance_zero (info : ScInfo) : ScInfo.addBalance 0 info = info := by
  simp [ScInfo.addBalance]

theorem addBalance_addBalance (a b : CAmount) (info : ScInfo) :
    ScInfo.addBalance b (ScInfo.addBalance a info) = ScInfo.addBalance (a + b) info := by
  simp [ScInfo.addBalance, add_assoc]

namespace ScCoinsViewCache

theorem updateSidechainBalance_find (v : ScCoinsViewCache) (k : uint256) (a : CAmount)
    (x : uint256) :
    (v.updateSidechainBalance k a).2.mUpdate.find x =
      if x = k then (v.mUpdate.find k).map (ScInfo.addBalance a) else v.mUpdate.find x := by
  unfold updateSidechainBalance
  cases hk : v.mUpdate.find k with
  | none =>
    by_cases hx : x = k
    · simp [hx, hk]
    · simp [hx]
  | some info => simp [StdMap.find_modify, hk]

theorem updateSidechainBalance_sErase (v : ScCoinsViewCache) (k : uint256) (a : CAmount) :
    (v.updateSidechainBalance k a).2.sErase = v.sErase := by
  unfold updateSidechainBalance
  cases v.mUpdate.find k <;> rfl

theorem updateSidechainBalance_true_iff (v : ScCoinsViewCache) (k : uint256) (a : CAmount) :
    (v.updateSidechainBalance k a).1 = true ↔
      ∃ info, v.mUpdate.find k = some info ∧ 0 ≤ info.balance + a := by
  unfold updateSidechainBalance
  cases hk : v.mUpdate.find k with
  | none => simp
  | some info => simp

theorem updateBalanceLoop_sErase (calls : List (uint256 × CAmount)) (v : ScCoinsViewCache) :
    (updateBalanceLoop calls v).2.sErase = v.sErase := by
  induction calls generalizing v with
  | nil => rfl
  | cons call rest ih =>
    unfold updateBalanceLoop
    by_cases h : (v.updateSidechainBalance call.1 call.2).1 = true
    · simp only [h, if_true]
      rw [ih, updateSidechainBalance_sErase]
    · simp only [h, Bool.false_eq_true, if_false]
      rw [updateSidechainBalance_sErase]

/-- After a successful run of the balance loop every staged record has had the
sum of the amounts addressed to it added to its balance. -/
theorem updateBalanceLoop_find (calls : List (uint256 × CAmount)) (v : ScCoinsViewCache)
    (hret : (updateBalanceLoop calls v).1 = true) (x : uint256) :
    (updateBalanceLoop calls v).2.mUpdate.find x =
      (v.mUpdate.find x).map (ScInfo.addBalance (callSum calls x)) := by
  induction calls generalizing v with
  | nil =>
    simp only [updateBalanceLoop, callSum]
    cases v.mUpdate.find x <;> simp [addBalance_zero]
  | cons call rest ih =>
    unfold updateBalanceLoop at hret ⊢
    by_cases h : (v.updateSidechainBalance call.1 call.2).1 = true
    · simp only [h, if_true] at hret ⊢
      rw [ih _ hret, updateSidechainBalance_find]
      by_cases hx : x = call.1
      · subst hx
        cases hv : v.mUpdate.find call.1 with
        | none => simp
        | some i => simp [callSum, addBalance_addBalance]
      · have hx' : ¬ call.1 = x := fun e => hx e.symm
        simp [callSum, hx, hx']
    · simp [h] at hret

/-- A successful run of the balance loop found every addressed ScId staged. -/
theorem updateBalanceLoop_targets (calls : List (uint256 × CAmount)) (v : ScCoinsViewCache)
    (hret : (updateBalanceLoop calls v).1 = true) :
    ∀ call ∈ calls, (v.mUpdate.find call.1).isSome = true := by
  induction calls generalizing v with
  | nil => intro call hc; exact absurd hc (List.not_mem_nil call)
  | cons call rest ih =>
    unfold updateBalanceLoop at hret
    by_cases h : (v.updateSidechainBalance call.1 call.2).1 = true
    · simp only [h, if_true] at hret
      intro c hc
      rcases List.mem_cons.mp hc with rfl | hc
      · obtain ⟨info, hinfo, _⟩ := (updateSidechainBalance_true_iff v _ _).mp h
        simp [hinfo]
      · have := ih _ hret c hc
        rw [updateSidechainBalance_find] at this
        by_cases hx : c.1 = call.1
        · simp only [hx, if_true] at this
          rw [hx]
          cases hv : v.mUpdate.find call.1
          · simp [hv] at this
          · rfl
        · simpa [hx] using this
    · simp [h] at hret

theorem addSidechain_fst (v : ScCoinsViewCache) (k : uint256) (info : ScInfo) :
    (v.addSidechain k info).1 = (v.mUpdate.find k).isNone :=
  StdMap.insert_snd v.mUpdate k info

theorem addSidechain_find (v : ScCoinsViewCache) (k : uint256) (info : ScInfo) (x : uint256) :
    (v.addSidechain k info).2.mUpdate.find x =
      if x = k then some ((v.mUpdate.find k).getD info) else v.mUpdate.find x :=
  StdMap.find_insert v.mUpdate k info x

/-- What a successful `createSidechain` loop did: no output's ScId was staged
before, the outputs' ScIds are pairwise distinct, the erase set is untouched, and
a lookup now answers the record built for the output carrying that ScId, or what
it answered before when no output carries it. -/
theorem createSidechainLoop_spec (blockHash txHash : uint256) (nHeight : Int)
    (scs : List CTxScCreationOut) (v : ScCoinsViewCache)
    (hret : (createSidechainLoop blockHash txHash nHeight scs v).1 = true) :
    (∀ sc ∈ scs, v.mUpdate.find sc.scId = none) ∧
    (scs.map (fun sc => sc.scId)).Nodup ∧
    (createSidechainLoop blockHash txHash nHeight scs v).2.sErase = v.sErase ∧
    ∀ x, (createSidechainLoop blockHash txHash nHeight scs v).2.mUpdate.find x =
      ((scs.find? (fun sc => decide (sc.scId = x))).map
        (newScInfo blockHash txHash nHeight)).or (v.mUpdate.find x) := by
  induction scs generalizing v with
  | nil => simp [createSidechainLoop]
  | cons sc rest ih =>
    unfold createSidechainLoop at hret ⊢
    by_cases hex : v.sidechainExists sc.scId = true
    · simp [hex] at hret
    · have hnone : v.mUpdate.find sc.scId = none := by
        unfold sidechainExists at hex
        cases hv : v.mUpdate.find sc.scId
        · rfl
        · simp [hv] at hex
      have hadd : (v.addSidechain sc.scId (newScInfo blockHash txHash nHeight sc)).1 = true := by
        rw [addSidechain_fst, hnone]
        rfl
      simp only [hex, Bool.false_eq_true, if_false, hadd, if_true] at hret ⊢
      obtain ⟨h1, h2, h3, h4⟩ := ih _ hret
      have hrest : ∀ sc' ∈ rest, sc'.scId ≠ sc.scId ∧ v.mUpdate.find sc'.scId = none := by
        intro sc' hsc'
        have := h1 sc' hsc'
        rw [addSidechain_find] at this
        by_cases he : sc'.scId = sc.scId
        · simp [he] at this
        · exact ⟨he, by simpa [he] using this⟩
      refine ⟨?_, ?_, ?_, ?_⟩
      · intro sc' hsc'
        rcases List.mem_cons.mp hsc' with rfl | hsc'
        · exact hnone
        · exact (hrest sc' hsc').2
      · rw [List.map_cons, List.nodup_cons]
        refine ⟨?_, h2⟩
        intro hmem
        obtain ⟨sc', hsc', he⟩ := List.mem_map.mp hmem
        exact (hrest sc' hsc').1 he
      · rw [h3]
        rfl
      · intro x
        rw [h4, addSidechain_find, hnone]
        by_cases hx : sc.scId = x
        · subst hx
          have hfind : rest.find? (fun sc' => decide (sc'.scId = sc.scId)) = none := by
            rw [List.find?_eq_none]
            intro sc' hsc'
            simpa using (hrest sc' hsc').1
          simp [List.find?_cons, hfind]
        · have hx' : ¬ x = sc.scId := fun e => hx e.symm
          simp [List.find?_cons, hx, hx']

theorem removeSidechain_find (v : ScCoinsViewCache) (k x : uint256) :
    (v.removeSidechain k).mUpdate.find x = if x = k then none else v.mUpdate.find x :=
  StdMap.find_erase v.mUpdate k x

theorem removeSidechain_mem_sErase (v : ScCoinsViewCache) (k x : uint256) :
    x ∈ (v.removeSidechain k).sErase.keys ↔ x = k ∨ x ∈ v.sErase.keys :=
  StdMap.mem_keys_insert v.sErase k () x

theorem deleteSidechain_true_iff (v : ScCoinsViewCache) (k : uint256) :
    (v.deleteSidechain k).1 = true ↔
      ∃ info, v.mUpdate.find k = some info ∧ info.balance ≤ 0 := by
  unfold deleteSidechain
  cases hk : v.mUpdate.find k with
  | none => simp
  | some info =>
    by_cases hb : info.balance > 0
    · simp only [hb, if_true]
      constructor
      · intro h
        exact absurd h (by simp)
      · rintro ⟨i, hi, hle⟩
        cases hi
        exact absurd hb (not_lt.mpr hle)
    · simp only [hb, if_false, true_iff]
      exact ⟨info, rfl, le_of_not_lt hb⟩

theorem deleteSidechain_snd_of_true (v : ScCoinsViewCache) (k : uint256)
    (h : (v.deleteSidechain k).1 = true) :
    (v.deleteSidechain k).2 = v.removeSidechain k := by
  unfold deleteSidechain at h ⊢
  cases hk : v.mUpdate.find k with
  | none => simp [hk] at h
  | some info =>
    by_cases hb : info.balance > 0
    · simp [hk, hb] at h
    · simp [hb]

/-- What a successful `deleteSidechain` loop did: every named ScId is gone from
the staged map and sits in the erase set, which gained nothing else, and the
other lookups answer as before. -/
theorem deleteLoop_spec (crs : List CTxScCreationOut) (v : ScCoinsViewCache)
    (hret : (deleteLoop crs v).1 = true) :
    (∀ x, (deleteLoop crs v).2.mUpdate.find x =
      if x ∈ crs.map (fun cr => cr.scId) then none else v.mUpdate.find x) ∧
    (∀ x, x ∈ (deleteLoop crs v).2.sErase.keys ↔
      x ∈ crs.map (fun cr => cr.scId) ∨ x ∈ v.sErase.keys) := by
  induction crs generalizing v with
  | nil => simp [deleteLoop]
  | cons cr rest ih =>
    unfold deleteLoop at hret ⊢
    by_cases h : (v.deleteSidechain cr.scId).1 = true
    · simp only [h, if_true] at hret ⊢
      obtain ⟨h1, h2⟩ := ih _ hret
      rw [deleteSidechain_snd_of_true v _ h] at h1 h2 ⊢
      constructor
      · intro x
        rw [h1, removeSidechain_find]
        by_cases hx : x = cr.scId
        · simp [hx]
        · simp [hx]
      · intro x
        rw [h2, removeSidechain_mem_sErase]
        simp only [List.map_cons, List.mem_cons]
        tauto
    · simp [h] at hret

end ScCoinsViewCache

theorem ftSum_eq_zero (fts : List CTxForwardTransferOut) (k : uint256)
    (h : ∀ ft ∈ fts, ft.scId ≠ k) : ftSum fts k = 0 := by
  have hnil : fts.filter (fun ft => decide (ft.scId = k)) = [] := by
    rw [List.filter_eq_nil_iff]
    intro ft hft
    simpa using h ft hft
  simp [ftSum, hnil]

theorem find?_scId_of_mem (scs : List CTxScCreationOut)
    (hnd : (scs.map (fun sc => sc.scId)).Nodup) (sc : CTxScCreationOut) (hsc : sc ∈ scs) :
    scs.find? (fun sc' => decide (sc'.scId = sc.scId)) = some sc := by
  cases hf : scs.find? (fun sc' => decide (sc'.scId = sc.scId)) with
  | none =>
    rw [List.find?_eq_none] at hf
    have := hf sc hsc
    simp at this
  | some sc' =>
    have hp : sc'.scId = sc.scId := by simpa using List.find?_some hf
    have hm : sc' ∈ scs := List.mem_of_find?_eq_some hf
    rw [List.inj_on_of_nodup_map hnd hm hsc hp]

theorem find?_scId_eq_none (scs : List CTxScCreationOut) (k : uint256)
    (h : ∀ sc ∈ scs, sc.scId ≠ k) :
    scs.find? (fun sc' => decide (sc'.scId = k)) = none := by
  rw [List.find?_eq_none]
  intro sc hsc
  simpa using h sc hsc

/-- The state a successful apply leaves, lookup by lookup: the record built for
the creation output carrying the ScId, or else the record staged before, with
the forward transfers to that ScId added to its balance; the erase set is as it
was. -/
theorem UpdateScCoins_find (v : ScCoinsViewCache) (tx : CTransaction) (block : CBlock)
    (nHeight : Int) (hret : (v.UpdateScCoins tx block nHeight).1 = true) :
    (∀ sc ∈ tx.vsc_ccout, v.mUpdate.find sc.scId = none) ∧
    (tx.vsc_ccout.map (fun sc => sc.scId)).Nodup ∧
    (v.UpdateScCoins tx block nHeight).2.sErase = v.sErase ∧
    ∀ x, (v.UpdateScCoins tx block nHeight).2.mUpdate.find x =
      ((((tx.vsc_ccout.find? (fun sc => decide (sc.scId = x))).map
        (ScCoinsViewCache.newScInfo block.GetHash tx.GetHash nHeight)).or
          (v.mUpdate.find x)).map (ScInfo.addBalance (ftSum tx.vft_ccout x))) := by
  unfold ScCoinsViewCache.UpdateScCoins at hret ⊢
  by_cases hc : (v.createSidechain tx block nHeight).1 = true
  · simp only [hc, if_true] at hret ⊢
    obtain ⟨h1, h2, h3, h4⟩ :=
      ScCoinsViewCache.createSidechainLoop_spec block.GetHash tx.GetHash nHeight tx.vsc_ccout v hc
    refine ⟨h1, h2, ?_, ?_⟩
    · rw [ScCoinsViewCache.updateBalanceLoop_sErase]
      exact h3
    · intro x
      rw [ScCoinsViewCache.updateBalanceLoop_find _ _ hret x, callSum_apply]
      unfold ScCoinsViewCache.createSidechain
      rw [h4 x]
  · simp [hc] at hret

/-- C6: postcondition of a successful apply. If `UpdateScCoins(tx, block, h)`
returns true then (1) every creation output's ScId is staged with the block's
hash, the height h, the transaction's hash and the output's
withdrawalEpochLength; (2) the balance of every staged ScId is its balance
before the call (0 when it was not staged, as for an ScId created by tx) plus
the sum of the amounts of tx's forward transfers targeting it; (3) a staged
ScId named by no output of tx has the record it had. -/
theorem UpdateScCoins_postcondition (v : ScCoinsViewCache) (tx : CTransaction)
    (block : CBlock) (nHeight : Int) (hret : (v.UpdateScCoins tx block nHeight).1 = true) :
    (∀ sc ∈ tx.vsc_ccout, ∃ info,
      (v.UpdateScCoins tx block nHeight).2.mUpdate.find sc.scId = some info ∧
      info.creationBlockHash = block.GetHash ∧ info.creationBlockHeight = nHeight ∧
      info.creationTxHash = tx.GetHash ∧
      info.creationData.withdrawalEpochLength = sc.withdrawalEpochLength) ∧
    (∀ k info, (v.UpdateScCoins tx block nHeight).2.mUpdate.find k = some info →
      info.balance = v.balanceOf k + ftSum tx.vft_ccout k) ∧
    (∀ k, (∀ sc ∈ tx.vsc_ccout, sc.scId ≠ k) → (∀ ft ∈ tx.vft_ccout, ft.scId ≠ k) →
      (v.UpdateScCoins tx block nHeight).2.mUpdate.find k = v.mUpdate.find k) := by
  obtain ⟨h1, h2, _, h4⟩ := UpdateScCoins_find v tx block nHeight hret
  refine ⟨?_, ?_, ?_⟩
  · intro sc hsc
    refine ⟨ScInfo.addBalance (ftSum tx.vft_ccout sc.scId)
      (ScCoinsViewCache.newScInfo block.GetHash tx.GetHash nHeight sc), ?_, rfl, rfl, rfl, rfl⟩
    rw [h4, find?_scId_of_mem _ h2 sc hsc]
    rfl
  · intro k info hk
    rw [h4] at hk
    unfold ScCoinsViewCache.balanceOf
    cases hf : tx.vsc_ccout.find? (fun sc => decide (sc.scId = k)) with
    | some sc =>
      have hp : sc.scId = k := by simpa using List.find?_some hf
      have hm : sc ∈ tx.vsc_ccout := List.mem_of_find?_eq_some hf
      have hnone := h1 sc hm
      rw [hp] at hnone
      rw [hf] at hk
      simp only [Option.map_some', Option.or, Option.some.injEq] at hk
      rw [hnone, ← hk]
      simp [ScInfo.addBalance, ScCoinsViewCache.newScInfo, ScInfo.init]
    | none =>
      rw [hf] at hk
      cases hv : v.mUpdate.find k with
      | none => simp [hv] at hk
      | some i =>
        rw [hv] at hk
        simp only [Option.map_none', Option.or, Option.map_some', Option.some.injEq] at hk
        rw [← hk]
        rfl
  · intro k hsc hft
    rw [h4, find?_scId_eq_none _ k hsc, ftSum_eq_zero _ k hft]
    cases v.mUpdate.find k <;> simp [addBalance_zero]

/-- C6 at a concrete input: the transaction creating ScId 7 and forwarding 100
to it is applied to the empty overlay at height 5 in the block of hash 9. -/
theorem UpdateScCoins_postcondition_witness :
    (sampleEmptyView.UpdateScCoins sampleTxCreateFund sampleBlock 5).1 = true ∧
    (∀ k info,
      (sampleEmptyView.UpdateScCoins sampleTxCreateFund sampleBlock 5).2.mUpdate.find k =
          some info →
        info.balance = sampleEmptyView.balanceOf k + ftSum sampleTxCreateFund.vft_ccout k) :=
  ⟨by decide,
    (UpdateScCoins_postcondition sampleEmptyView sampleTxCreateFund sampleBlock 5
      (by decide)).2.1⟩

/-- The state a successful undo leaves, lookup by lookup. -/
theorem UpdateScCoinsUndo_find (v : ScCoinsViewCache) (txundo : CTxUndo)
    (hret : (v.UpdateScCoinsUndo txundo).1 = true) :
    (∀ x, (v.UpdateScCoinsUndo txundo).2.mUpdate.find x =
      if x ∈ txundo.vsc_ccout.map (fun cr => cr.scId) then none
      else (v.mUpdate.find x).map (ScInfo.addBalance (-ftSum txundo.vft_ccout x))) ∧
    (∀ x, x ∈ (v.UpdateScCoinsUndo txundo).2.sErase.keys ↔
      x ∈ txundo.vsc_ccout.map (fun cr => cr.scId) ∨ x ∈ v.sErase.keys) := by
  unfold ScCoinsViewCache.UpdateScCoinsUndo at hret ⊢
  by_cases hb : (ScCoinsViewCache.updateBalanceLoop
      (txundo.vft_ccout.map (fun ftUndo => (ftUndo.scId, -ftUndo.nValue))) v).1 = true
  · simp only [hb, if_true] at hret ⊢
    obtain ⟨h1, h2⟩ := ScCoinsViewCache.deleteLoop_spec _ _ hret
    constructor
    · intro x
      rw [h1, ScCoinsViewCache.updateBalanceLoop_find _ _ hb x, callSum_undo]
    · intro x
      rw [h2, ScCoinsViewCache.updateBalanceLoop_sErase]
  · simp [hb] at hret

/-- C7: postcondition of a successful undo. If `UpdateScCoins(txundo)` returns
true then every ScId named by a creation record of txundo is absent from the
staged map and present in the erase set, and every other ScId staged before
the call is still staged, its record the same but for the balance, which is the
previous balance minus the sum of the amounts of txundo's forward-transfer
records targeting it; nothing else is staged. -/
theorem UpdateScCoinsUndo_postcondition (v : ScCoinsViewCache) (txundo : CTxUndo)
    (hret : (v.UpdateScCoinsUndo txundo).1 = true) :
    (∀ cr ∈ txundo.vsc_ccout,
      cr.scId ∉ (v.UpdateScCoinsUndo txundo).2.mUpdate.keys ∧
      cr.scId ∈ (v.UpdateScCoinsUndo txundo).2.sErase.keys) ∧
    (∀ k info, v.mUpdate.find k = some info → (∀ cr ∈ txundo.vsc_ccout, cr.scId ≠ k) →
      (v.UpdateScCoinsUndo txundo).2.mUpdate.find k =
        some { info with balance := info.balance - ftSum txundo.vft_ccout k }) ∧
    (∀ k, k ∈ (v.UpdateScCoinsUndo txundo).2.mUpdate.keys →
      k ∈ v.mUpdate.keys ∧ ∀ cr ∈ txundo.vsc_ccout, cr.scId ≠ k) := by
  obtain ⟨h1, h2⟩ := UpdateScCoinsUndo_find v txundo hret
  refine ⟨?_, ?_, ?_⟩
  · intro cr hcr
    have hmem : cr.scId ∈ txundo.vsc_ccout.map (fun cr => cr.scId) :=
      List.mem_map.mpr ⟨cr, hcr, rfl⟩
    constructor
    · rw [← StdMap.find_eq_none_iff, h1]
      simp [hmem]
    · exact (h2 _).mpr (Or.inl hmem)
  · intro k info hk hcr
    have hmem : k ∉ txundo.vsc_ccout.map (fun cr => cr.scId) := by
      intro hm
      obtain ⟨cr, hc, he⟩ := List.mem_map.mp hm
      exact hcr cr hc he
    rw [h1, hk]
    simp [hmem, ScInfo.addBalance, sub_eq_add_neg]
  · intro k hk
    rw [StdMap.mem_keys_iff, h1] at hk
    by_cases hmem : k ∈ txundo.vsc_ccout.map (fun cr => cr.scId)
    · simp [hmem] at hk
    · constructor
      · rw [StdMap.mem_keys_iff]
        cases hv : v.mUpdate.find k with
        | none => simp [hmem, hv] at hk
        | some i => rfl
      · intro cr hc he
        exact hmem (List.mem_map.mpr ⟨cr, hc, he⟩)

/-- C7 at a concrete input: the overlay holding ScId 7 with balance 100 undoes
the transaction that created and funded it. -/
theorem UpdateScCoinsUndo_postcondition_witness :
    (sampleFundedView.UpdateScCoinsUndo sampleUndo).1 = true ∧
    (∀ cr ∈ sampleUndo.vsc_ccout,
      cr.scId ∉ (sampleFundedView.UpdateScCoinsUndo sampleUndo).2.mUpdate.keys ∧
      cr.scId ∈ (sampleFundedView.UpdateScCoinsUndo sampleUndo).2.sErase.keys) :=
  ⟨by decide, (UpdateScCoinsUndo_postcondition sampleFundedView sampleUndo (by decide)).1⟩

/-! ## Flush -/

namespace Raw

variable {β : Type}

theorem entries_find_of_mem (l : List (uint256 × β)) (hl : (keys l).Pairwise (· < ·))
    (k : uint256) (v : β) (h : (k, v) ∈ l) : find l k = some v := by
  induction l with
  | nil => exact absurd h (List.not_mem_nil _)
  | cons e t ih =>
    obtain ⟨k', v'⟩ := e
    obtain ⟨hlt, hst⟩ := sorted_tail hl
    rcases List.mem_cons.mp h with he | ht
    · cases he
      simp [find]
    · have hk : k ∈ keys t := List.mem_map.mpr ⟨(k, v), ht, rfl⟩
      have hne : ¬ k' = k := ne_of_lt (hlt k hk)
      simp [find, hne, ih hst ht]

theorem mem_of_find (l : List (uint256 × β)) (k : uint256) (v : β)
    (h : find l k = some v) : (k, v) ∈ l := by
  induction l with
  | nil => simp [find] at h
  | cons e t ih =>
    obtain ⟨k', v'⟩ := e
    unfold find at h
    by_cases hk : k' = k
    · simp only [hk, if_true, Option.some.injEq] at h
      rw [hk, h]
      exact List.mem_cons_self _ _
    · simp only [hk, if_false] at h
      exact List.mem_cons_of_mem _ (ih h)

end Raw

theorem StdMap.find_of_mem {β : Type} (m : StdMap β) (k : uint256) (v : β)
    (h : (k, v) ∈ m.entries) : m.find k = some v :=
  Raw.entries_find_of_mem m.entries m.sorted k v h

/-- Assigning the entries of a list with increasing keys one after the other:
a lookup answers the list's entry when it has one and its old answer otherwise. -/
theorem find_foldl_assign (l : List (uint256 × ScInfo)) (hl : (Raw.keys l).Pairwise (· < ·))
    (acc : ScInfoMap) (x : uint256) :
    (l.foldl (fun acc e => acc.assign e.1 e.2) acc).find x =
      (Raw.find l x).or (acc.find x) := by
  induction l generalizing acc with
  | nil => simp [Raw.find]
  | cons e t ih =>
    obtain ⟨k, v⟩ := e
    obtain ⟨hlt, hst⟩ := Raw.sorted_tail hl
    rw [List.foldl_cons, ih hst, StdMap.find_assign]
    by_cases hx : k = x
    · subst hx
      simp [Raw.find, Raw.find_eq_none_of_lt t k hlt]
    · have hx' : ¬ x = k := fun e => hx e.symm
      simp [Raw.find, hx, hx']

/-- The overlay is constructed as a copy of the registry with an empty erase set. -/
theorem ctor_mUpdate (mgr : ScMgr) : (ScCoinsViewCache.ctor mgr).mUpdate = mgr.mScInfo := by
  apply StdMap.ext_find
  intro x
  unfold ScCoinsViewCache.ctor ScMgr.copyScInfoMap
  simp only
  rw [find_foldl_assign _ mgr.mScInfo.sorted]
  have : Raw.find mgr.mScInfo.entries x = mgr.mScInfo.find x := rfl
  rw [this]
  cases mgr.mScInfo.find x <;> simp [StdMap.find_empty]

theorem ctor_sErase (mgr : ScMgr) : (ScCoinsViewCache.ctor mgr).sErase = StdMap.empty := rfl

namespace ScMgr

theorem writeToDb_mScInfo (mgr : ScMgr) (k : uint256) (info : ScInfo) :
    (mgr.writeToDb k info).2.mScInfo = mgr.mScInfo := by
  unfold writeToDb
  cases mgr.db <;> rfl

theorem eraseFromDb_mScInfo (mgr : ScMgr) (k : uint256) :
    (mgr.eraseFromDb k).mScInfo = mgr.mScInfo := by
  unfold eraseFromDb
  cases mgr.db <;> rfl

theorem WriteBatch_reliable (db : CLevelDBWrapper) (batch : CLevelDBBatch)
    (h : db.faults.all (fun b => !b) = true) :
    (db.WriteBatch batch).1 = true ∧ (db.WriteBatch batch).2.faults.all (fun b => !b) = true := by
  unfold CLevelDBWrapper.WriteBatch
  cases hf : db.faults with
  | nil => simp
  | cons b rest =>
    rw [hf] at h
    cases b with
    | false =>
      simp only [List.all_cons, Bool.not_false, Bool.true_and] at h
      simp [h]
    | true => simp at h

theorem writeToDb_reliable (mgr : ScMgr) (k : uint256) (info : ScInfo)
    (h : mgr.storeReliable = true) :
    (mgr.writeToDb k info).1 = true ∧ (mgr.writeToDb k info).2.storeReliable = true := by
  unfold storeReliable at h
  unfold writeToDb storeReliable
  cases hdb : mgr.db with
  | none => simp [hdb] at h
  | some db =>
    rw [hdb] at h
    exact WriteBatch_reliable db _ h

theorem eraseFromDb_reliable (mgr : ScMgr) (k : uint256) (h : mgr.storeReliable = true) :
    (mgr.eraseFromDb k).storeReliable = true := by
  unfold storeReliable at h
  unfold eraseFromDb storeReliable
  cases hdb : mgr.db with
  | none => simp [hdb] at h
  | some db =>
    rw [hdb] at h
    exact (WriteBatch_reliable db _ h).2

end ScMgr

namespace ScCoinsViewCache

/-- The first loop of `Flush` when no store operation fails: it runs to its
end, and a lookup in the registry answers the staged entry when there is one
and its old answer otherwise. -/
theorem flushWriteLoop_reliable (l : List (uint256 × ScInfo))
    (hl : (Raw.keys l).Pairwise (· < ·)) (mgr : ScMgr) (h : mgr.storeReliable = true) :
    (flushWriteLoop l mgr).1 = true ∧ (flushWriteLoop l mgr).2.storeReliable = true ∧
    ∀ x, (flushWriteLoop l mgr).2.mScInfo.find x = (Raw.find l x).or (mgr.mScInfo.find x) := by
  induction l generalizing mgr with
  | nil => simp [flushWriteLoop, h, Raw.find]
  | cons e t ih =>
    obtain ⟨k, v⟩ := e
    obtain ⟨hlt, hst⟩ := Raw.sorted_tail hl
    obtain ⟨hw, hr⟩ := ScMgr.writeToDb_reliable mgr k v h
    unfold flushWriteLoop
    simp only [hw, if_true]
    have hr' : ScMgr.storeReliable
        { (mgr.writeToDb k v).2 with
          mScInfo := (mgr.writeToDb k v).2.mScInfo.assign k v } = true := hr
    obtain ⟨h1, h2, h3⟩ := ih hst _ hr'
    refine ⟨h1, h2, ?_⟩
    intro x
    rw [h3]
    simp only [StdMap.find_assign, ScMgr.writeToDb_mScInfo]
    by_cases hx : k = x
    · subst hx
      simp [Raw.find, Raw.find_eq_none_of_lt t k hlt]
    · have hx' : ¬ x = k := fun e => hx e.symm
      simp [Raw.find, hx, hx']

/-- Whatever the store does, a record found in the registry after the first
loop of `Flush` was in the registry before or is one of the staged entries. -/
theorem flushWriteLoop_find_origin (l : List (uint256 × ScInfo)) (mgr : ScMgr)
    (x : uint256) (info : ScInfo)
    (h : (flushWriteLoop l mgr).2.mScInfo.find x = some info) :
    mgr.mScInfo.find x = some info ∨ (x, info) ∈ l := by
  induction l generalizing mgr with
  | nil => exact Or.inl h
  | cons e t ih =>
    obtain ⟨k, v⟩ := e
    unfold flushWriteLoop at h
    by_cases hw : (mgr.writeToDb k v).1 = true
    · simp only [hw, if_true] at h
      rcases ih _ h with h1 | h1
      · simp only [StdMap.find_assign, ScMgr.writeToDb_mScInfo] at h1
        by_cases hx : x = k
        · simp only [hx, if_true, Option.some.injEq] at h1
          right
          rw [hx, ← h1]
          exact List.mem_cons_self _ _
        · simp only [hx, if_false] at h1
          exact Or.inl h1
      · exact Or.inr (List.mem_cons_of_mem _ h1)
    · simp only [hw, Bool.false_eq_true, if_false, ScMgr.writeToDb_mScInfo] at h
      exact Or.inl h

/-- Whatever its answer, the second loop of `Flush` only removes records. -/
theorem flushEraseLoop_find_origin (ids : List uint256) (mgr : ScMgr)
    (x : uint256) (info : ScInfo)
    (h : (flushEraseLoop ids mgr).2.mScInfo.find x = some info) :
    mgr.mScInfo.find x = some info := by
  induction ids generalizing mgr with
  | nil => exact h
  | cons k rest ih =>
    unfold flushEraseLoop at h
    by_cases hn : (mgr.mScInfo.erase k).2 ≠ 0
    · rw [if_pos hn] at h
      have := ih _ h
      rw [ScMgr.eraseFromDb_mScInfo] at this
      simp only [StdMap.find_erase] at this
      by_cases hx : x = k
      · simp [hx] at this
      · simpa [hx] using this
    · rw [if_neg hn] at h
      simp only [StdMap.find_erase] at h
      by_cases hx : x = k
      · simp [hx] at h
      · simpa [hx] using h

/-- The second loop of `Flush` over distinct ScIds that the registry all holds:
it answers true and removes exactly them. -/
theorem flushEraseLoop_spec (ids : List uint256) (hnd : ids.Nodup) (mgr : ScMgr)
    (hpres : ∀ k ∈ ids, (mgr.mScInfo.find k).isSome = true) :
    (flushEraseLoop ids mgr).1 = true ∧
    (mgr.storeReliable = true → (flushEraseLoop ids mgr).2.storeReliable = true) ∧
    ∀ x, (flushEraseLoop ids mgr).2.mScInfo.find x =
      if x ∈ ids then none else mgr.mScInfo.find x := by
  induction ids generalizing mgr with
  | nil => simp [flushEraseLoop]
  | cons k rest ih =>
    obtain ⟨hk, hnd'⟩ := List.nodup_cons.mp hnd
    have hn : (mgr.mScInfo.erase k).2 ≠ 0 :=
      (StdMap.erase_count_ne_zero_iff _ _).mpr (hpres k (List.mem_cons_self _ _))
    unfold flushEraseLoop
    rw [if_pos hn]
    have hpres' : ∀ k' ∈ rest,
        ((ScMgr.eraseFromDb { mgr with mScInfo := (mgr.mScInfo.erase k).1 } k).mScInfo.find
          k').isSome = true := by
      intro k' hk'
      rw [ScMgr.eraseFromDb_mScInfo]
      simp only [StdMap.find_erase]
      have hne : ¬ k' = k := fun e => hk (e ▸ hk')
      simp only [hne, if_false]
      exact hpres k' (List.mem_cons_of_mem _ hk')
    obtain ⟨h1, h2, h3⟩ := ih hnd' _ hpres'
    refine ⟨h1, ?_, ?_⟩
    · intro hrel
      apply h2
      exact ScMgr.eraseFromDb_reliable _ k hrel
    · intro x
      rw [h3, ScMgr.eraseFromDb_mScInfo]
      simp only [StdMap.find_erase, List.mem_cons]
      by_cases hx : x = k
      · simp [hx]
      · simp [hx]

end ScCoinsViewCache

namespace ScCoinsViewCache

/-- The outcome of `Flush` when no store operation fails and every ScId of the
erase set is staged or registered: it answers true, and the registry then
lacks the ScIds of the erase set and holds, for any other ScId, the staged
record if there is one and the record it held otherwise. -/
theorem Flush_reliable (v : ScCoinsViewCache) (mgr : ScMgr) (h : mgr.storeReliable = true)
    (hpres : ∀ k ∈ v.sErase.keys,
      (v.mUpdate.find k).isSome = true ∨ (mgr.mScInfo.find k).isSome = true) :
    (v.Flush mgr).1 = true ∧ (v.Flush mgr).2.storeReliable = true ∧
    ∀ x, (v.Flush mgr).2.mScInfo.find x =
      if x ∈ v.sErase.keys then none else (v.mUpdate.find x).or (mgr.mScInfo.find x) := by
  obtain ⟨hw1, hw2, hw3⟩ := flushWriteLoop_reliable v.mUpdate.entries v.mUpdate.sorted mgr h
  have hpres' : ∀ k ∈ v.sErase.keys,
      ((flushWriteLoop v.mUpdate.entries mgr).2.mScInfo.find k).isSome = true := by
    intro k hk
    rw [hw3]
    have hfind : Raw.find v.mUpdate.entries k = v.mUpdate.find k := rfl
    rw [hfind]
    rcases hpres k hk with h1 | h1
    · cases hv : v.mUpdate.find k with
      | none => simp [hv] at h1
      | some i => simp [Option.or]
    · cases hv : v.mUpdate.find k with
      | none => simpa [Option.or] using h1
      | some i => simp [Option.or]
  obtain ⟨he1, he2, he3⟩ := flushEraseLoop_spec v.sErase.keys v.sErase.keys_nodup _ hpres'
  unfold Flush
  simp only [hw1, if_true]
  refine ⟨he1, he2 hw2, ?_⟩
  intro x
  rw [he3, hw3]
  rfl

/-- The balance loop succeeds when every amount is at most 0, every addressed
ScId is staged and no staged balance would end below 0. -/
theorem updateBalanceLoop_true_of_nonpos (calls : List (uint256 × CAmount))
    (v : ScCoinsViewCache) (hneg : ∀ c ∈ calls, c.2 ≤ 0)
    (hpres : ∀ c ∈ calls, (v.mUpdate.find c.1).isSome = true)
    (hbal : ∀ x info, v.mUpdate.find x = some info → 0 ≤ info.balance + callSum calls x) :
    (updateBalanceLoop calls v).1 = true := by
  induction calls generalizing v with
  | nil => rfl
  | cons c rest ih =>
    have hrest_nonpos : ∀ x, callSum rest x ≤ 0 := by
      intro x
      have hr : ∀ c' ∈ rest, c'.2 ≤ 0 := fun c' hc' => hneg c' (List.mem_cons_of_mem _ hc')
      clear ih hbal hpres hneg
      induction rest with
      | nil => simp [callSum]
      | cons d t iht =>
        have hd : d.2 ≤ 0 := hr d (List.mem_cons_self _ _)
        have ht := iht (fun c' hc' => hr c' (List.mem_cons_of_mem _ hc'))
        unfold callSum
        by_cases hx : d.1 = x
        · simp only [hx, if_true]
          exact add_nonpos hd ht
        · simp only [hx, if_false, zero_add]
          exact ht
    have hstep : (v.updateSidechainBalance c.1 c.2).1 = true := by
      rw [updateSidechainBalance_true_iff]
      have hp := hpres c (List.mem_cons_self _ _)
      cases hv : v.mUpdate.find c.1 with
      | none => simp [hv] at hp
      | some info =>
        refine ⟨info, rfl, ?_⟩
        have hb := hbal c.1 info hv
        have hr := hrest_nonpos c.1
        simp only [callSum, if_true] at hb
        have e : info.balance + c.2 = (info.balance + (c.2 + callSum rest c.1)) +
            -callSum rest c.1 := by ring
        rw [e]
        exact add_nonneg hb (neg_nonneg.mpr hr)
    unfold updateBalanceLoop
    simp only [hstep, if_true]
    apply ih
    · intro c' hc'
      exact hneg c' (List.mem_cons_of_mem _ hc')
    · intro c' hc'
      rw [updateSidechainBalance_find]
      have hp := hpres c' (List.mem_cons_of_mem _ hc')
      by_cases hx : c'.1 = c.1
      · rw [hx] at hp
        simp only [hx, if_true]
        cases hv : v.mUpdate.find c.1 with
        | none => simp [hv] at hp
        | some i => rfl
      · simpa [hx] using hp
    · intro x info hx
      rw [updateSidechainBalance_find] at hx
      by_cases hxc : x = c.1
      · subst hxc
        simp only [if_true] at hx
        cases hv : v.mUpdate.find c.1 with
        | none => simp [hv] at hx
        | some i =>
          rw [hv] at hx
          simp only [Option.map_some', Option.some.injEq] at hx
          have hb := hbal c.1 i hv
          simp only [callSum, if_true] at hb
          rw [← hx]
          simp only [ScInfo.addBalance]
          rw [add_assoc]
          exact hb
      · simp only [hxc, if_false] at hx
        have hb := hbal x info hx
        have hxc' : ¬ c.1 = x := fun e => hxc e.symm
        simpa [callSum, hxc'] using hb

/-- The delete loop succeeds on distinct ScIds that are all staged with a
balance that is not positive. -/
theorem deleteLoop_true (crs : List CTxScCreationOut) (v : ScCoinsViewCache)
    (hnd : (crs.map (fun cr => cr.scId)).Nodup)
    (h : ∀ cr ∈ crs, ∃ info, v.mUpdate.find cr.scId = some info ∧ info.balance ≤ 0) :
    (deleteLoop crs v).1 = true := by
  induction crs generalizing v with
  | nil => rfl
  | cons cr rest ih =>
    rw [List.map_cons, List.nodup_cons] at hnd
    have hstep : (v.deleteSidechain cr.scId).1 = true :=
      (deleteSidechain_true_iff v cr.scId).mpr (h cr (List.mem_cons_self _ _))
    unfold deleteLoop
    simp only [hstep, if_true]
    apply ih _ hnd.2
    intro cr' hcr'
    rw [deleteSidechain_snd_of_true v _ hstep, removeSidechain_find]
    have hne : ¬ cr'.scId = cr.scId := by
      intro e
      apply hnd.1
      rw [← e]
      exact List.mem_map.mpr ⟨cr', hcr', rfl⟩
    simp only [hne, if_false]
    exact h cr' (List.mem_cons_of_mem _ hcr')

end ScCoinsViewCache

/-- A successful apply leaves every forward-transfer target staged. -/
theorem UpdateScCoins_targets (v : ScCoinsViewCache) (tx : CTransaction) (block : CBlock)
    (nHeight : Int) (hret : (v.UpdateScCoins tx block nHeight).1 = true) :
    ∀ ft ∈ tx.vft_ccout,
      ((v.UpdateScCoins tx block nHeight).2.mUpdate.find ft.scId).isSome = true := by
  unfold ScCoinsViewCache.UpdateScCoins at hret ⊢
  by_cases hc : (v.createSidechain tx block nHeight).1 = true
  · simp only [hc, if_true] at hret ⊢
    intro ft hft
    have hin : (ft.scId, ft.nValue) ∈ tx.vft_ccout.map (fun ft => (ft.scId, ft.nValue)) :=
      List.mem_map.mpr ⟨ft, hft, rfl⟩
    have := ScCoinsViewCache.updateBalanceLoop_targets _ _ hret _ hin
    rw [ScCoinsViewCache.updateBalanceLoop_find _ _ hret]
    simp only at this
    cases hv : (v.createSidechain tx block nHeight).2.mUpdate.find ft.scId with
    | none => simp [hv] at this
    | some i => rfl
  · simp [hc] at hret

/-! ## Apply, flush, undo, flush -/

/-- C8, the claim refuted as stated: the registry holds ScId 7 with balance
-10 and the store never fails; the transaction forwards 50 (a non-negative
amount) to ScId 7. The apply on a fresh overlay returns true and its `Flush`
returns true, yet the undo of the same outputs on a fresh overlay of the
resulting registry returns false, because it would bring the balance back to
-10. -/
theorem apply_undo_fails_on_negative_registry_balance :
    (sampleMgrWith (-10)).storeReliable = true ∧
    (∀ ft ∈ sampleTxForward.vft_ccout, 0 ≤ ft.nValue) ∧
    (applyAndFlush (sampleMgrWith (-10)) sampleTxForward sampleBlock 5).1 = true ∧
    (applyAndFlush (sampleMgrWith (-10)) sampleTxForward sampleBlock 5).2.1 = true ∧
    (undoAndFlush (applyAndFlush (sampleMgrWith (-10)) sampleTxForward sampleBlock 5).2.2
      (CTxUndo.ofTx sampleTxForward)).1 = false := by
  decide

/-- C8 as amended: apply/undo symmetry over a registry whose balances are all
at least 0. For such a registry and a transaction with non-negative forward
transfer amounts, every store operation succeeding: if the apply on a fresh
overlay of the registry returns true, then the `Flush` of that overlay returns
true, the undo of the same forward-transfer and creation outputs on a fresh
overlay of the resulting registry returns true, the `Flush` of that overlay
returns true, and the registry mapping is then equal to the one at the start. -/
theorem apply_undo_symmetry (mgr : ScMgr) (tx : CTransaction) (block : CBlock) (nHeight : Int)
    (hstore : mgr.storeReliable = true)
    (hR : balancesNonneg mgr.mScInfo)
    (hamt : ∀ ft ∈ tx.vft_ccout, 0 ≤ ft.nValue)
    (happly : (applyAndFlush mgr tx block nHeight).1 = true) :
    (applyAndFlush mgr tx block nHeight).2.1 = true ∧
    (undoAndFlush (applyAndFlush mgr tx block nHeight).2.2 (CTxUndo.ofTx tx)).1 = true ∧
    (undoAndFlush (applyAndFlush mgr tx block nHeight).2.2 (CTxUndo.ofTx tx)).2.1 = true ∧
    (undoAndFlush (applyAndFlush mgr tx block nHeight).2.2 (CTxUndo.ofTx tx)).2.2.mScInfo =
      mgr.mScInfo := by
  simp only [applyAndFlush] at happly ⊢
  -- the apply
  obtain ⟨h1, h2, h3, h4⟩ := UpdateScCoins_find _ tx block nHeight happly
  have h5 := UpdateScCoins_targets _ tx block nHeight happly
  rw [ctor_mUpdate] at h1 h4
  rw [ctor_sErase] at h3
  generalize ((ScCoinsViewCache.ctor mgr).UpdateScCoins tx block nHeight).2 = v1 at h3 h4 h5 ⊢
  -- the record a lookup answers once the balances are taken back
  have hbase : ∀ x b,
      ((tx.vsc_ccout.find? (fun sc => decide (sc.scId = x))).map
        (ScCoinsViewCache.newScInfo block.GetHash tx.GetHash nHeight)).or
          (mgr.mScInfo.find x) = some b → 0 ≤ b.balance := by
    intro x b hb
    cases hf : tx.vsc_ccout.find? (fun sc => decide (sc.scId = x)) with
    | some sc =>
      rw [hf] at hb
      simp only [Option.map_some', Option.or, Option.some.injEq] at hb
      rw [← hb]
      simp [ScCoinsViewCache.newScInfo, ScInfo.init]
    | none =>
      rw [hf] at hb
      simp only [Option.map_none', Option.or] at hb
      exact hR x b hb
  have hcreated : ∀ x, x ∈ tx.vsc_ccout.map (fun sc => sc.scId) → mgr.mScInfo.find x = none := by
    intro x hx
    obtain ⟨sc, hsc, he⟩ := List.mem_map.mp hx
    rw [← he]
    exact h1 sc hsc
  have hnotcreated : ∀ x, x ∉ tx.vsc_ccout.map (fun sc => sc.scId) →
      tx.vsc_ccout.find? (fun sc => decide (sc.scId = x)) = none := by
    intro x hx
    apply find?_scId_eq_none
    intro sc hsc he
    exact hx (List.mem_map.mpr ⟨sc, hsc, he⟩)
  -- the first flush
  have hkeys0 : ∀ k, k ∉ (StdMap.empty : ScIdSet).keys := by
    intro k hk
    cases hk
  obtain ⟨hf1, hrel1, hreg1⟩ := ScCoinsViewCache.Flush_reliable v1 mgr hstore (by
    intro k hk
    rw [h3] at hk
    exact absurd hk (hkeys0 k))
  have hreg1' : (v1.Flush mgr).2.mScInfo = v1.mUpdate := by
    apply StdMap.ext_find
    intro x
    rw [hreg1, h3]
    simp only [hkeys0 x, if_false]
    rw [h4]
    cases hf : tx.vsc_ccout.find? (fun sc => decide (sc.scId = x)) with
    | some sc => simp [Option.or]
    | none => cases hv : mgr.mScInfo.find x <;> simp [Option.or]
  refine ⟨hf1, ?_⟩
  generalize (v1.Flush mgr).2 = mgr1 at hrel1 hreg1' ⊢
  simp only [undoAndFlush]
  -- the undo on a fresh overlay
  have hv2 : (ScCoinsViewCache.ctor mgr1).mUpdate = v1.mUpdate := by
    rw [ctor_mUpdate, hreg1']
  have hv2e : (ScCoinsViewCache.ctor mgr1).sErase = StdMap.empty := rfl
  generalize ScCoinsViewCache.ctor mgr1 = v2 at hv2 hv2e ⊢
  have hbal : (ScCoinsViewCache.updateBalanceLoop
      ((CTxUndo.ofTx tx).vft_ccout.map (fun ftUndo => (ftUndo.scId, -ftUndo.nValue))) v2).1 =
      true := by
    apply ScCoinsViewCache.updateBalanceLoop_true_of_nonpos
    · intro c hc
      obtain ⟨ft, hft, he⟩ := List.mem_map.mp hc
      rw [← he]
      exact neg_nonpos.mpr (hamt ft hft)
    · intro c hc
      obtain ⟨ft, hft, he⟩ := List.mem_map.mp hc
      rw [← he, hv2]
      exact h5 ft hft
    · intro x info hx
      rw [hv2, h4] at hx
      rw [callSum_undo]
      cases hb : ((tx.vsc_ccout.find? (fun sc => decide (sc.scId = x))).map
          (ScCoinsViewCache.newScInfo block.GetHash tx.GetHash nHeight)).or
            (mgr.mScInfo.find x) with
      | none => simp [hb] at hx
      | some b =>
        rw [hb] at hx
        simp only [Option.map_some', Option.some.injEq] at hx
        have := hbase x b hb
        rw [← hx]
        simp only [ScInfo.addBalance, CTxUndo.ofTx]
        have e : b.balance + ftSum tx.vft_ccout x + -ftSum tx.vft_ccout x = b.balance := by ring
        rw [e]
        exact this
  have hv3 : ∀ x, (ScCoinsViewCache.updateBalanceLoop
      ((CTxUndo.ofTx tx).vft_ccout.map (fun ftUndo => (ftUndo.scId, -ftUndo.nValue))) v2).2.mUpdate.find
        x = ((tx.vsc_ccout.find? (fun sc => decide (sc.scId = x))).map
          (ScCoinsViewCache.newScInfo block.GetHash tx.GetHash nHeight)).or
            (mgr.mScInfo.find x) := by
    intro x
    rw [ScCoinsViewCache.updateBalanceLoop_find _ _ hbal, hv2, h4, callSum_undo]
    cases ((tx.vsc_ccout.find? (fun sc => decide (sc.scId = x))).map
          (ScCoinsViewCache.newScInfo block.GetHash tx.GetHash nHeight)).or
            (mgr.mScInfo.find x) with
    | none => rfl
    | some b =>
      simp only [Option.map_some', CTxUndo.ofTx, addBalance_addBalance, add_neg_cancel,
        addBalance_zero]
  have hdel : (ScCoinsViewCache.deleteLoop (CTxUndo.ofTx tx).vsc_ccout
      (ScCoinsViewCache.updateBalanceLoop
        ((CTxUndo.ofTx tx).vft_ccout.map (fun ftUndo => (ftUndo.scId, -ftUndo.nValue))) v2).2).1 =
      true := by
    apply ScCoinsViewCache.deleteLoop_true _ _ h2
    intro cr hcr
    refine ⟨ScCoinsViewCache.newScInfo block.GetHash tx.GetHash nHeight cr, ?_, ?_⟩
    · rw [hv3, find?_scId_of_mem _ h2 cr hcr]
      rfl
    · simp [ScCoinsViewCache.newScInfo, ScInfo.init]
  have hundo : (v2.UpdateScCoinsUndo (CTxUndo.ofTx tx)).1 = true := by
    unfold ScCoinsViewCache.UpdateScCoinsUndo
    simp only [hbal, if_true]
    exact hdel
  refine ⟨hundo, ?_⟩
  obtain ⟨hu1, hu2⟩ := UpdateScCoinsUndo_find v2 (CTxUndo.ofTx tx) hundo
  have hids : ∀ x, x ∈ (v2.UpdateScCoinsUndo (CTxUndo.ofTx tx)).2.sErase.keys ↔
      x ∈ tx.vsc_ccout.map (fun sc => sc.scId) := by
    intro x
    rw [hu2, hv2e]
    constructor
    · rintro (h | h)
      · exact h
      · exact absurd h (hkeys0 x)
    · intro h
      exact Or.inl h
  have hv4 : ∀ x, (v2.UpdateScCoinsUndo (CTxUndo.ofTx tx)).2.mUpdate.find x =
      mgr.mScInfo.find x := by
    intro x
    rw [hu1]
    by_cases hx : x ∈ tx.vsc_ccout.map (fun sc => sc.scId)
    · have hx' : x ∈ (CTxUndo.ofTx tx).vsc_ccout.map (fun cr => cr.scId) := hx
      simp only [hx', if_true]
      exact (hcreated x hx).symm
    · have hx' : x ∉ (CTxUndo.ofTx tx).vsc_ccout.map (fun cr => cr.scId) := hx
      simp only [hx', if_false]
      rw [hv2, h4, hnotcreated x hx]
      cases hv : mgr.mScInfo.find x with
      | none => rfl
      | some b =>
        simp only [Option.map_none', Option.or, Option.map_some', CTxUndo.ofTx,
          addBalance_addBalance, add_neg_cancel, addBalance_zero]
  -- the second flush
  obtain ⟨hf2, _, hreg2⟩ := ScCoinsViewCache.Flush_reliable
    (v2.UpdateScCoinsUndo (CTxUndo.ofTx tx)).2 mgr1 hrel1 (by
      intro k hk
      right
      have hk' := (hids k).mp hk
      obtain ⟨sc, hsc, he⟩ := List.mem_map.mp hk'
      rw [hreg1', h4, ← he, find?_scId_of_mem _ h2 sc hsc]
      rfl)
  refine ⟨hf2, ?_⟩
  apply StdMap.ext_find
  intro x
  rw [hreg2]
  by_cases hx : x ∈ tx.vsc_ccout.map (fun sc => sc.scId)
  · simp only [(hids x).mpr hx, if_true]
    exact (hcreated x hx).symm
  · have hx' : x ∉ (v2.UpdateScCoinsUndo (CTxUndo.ofTx tx)).2.sErase.keys :=
      fun h => hx ((hids x).mp h)
    simp only [hx', if_false]
    rw [hv4, hreg1', h4, hnotcreated x hx]
    cases hv : mgr.mScInfo.find x <;> simp [Option.or]

/-- C8 as amended, at a concrete input: the empty registry over a store that
never fails, and the transaction creating ScId 7 and forwarding 100 to it. -/
theorem apply_undo_symmetry_witness :
    (undoAndFlush (applyAndFlush sampleMgrEmpty sampleTxCreateFund sampleBlock 5).2.2
      (CTxUndo.ofTx sampleTxCreateFund)).2.2.mScInfo = sampleMgrEmpty.mScInfo :=
  (apply_undo_symmetry sampleMgrEmpty sampleTxCreateFund sampleBlock 5 (by decide)
    (fun k info h => by simp [sampleMgrEmpty, StdMap.find_empty] at h)
    (by decide) (by decide)).2.2.2

/-! ## Flush after a sequence of calls -/

/-- C9 at its failing input. The registry holds ScId 7 with balance 0 and the
store never fails. On one overlay built from it, the creation of ScId 7 is
undone and then a transaction creating ScId 7 and forwarding 100 to it is
applied; both calls return true and `Flush` returns true. The overlay reports
ScId 7 as existing with balance 100, and the registry left by `Flush` has no
ScId 7: the entry written by the first loop of `Flush` is erased by the second,
because the erase set still names it. -/
theorem Flush_drops_recreated_sidechain :
    (sampleMgrWith 0).storeReliable = true ∧
    (runOps sampleOpsRecreate (ScCoinsViewCache.ctor (sampleMgrWith 0))).1 = true ∧
    ((runOps sampleOpsRecreate (ScCoinsViewCache.ctor (sampleMgrWith 0))).2.Flush
      (sampleMgrWith 0)).1 = true ∧
    (runOps sampleOpsRecreate (ScCoinsViewCache.ctor (sampleMgrWith 0))).2.sidechainExists 7 =
      true ∧
    (runOps sampleOpsRecreate (ScCoinsViewCache.ctor (sampleMgrWith 0))).2.mUpdate.find 7 =
      some (sampleInfo 100) ∧
    ((runOps sampleOpsRecreate (ScCoinsViewCache.ctor (sampleMgrWith 0))).2.Flush
      (sampleMgrWith 0)).2.mScInfo.find 7 = none := by
  decide

namespace ScCoinsViewCache

theorem updateSidechainBalance_nonneg (v : ScCoinsViewCache) (k : uint256) (a : CAmount)
    (hv : balancesNonneg v.mUpdate) (h : (v.updateSidechainBalance k a).1 = true) :
    balancesNonneg (v.updateSidechainBalance k a).2.mUpdate := by
  obtain ⟨info, hinfo, hle⟩ := (updateSidechainBalance_true_iff v k a).mp h
  intro x i hx
  rw [updateSidechainBalance_find] at hx
  by_cases hxk : x = k
  · simp only [hxk, if_true, hinfo, Option.map_some', Option.some.injEq] at hx
    rw [← hx]
    exact hle
  · simp only [hxk, if_false] at hx
    exact hv x i hx

theorem updateBalanceLoop_nonneg (calls : List (uint256 × CAmount)) (v : ScCoinsViewCache)
    (hv : balancesNonneg v.mUpdate) (h : (updateBalanceLoop calls v).1 = true) :
    balancesNonneg (updateBalanceLoop calls v).2.mUpdate := by
  induction calls generalizing v with
  | nil => exact hv
  | cons c rest ih =>
    unfold updateBalanceLoop at h ⊢
    by_cases hs : (v.updateSidechainBalance c.1 c.2).1 = true
    · simp only [hs, if_true] at h ⊢
      exact ih _ (updateSidechainBalance_nonneg v c.1 c.2 hv hs) h
    · simp [hs] at h

end ScCoinsViewCache

/-- A call that returns true keeps every staged balance at least 0. -/
theorem ScOp.run_nonneg (op : ScOp) (v : ScCoinsViewCache) (hv : balancesNonneg v.mUpdate)
    (h : (op.run v).1 = true) : balancesNonneg (op.run v).2.mUpdate := by
  cases op with
  | apply tx block nHeight =>
    simp only [ScOp.run] at h ⊢
    unfold ScCoinsViewCache.UpdateScCoins at h ⊢
    by_cases hc : (v.createSidechain tx block nHeight).1 = true
    · simp only [hc, if_true] at h ⊢
      apply ScCoinsViewCache.updateBalanceLoop_nonneg _ _ _ h
      obtain ⟨_, _, _, h4⟩ := ScCoinsViewCache.createSidechainLoop_spec
        block.GetHash tx.GetHash nHeight tx.vsc_ccout v hc
      intro x i hx
      unfold ScCoinsViewCache.createSidechain at hx
      rw [h4] at hx
      cases hf : tx.vsc_ccout.find? (fun sc => decide (sc.scId = x)) with
      | some sc =>
        rw [hf] at hx
        simp only [Option.map_some', Option.or, Option.some.injEq] at hx
        rw [← hx]
        simp [ScCoinsViewCache.newScInfo, ScInfo.init]
      | none =>
        rw [hf] at hx
        simp only [Option.map_none', Option.or] at hx
        exact hv x i hx
    · simp [hc] at h
  | undo txundo =>
    simp only [ScOp.run] at h ⊢
    unfold ScCoinsViewCache.UpdateScCoinsUndo at h ⊢
    by_cases hb : (ScCoinsViewCache.updateBalanceLoop
        (txundo.vft_ccout.map (fun ftUndo => (ftUndo.scId, -ftUndo.nValue))) v).1 = true
    · simp only [hb, if_true] at h ⊢
      have hn := ScCoinsViewCache.updateBalanceLoop_nonneg _ _ hv hb
      obtain ⟨h1, _⟩ := ScCoinsViewCache.deleteLoop_spec _ _ h
      intro x i hx
      rw [h1] at hx
      by_cases hm : x ∈ txundo.vsc_ccout.map (fun cr => cr.scId)
      · simp [hm] at hx
      · simp only [hm, if_false] at hx
        exact hn x i hx
    · simp [hb] at h

/-- A sequence of calls that all return true keeps every staged balance at
least 0. -/
theorem runOps_nonneg (ops : List ScOp) (v : ScCoinsViewCache)
    (hv : balancesNonneg v.mUpdate) (h : (runOps ops v).1 = true) :
    balancesNonneg (runOps ops v).2.mUpdate := by
  induction ops generalizing v with
  | nil => exact hv
  | cons op rest ih =>
    unfold runOps at h ⊢
    simp only [Bool.and_eq_true] at h
    exact ih _ (ScOp.run_nonneg op v hv h.1) h.2

/-- Whatever the store does and whatever `Flush` answers, a record of the
registry it leaves was in the registry before or is a staged record. -/
theorem Flush_find_origin (v : ScCoinsViewCache) (mgr : ScMgr) (x : uint256) (info : ScInfo)
    (h : (v.Flush mgr).2.mScInfo.find x = some info) :
    mgr.mScInfo.find x = some info ∨ v.mUpdate.find x = some info := by
  unfold ScCoinsViewCache.Flush at h
  have key : (ScCoinsViewCache.flushWriteLoop v.mUpdate.entries mgr).2.mScInfo.find x =
      some info := by
    by_cases hw : (ScCoinsViewCache.flushWriteLoop v.mUpdate.entries mgr).1 = true
    · simp only [hw, if_true] at h
      exact ScCoinsViewCache.flushEraseLoop_find_origin _ _ x info h
    · simp only [hw, Bool.false_eq_true, if_false] at h
      exact h
  rcases ScCoinsViewCache.flushWriteLoop_find_origin _ _ x info key with h1 | h1
  · exact Or.inl h1
  · exact Or.inr (v.mUpdate.find_of_mem x info h1)

/-- C10: registry balance invariant. If every balance of the persistent mapping
is at least 0, an overlay is constructed from it, a sequence of apply and undo
calls that all return true is run on the overlay and `Flush` is called, then
every balance of the persistent mapping is at least 0 afterwards, whatever
`Flush` answers and whatever the store does. -/
theorem registry_balances_nonneg_after_Flush (mgr : ScMgr) (ops : List ScOp)
    (hR : balancesNonneg mgr.mScInfo)
    (hops : (runOps ops (ScCoinsViewCache.ctor mgr)).1 = true) :
    balancesNonneg ((runOps ops (ScCoinsViewCache.ctor mgr)).2.Flush mgr).2.mScInfo := by
  have hv0 : balancesNonneg (ScCoinsViewCache.ctor mgr).mUpdate := by
    rw [ctor_mUpdate]
    exact hR
  have hv := runOps_nonneg ops _ hv0 hops
  intro x info hx
  rcases Flush_find_origin _ mgr x info hx with h1 | h1
  · exact hR x info h1
  · exact hv x info h1

/-- C10 at a concrete input: the registry holding ScId 7 with balance 0, and
the two calls of `sampleOpsRecreate`, which both return true. -/
theorem registry_balances_nonneg_after_Flush_witness :
    balancesNonneg
      ((runOps sampleOpsRecreate (ScCoinsViewCache.ctor (sampleMgrWith 0))).2.Flush
        (sampleMgrWith 0)).2.mScInfo :=
  registry_balances_nonneg_after_Flush (sampleMgrWith 0) sampleOpsRecreate
    (fun k info h => by
      have hk : (sampleMgrWith 0).mScInfo.find k =
          if k = 7 then some (sampleInfo 0) else none := by
        simp [sampleMgrWith, StdMap.find_assign, StdMap.find_empty]
      rw [hk] at h
      by_cases h7 : k = 7
      · simp only [h7, if_true, Option.some.injEq] at h
        rw [← h]
        decide
      · simp [h7] at h)
    (by decide)

/-! ## What Flush commits when no erased ScId is staged -/

/-- Nothing staged or marked for erasure in `v` is lost in `w`: an ScId staged
in `v` is staged in `w` or in its erase set, and the erase set only grows. -/
def ScCoinsViewCache.coveredBy (v w : ScCoinsViewCache) : Prop :=
  (∀ x, (v.mUpdate.find x).isSome = true →
    (w.mUpdate.find x).isSome = true ∨ x ∈ w.sErase.keys) ∧
  (∀ x, x ∈ v.sErase.keys → x ∈ w.sErase.keys)

namespace ScCoinsViewCache

theorem coveredBy_refl (v : ScCoinsViewCache) : v.coveredBy v :=
  ⟨fun _ h => Or.inl h, fun _ h => h⟩

theorem coveredBy_trans {u v w : ScCoinsViewCache} (h1 : u.coveredBy v) (h2 : v.coveredBy w) :
    u.coveredBy w := by
  refine ⟨?_, fun x hx => h2.2 x (h1.2 x hx)⟩
  intro x hx
  rcases h1.1 x hx with h | h
  · exact h2.1 x h
  · exact Or.inr (h2.2 x h)

theorem updateBalanceLoop_isSome (calls : List (uint256 × CAmount)) (v : ScCoinsViewCache)
    (x : uint256) :
    ((updateBalanceLoop calls v).2.mUpdate.find x).isSome = (v.mUpdate.find x).isSome := by
  induction calls generalizing v with
  | nil => rfl
  | cons c rest ih =>
    have hstep : ((v.updateSidechainBalance c.1 c.2).2.mUpdate.find x).isSome =
        (v.mUpdate.find x).isSome := by
      rw [updateSidechainBalance_find]
      by_cases hx : x = c.1
      · subst hx
        cases v.mUpdate.find c.1 <;> simp
      · simp [hx]
    unfold updateBalanceLoop
    by_cases h : (v.updateSidechainBalance c.1 c.2).1 = true
    · simp only [h, if_true]
      rw [ih, hstep]
    · simp only [h, Bool.false_eq_true, if_false]
      exact hstep

theorem updateBalanceLoop_coveredBy (calls : List (uint256 × CAmount)) (v : ScCoinsViewCache) :
    v.coveredBy (updateBalanceLoop calls v).2 := by
  refine ⟨?_, ?_⟩
  · intro x hx
    left
    rw [updateBalanceLoop_isSome]
    exact hx
  · intro x hx
    rw [updateBalanceLoop_sErase]
    exact hx

theorem createSidechainLoop_coveredBy (blockHash txHash : uint256) (nHeight : Int)
    (scs : List CTxScCreationOut) (v : ScCoinsViewCache) :
    v.coveredBy (createSidechainLoop blockHash txHash nHeight scs v).2 := by
  induction scs generalizing v with
  | nil => exact coveredBy_refl v
  | cons sc rest ih =>
    have hstep : v.coveredBy
        (v.addSidechain sc.scId (newScInfo blockHash txHash nHeight sc)).2 := by
      refine ⟨?_, fun x hx => hx⟩
      intro x hx
      left
      rw [addSidechain_find]
      by_cases hxk : x = sc.scId
      · simp [hxk]
      · simpa [hxk] using hx
    unfold createSidechainLoop
    by_cases hex : v.sidechainExists sc.scId = true
    · simp only [hex, if_true]
      exact coveredBy_refl v
    · simp only [hex, Bool.false_eq_true, if_false]
      by_cases hadd : (v.addSidechain sc.scId (newScInfo blockHash txHash nHeight sc)).1 = true
      · simp only [hadd, if_true]
        exact coveredBy_trans hstep (ih _)
      · simp only [hadd, Bool.false_eq_true, if_false]
        exact hstep

theorem deleteSidechain_coveredBy (v : ScCoinsViewCache) (k : uint256) :
    v.coveredBy (v.deleteSidechain k).2 := by
  unfold deleteSidechain
  cases hk : v.mUpdate.find k with
  | none => exact coveredBy_refl v
  | some info =>
    by_cases hb : info.balance > 0
    · simp only [hb, if_true]
      exact coveredBy_refl v
    · simp only [hb, if_false]
      refine ⟨?_, ?_⟩
      · intro x hx
        rw [removeSidechain_find, removeSidechain_mem_sErase]
        by_cases hxk : x = k
        · exact Or.inr (Or.inl hxk)
        · left
          simpa [hxk] using hx
      · intro x hx
        rw [removeSidechain_mem_sErase]
        exact Or.inr hx

theorem deleteLoop_coveredBy (crs : List CTxScCreationOut) (v : ScCoinsViewCache) :
    v.coveredBy (deleteLoop crs v).2 := by
  induction crs generalizing v with
  | nil => exact coveredBy_refl v
  | cons cr rest ih =>
    unfold deleteLoop
    by_cases h : (v.deleteSidechain cr.scId).1 = true
    · simp only [h, if_true]
      exact coveredBy_trans (deleteSidechain_coveredBy v cr.scId) (ih _)
    · simp only [h, Bool.false_eq_true, if_false]
      exact deleteSidechain_coveredBy v cr.scId

/-- The second loop of `Flush`, when it answers true, removed exactly the
ScIds it was given. -/
theorem flushEraseLoop_find_of_true (ids : List uint256) (mgr : ScMgr)
    (h : (flushEraseLoop ids mgr).1 = true) (x : uint256) :
    (flushEraseLoop ids mgr).2.mScInfo.find x =
      if x ∈ ids then none else mgr.mScInfo.find x := by
  induction ids generalizing mgr with
  | nil => simp [flushEraseLoop]
  | cons k rest ih =>
    unfold flushEraseLoop at h ⊢
    by_cases hn : (mgr.mScInfo.erase k).2 ≠ 0
    · rw [if_pos hn] at h ⊢
      rw [ih _ h, ScMgr.eraseFromDb_mScInfo]
      simp only [StdMap.find_erase, List.mem_cons]
      by_cases hx : x = k
      · simp [hx]
      · simp [hx]
    · rw [if_neg hn] at h
      simp at h

end ScCoinsViewCache

/-- Whatever a call answers, it loses nothing staged or marked for erasure. -/
theorem ScOp.run_coveredBy (op : ScOp) (v : ScCoinsViewCache) : v.coveredBy (op.run v).2 := by
  cases op with
  | apply tx block nHeight =>
    simp only [ScOp.run]
    unfold ScCoinsViewCache.UpdateScCoins
    have hc : v.coveredBy (v.createSidechain tx block nHeight).2 :=
      ScCoinsViewCache.createSidechainLoop_coveredBy _ _ _ _ v
    by_cases h : (v.createSidechain tx block nHeight).1 = true
    · simp only [h, if_true]
      exact ScCoinsViewCache.coveredBy_trans hc
        (ScCoinsViewCache.updateBalanceLoop_coveredBy _ _)
    · simp only [h, Bool.false_eq_true, if_false]
      exact hc
  | undo txundo =>
    simp only [ScOp.run]
    unfold ScCoinsViewCache.UpdateScCoinsUndo
    have hb := ScCoinsViewCache.updateBalanceLoop_coveredBy
      (txundo.vft_ccout.map (fun ftUndo => (ftUndo.scId, -ftUndo.nValue))) v
    by_cases h : (ScCoinsViewCache.updateBalanceLoop
        (txundo.vft_ccout.map (fun ftUndo => (ftUndo.scId, -ftUndo.nValue))) v).1 = true
    · simp only [h, if_true]
      exact ScCoinsViewCache.coveredBy_trans hb (ScCoinsViewCache.deleteLoop_coveredBy _ _)
    · simp only [h, Bool.false_eq_true, if_false]
      exact hb

theorem runOps_coveredBy (ops : List ScOp) (v : ScCoinsViewCache) :
    v.coveredBy (runOps ops v).2 := by
  induction ops generalizing v with
  | nil => exact ScCoinsViewCache.coveredBy_refl v
  | cons op rest ih =>
    unfold runOps
    exact ScCoinsViewCache.coveredBy_trans (ScOp.run_coveredBy op v) (ih _)

/-- The part of the commit property that the code does have: after any
sequence of apply and undo calls on an overlay built from the registry, if no
store operation fails, no ScId of the erase set is staged and `Flush` returns
true, then the registry mapping is equal to the staged map. -/
theorem Flush_commits_view_of_disjoint (mgr : ScMgr) (ops : List ScOp)
    (hstore : mgr.storeReliable = true)
    (hdisj : ∀ k ∈ (runOps ops (ScCoinsViewCache.ctor mgr)).2.sErase.keys,
      k ∉ (runOps ops (ScCoinsViewCache.ctor mgr)).2.mUpdate.keys)
    (hflush : ((runOps ops (ScCoinsViewCache.ctor mgr)).2.Flush mgr).1 = true) :
    ((runOps ops (ScCoinsViewCache.ctor mgr)).2.Flush mgr).2.mScInfo =
      (runOps ops (ScCoinsViewCache.ctor mgr)).2.mUpdate := by
  have hcov := runOps_coveredBy ops (ScCoinsViewCache.ctor mgr)
  rw [ScCoinsViewCache.coveredBy, ctor_mUpdate] at hcov
  generalize (runOps ops (ScCoinsViewCache.ctor mgr)).2 = v at hdisj hflush hcov ⊢
  obtain ⟨hw1, _, hw3⟩ :=
    ScCoinsViewCache.flushWriteLoop_reliable v.mUpdate.entries v.mUpdate.sorted mgr hstore
  unfold ScCoinsViewCache.Flush at hflush ⊢
  simp only [hw1, if_true] at hflush ⊢
  apply StdMap.ext_find
  intro x
  rw [ScCoinsViewCache.flushEraseLoop_find_of_true _ _ hflush, hw3]
  have hfind : Raw.find v.mUpdate.entries x = v.mUpdate.find x := rfl
  rw [hfind]
  by_cases hx : x ∈ v.sErase.keys
  · simp only [hx, if_true]
    exact ((StdMap.find_eq_none_iff _ _).mpr (hdisj x hx)).symm
  · simp only [hx, if_false]
    cases hv : v.mUpdate.find x with
    | some i => simp [Option.or]
    | none =>
      simp only [Option.or]
      cases hr : mgr.mScInfo.find x with
      | none => rfl
      | some j =>
        exfalso
        rcases hcov.1 x (by simp [hr]) with h | h
        · simp [hv] at h
        · exact hx h

/-! ## Deleting a sidechain -/

/-- An overlay staging ScId 7 with balance -5. -/
def sampleNegativeView : ScCoinsViewCache :=
  ScCoinsViewCache.ctor (sampleMgrWith (-5))

/-- C11, the claim refuted as stated: ScId 7 is staged with balance -5, which
is not 0, and `deleteSidechain` returns true and removes it. -/
theorem deleteSidechain_true_on_negative_balance :
    sampleNegativeView.mUpdate.find 7 = some (sampleInfo (-5)) ∧
    (sampleInfo (-5)).balance ≠ 0 ∧
    (sampleNegativeView.deleteSidechain 7).1 = true ∧
    (sampleNegativeView.deleteSidechain 7).2.mUpdate.find 7 = none := by
  decide

/-- C11 as amended: `deleteSidechain` returns true only if the ScId is staged
with a balance that is not positive, hence with balance 0 whenever that balance
is not negative; it then removes the record: the ScId is no longer staged and
is in the erase set. -/
theorem deleteSidechain_only_if_balance_nonpos (v : ScCoinsViewCache) (scId : uint256)
    (hret : (v.deleteSidechain scId).1 = true) :
    ∃ info, v.mUpdate.find scId = some info ∧ info.balance ≤ 0 ∧
      (0 ≤ info.balance → info.balance = 0) ∧
      scId ∉ (v.deleteSidechain scId).2.mUpdate.keys ∧
      scId ∈ (v.deleteSidechain scId).2.sErase.keys := by
  unfold ScCoinsViewCache.deleteSidechain at hret ⊢
  cases hk : v.mUpdate.find scId with
  | none => simp [hk] at hret
  | some info =>
    by_cases hb : info.balance > 0
    · simp [hk, hb] at hret
    · have hle : info.balance ≤ 0 := le_of_not_lt hb
      refine ⟨info, rfl, hle, fun h0 => le_antisymm hle h0, ?_, ?_⟩
      · simp only [hb, if_false]
        rw [← StdMap.find_eq_none_iff, ScCoinsViewCache.removeSidechain_find]
        simp
      · simp only [hb, if_false]
        rw [ScCoinsViewCache.removeSidechain_mem_sErase]
        exact Or.inl rfl

/-- C11 as amended, at a concrete input: the overlay staging ScId 7 with
balance 100 after the balance was taken back to 0. -/
theorem deleteSidechain_only_if_balance_nonpos_witness :
    ∃ info, (sampleFundedView.updateSidechainBalance 7 (-100)).2.mUpdate.find 7 = some info ∧
      info.balance ≤ 0 ∧ (0 ≤ info.balance → info.balance = 0) ∧
      7 ∉ ((sampleFundedView.updateSidechainBalance 7 (-100)).2.deleteSidechain 7).2.mUpdate.keys ∧
      7 ∈ ((sampleFundedView.updateSidechainBalance 7 (-100)).2.deleteSidechain 7).2.sErase.keys :=
  deleteSidechain_only_if_balance_nonpos
    (sampleFundedView.updateSidechainBalance 7 (-100)).2 7 (by decide)

/-- C12: for an ScId staged with a positive balance `deleteSidechain` returns
false and leaves the overlay as it was: the staged map, with the record and
balance of that ScId and of every other one, and the erase set. -/
theorem deleteSidechain_positive_balance (v : ScCoinsViewCache) (scId : uint256)
    (info : ScInfo) (hstaged : v.mUpdate.find scId = some info) (hpos : 0 < info.balance) :
    (v.deleteSidechain scId).1 = false ∧
    (v.deleteSidechain scId).2 = v ∧
    (v.deleteSidechain scId).2.mUpdate.find scId = some info ∧
    (v.deleteSidechain scId).2.sErase = v.sErase ∧
    (∀ x, (v.deleteSidechain scId).2.mUpdate.find x = v.mUpdate.find x) := by
  have hgt : info.balance > 0 := hpos
  have h : v.deleteSidechain scId = (false, v) := by
    unfold ScCoinsViewCache.deleteSidechain
    rw [hstaged]
    simp only [hgt, if_true]
  rw [h]
  exact ⟨rfl, rfl, hstaged, rfl, fun _ => rfl⟩

/-- C12 at a concrete input: ScId 7 staged with balance 100. -/
theorem deleteSidechain_positive_balance_witness :
    (sampleFundedView.deleteSidechain 7).1 = false ∧
    (sampleFundedView.deleteSidechain 7).2 = sampleFundedView :=
  ⟨(deleteSidechain_positive_balance sampleFundedView 7 (sampleInfo 100) (by decide)
      (by decide)).1,
    (deleteSidechain_positive_balance sampleFundedView 7 (sampleInfo 100) (by decide)
      (by decide)).2.1⟩

/-! ## What a call leaves of the staged records, whatever it answers -/

/-- The record `b` is the record `a` but, possibly, for its balance. -/
def ScInfo.sameButBalance (a b : ScInfo) : Prop :=
  b = { a with balance := b.balance }

theorem sameButBalance_refl (a : ScInfo) : a.sameButBalance a := by
  cases a
  rfl

theorem sameButBalance_trans {a b c : ScInfo} (h1 : a.sameButBalance b)
    (h2 : b.sameButBalance c) : a.sameButBalance c := by
  unfold ScInfo.sameButBalance at h1 h2 ⊢
  rw [h2, h1]

theorem sameButBalance_addBalance (d : CAmount) (a : ScInfo) :
    a.sameButBalance (ScInfo.addBalance d a) := by
  cases a
  rfl

theorem StdMap.keys_modify_eq {β : Type} (m : StdMap β) (k : uint256) (f : β → β) :
    (m.modify k f).keys = m.keys :=
  Raw.keys_modify f m.entries k

namespace ScCoinsViewCache

theorem updateSidechainBalance_keys (v : ScCoinsViewCache) (k : uint256) (a : CAmount) :
    (v.updateSidechainBalance k a).2.mUpdate.keys = v.mUpdate.keys := by
  unfold updateSidechainBalance
  cases v.mUpdate.find k with
  | none => rfl
  | some info => exact StdMap.keys_modify_eq _ _ _

theorem updateBalanceLoop_keys (calls : List (uint256 × CAmount)) (v : ScCoinsViewCache) :
    (updateBalanceLoop calls v).2.mUpdate.keys = v.mUpdate.keys := by
  induction calls generalizing v with
  | nil => rfl
  | cons c rest ih =>
    unfold updateBalanceLoop
    by_cases h : (v.updateSidechainBalance c.1 c.2).1 = true
    · simp only [h, if_true]
      rw [ih, updateSidechainBalance_keys]
    · simp only [h, Bool.false_eq_true, if_false]
      exact updateSidechainBalance_keys v c.1 c.2

theorem updateSidechainBalance_origin (v : ScCoinsViewCache) (k : uint256) (a : CAmount)
    (x : uint256) (b : ScInfo) (h : (v.updateSidechainBalance k a).2.mUpdate.find x = some b) :
    ∃ o, v.mUpdate.find x = some o ∧ o.sameButBalance b := by
  rw [updateSidechainBalance_find] at h
  by_cases hx : x = k
  · subst hx
    simp only [if_true] at h
    cases hv : v.mUpdate.find x with
    | none => simp [hv] at h
    | some o =>
      rw [hv] at h
      simp only [Option.map_some', Option.some.injEq] at h
      exact ⟨o, rfl, h ▸ sameButBalance_addBalance a o⟩
  · simp only [hx, if_false] at h
    exact ⟨b, h, sameButBalance_refl b⟩

/-- Whatever the balance loop answers, a record staged after it was staged
before it and differs from what it was by its balance at most. -/
theorem updateBalanceLoop_origin (calls : List (uint256 × CAmount)) (v : ScCoinsViewCache)
    (x : uint256) (b : ScInfo) (h : (updateBalanceLoop calls v).2.mUpdate.find x = some b) :
    ∃ o, v.mUpdate.find x = some o ∧ o.sameButBalance b := by
  induction calls generalizing v with
  | nil => exact ⟨b, h, sameButBalance_refl b⟩
  | cons c rest ih =>
    unfold updateBalanceLoop at h
    by_cases hs : (v.updateSidechainBalance c.1 c.2).1 = true
    · simp only [hs, if_true] at h
      obtain ⟨m, hm, hmb⟩ := ih _ h
      obtain ⟨o, ho, hom⟩ := updateSidechainBalance_origin v c.1 c.2 x m hm
      exact ⟨o, ho, sameButBalance_trans hom hmb⟩
    · simp only [hs, Bool.false_eq_true, if_false] at h
      exact updateSidechainBalance_origin v c.1 c.2 x b h

/-- Whatever the creation loop answers, a record staged before it is staged
after it, unchanged. -/
theorem createSidechainLoop_keeps (blockHash txHash : uint256) (nHeight : Int)
    (scs : List CTxScCreationOut) (v : ScCoinsViewCache) (x : uint256) (a : ScInfo)
    (h : v.mUpdate.find x = some a) :
    (createSidechainLoop blockHash txHash nHeight scs v).2.mUpdate.find x = some a := by
  induction scs generalizing v with
  | nil => exact h
  | cons sc rest ih =>
    have hstep : (v.addSidechain sc.scId (newScInfo blockHash txHash nHeight sc)).2.mUpdate.find
        x = some a := by
      rw [addSidechain_find]
      by_cases hx : x = sc.scId
      · subst hx
        simp [h]
      · simpa [hx] using h
    unfold createSidechainLoop
    by_cases hex : v.sidechainExists sc.scId = true
    · simp only [hex, if_true]
      exact h
    · simp only [hex, Bool.false_eq_true, if_false]
      by_cases hadd : (v.addSidechain sc.scId (newScInfo blockHash txHash nHeight sc)).1 = true
      · simp only [hadd, if_true]
        exact ih _ hstep
      · simp only [hadd, Bool.false_eq_true, if_false]
        exact hstep

theorem deleteSidechain_origin (v : ScCoinsViewCache) (k x : uint256) (b : ScInfo)
    (h : (v.deleteSidechain k).2.mUpdate.find x = some b) : v.mUpdate.find x = some b := by
  unfold deleteSidechain at h
  cases hk : v.mUpdate.find k with
  | none =>
    rw [hk] at h
    exact h
  | some info =>
    rw [hk] at h
    by_cases hb : info.balance > 0
    · simp only [hb, if_true] at h
      exact h
    · simp only [hb, if_false] at h
      rw [removeSidechain_find] at h
      by_cases hx : x = k
      · simp [hx] at h
      · simpa [hx] using h

/-- Whatever the delete loop answers, a record staged after it was staged
before it, unchanged. -/
theorem deleteLoop_origin (crs : List CTxScCreationOut) (v : ScCoinsViewCache)
    (x : uint256) (b : ScInfo) (h : (deleteLoop crs v).2.mUpdate.find x = some b) :
    v.mUpdate.find x = some b := by
  induction crs generalizing v with
  | nil => exact h
  | cons cr rest ih =>
    unfold deleteLoop at h
    by_cases hs : (v.deleteSidechain cr.scId).1 = true
    · simp only [hs, if_true] at h
      exact deleteSidechain_origin v cr.scId x b (ih _ h)
    · simp only [hs, Bool.false_eq_true, if_false] at h
      exact deleteSidechain_origin v cr.scId x b h

end ScCoinsViewCache

/-- C14: creation metadata is immutable. For an apply or an undo call on an
overlay, whatever the call returns, an ScId staged before and after the call
has after it the record it had before but, possibly, for the balance: the same
creationBlockHash, creationBlockHeight, creationTxHash and creation
parameters. -/
theorem creation_metadata_immutable (v : ScCoinsViewCache) (op : ScOp) (scId : uint256)
    (before after : ScInfo) (hbefore : v.mUpdate.find scId = some before)
    (hafter : (op.run v).2.mUpdate.find scId = some after) :
    after = { before with balance := after.balance } ∧
    after.creationBlockHash = before.creationBlockHash ∧
    after.creationBlockHeight = before.creationBlockHeight ∧
    after.creationTxHash = before.creationTxHash ∧
    after.creationData = before.creationData := by
  have key : before.sameButBalance after := by
    cases op with
    | apply tx block nHeight =>
      simp only [ScOp.run] at hafter
      unfold ScCoinsViewCache.UpdateScCoins at hafter
      have hc := ScCoinsViewCache.createSidechainLoop_keeps block.GetHash tx.GetHash nHeight
        tx.vsc_ccout v scId before hbefore
      by_cases h : (v.createSidechain tx block nHeight).1 = true
      · simp only [h, if_true] at hafter
        obtain ⟨o, ho, hob⟩ := ScCoinsViewCache.updateBalanceLoop_origin _ _ scId after hafter
        unfold ScCoinsViewCache.createSidechain at ho
        rw [hc] at ho
        cases ho
        exact hob
      · simp only [h, Bool.false_eq_true, if_false] at hafter
        unfold ScCoinsViewCache.createSidechain at hafter
        rw [hc] at hafter
        cases hafter
        exact sameButBalance_refl before
    | undo txundo =>
      simp only [ScOp.run] at hafter
      unfold ScCoinsViewCache.UpdateScCoinsUndo at hafter
      by_cases h : (ScCoinsViewCache.updateBalanceLoop
          (txundo.vft_ccout.map (fun ftUndo => (ftUndo.scId, -ftUndo.nValue))) v).1 = true
      · simp only [h, if_true] at hafter
        have hd := ScCoinsViewCache.deleteLoop_origin _ _ scId after hafter
        obtain ⟨o, ho, hob⟩ := ScCoinsViewCache.updateBalanceLoop_origin _ _ scId after hd
        rw [hbefore] at ho
        cases ho
        exact hob
      · simp only [h, Bool.false_eq_true, if_false] at hafter
        obtain ⟨o, ho, hob⟩ := ScCoinsViewCache.updateBalanceLoop_origin _ _ scId after hafter
        rw [hbefore] at ho
        cases ho
        exact hob
  unfold ScInfo.sameButBalance at key
  refine ⟨key, ?_, ?_, ?_, ?_⟩ <;> rw [key]

/-- C14 at a concrete input: a forward transfer of 50 is applied to the overlay
staging ScId 7 with balance 100; the record of ScId 7 has balance 150 afterwards
and the creation fields it had. -/
theorem creation_metadata_immutable_witness :
    sampleFundedView.mUpdate.find 7 = some (sampleInfo 100) ∧
    ((ScOp.apply sampleTxForward sampleBlock 6).run sampleFundedView).2.mUpdate.find 7 =
      some (sampleInfo 150) ∧
    (sampleInfo 150).creationBlockHash = (sampleInfo 100).creationBlockHash ∧
    (sampleInfo 150).creationBlockHeight = (sampleInfo 100).creationBlockHeight ∧
    (sampleInfo 150).creationTxHash = (sampleInfo 100).creationTxHash ∧
    (sampleInfo 150).creationData = (sampleInfo 100).creationData :=
  ⟨by decide, by decide,
    (creation_metadata_immutable sampleFundedView (ScOp.apply sampleTxForward sampleBlock 6) 7
      (sampleInfo 100) (sampleInfo 150) (by decide) (by decide)).2⟩

/-- An undo record taking 500 back from ScId 7 and removing it. -/
def sampleUndoTooMuch : CTxUndo :=
  { vft_ccout := [{ scId := 7, nValue := 500 }],
    vsc_ccout := [{ scId := 7, withdrawalEpochLength := 10 }] }

/-- C19: undo ordering. If the reversal of the forward-transfer records fails
(a target is not staged, or a balance would end negative), `UpdateScCoins(txundo)`
returns false without having removed a sidechain: the erase set and the staged
ScIds are those of before the call. -/
theorem UpdateScCoinsUndo_reversal_failure (v : ScCoinsViewCache) (txundo : CTxUndo)
    (hfail : (ScCoinsViewCache.updateBalanceLoop
      (txundo.vft_ccout.map (fun ftUndo => (ftUndo.scId, -ftUndo.nValue))) v).1 = false) :
    (v.UpdateScCoinsUndo txundo).1 = false ∧
    (v.UpdateScCoinsUndo txundo).2.sErase = v.sErase ∧
    (v.UpdateScCoinsUndo txundo).2.mUpdate.keys = v.mUpdate.keys := by
  have h : v.UpdateScCoinsUndo txundo = (false, (ScCoinsViewCache.updateBalanceLoop
      (txundo.vft_ccout.map (fun ftUndo => (ftUndo.scId, -ftUndo.nValue))) v).2) := by
    unfold ScCoinsViewCache.UpdateScCoinsUndo
    simp only [hfail, Bool.false_eq_true, if_false]
  rw [h]
  exact ⟨rfl, ScCoinsViewCache.updateBalanceLoop_sErase _ _,
    ScCoinsViewCache.updateBalanceLoop_keys _ _⟩

/-- C19 at a concrete input: the overlay stages ScId 7 with balance 100 and the
undo record takes 500 back from it before removing it. -/
theorem UpdateScCoinsUndo_reversal_failure_witness :
    (sampleFundedView.UpdateScCoinsUndo sampleUndoTooMuch).1 = false ∧
    (sampleFundedView.UpdateScCoinsUndo sampleUndoTooMuch).2.sErase = sampleFundedView.sErase ∧
    (sampleFundedView.UpdateScCoinsUndo sampleUndoTooMuch).2.mUpdate.keys =
      sampleFundedView.mUpdate.keys :=
  UpdateScCoinsUndo_reversal_failure sampleFundedView sampleUndoTooMuch (by decide)

/-! ## Validated transactions and the checks of apply -/

/-- A transaction of a sidechain version, without joinsplit, with two creation
outputs of ScId 7 and a forward transfer of 100 to ScId 7. -/
def sampleTxDoubleCreate : CTransaction :=
  { hash := 6, fScVersion := true, vjoinsplit := [],
    vsc_ccout := [{ scId := 7, withdrawalEpochLength := 10 },
                  { scId := 7, withdrawalEpochLength := 10 }],
    vft_ccout := [{ scId := 7, nValue := 100 }] }

/-- An undo record taking 50 back from ScId 7 and removing nothing. -/
def sampleUndoFifty : CTxUndo :=
  { vft_ccout := [{ scId := 7, nValue := 50 }], vsc_ccout := [] }

theorem sampleMgrWith_nonneg (b : CAmount) (hb : 0 ≤ b) :
    balancesNonneg (sampleMgrWith b).mScInfo := by
  intro k info h
  have hk : (sampleMgrWith b).mScInfo.find k = if k = 7 then some (sampleInfo b) else none := by
    simp [sampleMgrWith, StdMap.find_assign, StdMap.find_empty]
  rw [hk] at h
  by_cases h7 : k = 7
  · simp only [h7, if_true, Option.some.injEq] at h
    rw [← h]
    exact hb
  · simp [h7] at h

theorem balancesNonneg_empty : balancesNonneg (StdMap.empty : ScInfoMap) := by
  intro k info h
  simp [StdMap.find_empty] at h

/-- C16 at its failing input. Nothing is staged (so every staged balance is at
least 0); the transaction has two creation outputs of ScId 7 and forwards the
non-negative amount 100 to it. `checkTxSemanticValidity` accepts it and
`IsTxApplicableToState` returns true on the overlay, and yet `UpdateScCoins`
returns false: `createSidechain` finds ScId 7 staged when it reaches the second
creation output. -/
theorem UpdateScCoins_fails_on_validated_double_creation :
    (∀ ft ∈ sampleTxDoubleCreate.vft_ccout, 0 ≤ ft.nValue) ∧
    (ScMgr.checkTxSemanticValidity sampleTxDoubleCreate sampleState).1 = true ∧
    sampleMgrEmpty.IsTxApplicableToState sampleTxDoubleCreate (some sampleEmptyView) = true ∧
    (sampleEmptyView.UpdateScCoins sampleTxDoubleCreate sampleBlock 5).1 = false := by
  decide

/-- C17 at its failing input. The registry holds ScId 7 with balance 0, so all
its balances are at least 0. On an overlay built from it, an undo taking 50 back
from ScId 7 returns false, and the staged record of ScId 7 then has the balance
-50: `updateSidechainBalance` writes the new balance before it tests it. -/
theorem staged_balance_negative_after_failed_undo :
    balancesNonneg (sampleMgrWith 0).mScInfo ∧
    ((ScCoinsViewCache.ctor (sampleMgrWith 0)).UpdateScCoinsUndo sampleUndoFifty).1 = false ∧
    ((ScCoinsViewCache.ctor (sampleMgrWith 0)).UpdateScCoinsUndo
      sampleUndoFifty).2.mUpdate.find 7 = some (sampleInfo (-50)) ∧
    (sampleInfo (-50)).balance < 0 :=
  ⟨sampleMgrWith_nonneg 0 (le_refl 0), by decide, by decide, by decide⟩

namespace ScCoinsViewCache

/-- The creation loop succeeds on outputs with pairwise distinct ScIds none of
which is staged. -/
theorem createSidechainLoop_true (blockHash txHash : uint256) (nHeight : Int)
    (scs : List CTxScCreationOut) (v : ScCoinsViewCache)
    (hnd : (scs.map (fun sc => sc.scId)).Nodup)
    (hnew : ∀ sc ∈ scs, v.mUpdate.find sc.scId = none) :
    (createSidechainLoop blockHash txHash nHeight scs v).1 = true := by
  induction scs generalizing v with
  | nil => rfl
  | cons sc rest ih =>
    rw [List.map_cons, List.nodup_cons] at hnd
    have hnone := hnew sc (List.mem_cons_self _ _)
    have hex : v.sidechainExists sc.scId = false := by
      unfold sidechainExists
      rw [hnone]
      rfl
    have hadd : (v.addSidechain sc.scId (newScInfo blockHash txHash nHeight sc)).1 = true := by
      rw [addSidechain_fst, hnone]
      rfl
    unfold createSidechainLoop
    simp only [hex, Bool.false_eq_true, if_false, hadd, if_true]
    apply ih _ hnd.2
    intro sc' hsc'
    rw [addSidechain_find]
    have hne : ¬ sc'.scId = sc.scId := by
      intro e
      apply hnd.1
      rw [← e]
      exact List.mem_map.mpr ⟨sc', hsc', rfl⟩
    simp only [hne, if_false]
    exact hnew sc' (List.mem_cons_of_mem _ hsc')

/-- The balance loop succeeds when every amount is at least 0, every addressed
ScId is staged and every staged balance is at least 0. -/
theorem updateBalanceLoop_true_of_nonneg (calls : List (uint256 × CAmount))
    (v : ScCoinsViewCache) (hpos : ∀ c ∈ calls, 0 ≤ c.2)
    (hpres : ∀ c ∈ calls, (v.mUpdate.find c.1).isSome = true)
    (hbal : balancesNonneg v.mUpdate) :
    (updateBalanceLoop calls v).1 = true := by
  induction calls generalizing v with
  | nil => rfl
  | cons c rest ih =>
    have hstep : (v.updateSidechainBalance c.1 c.2).1 = true := by
      rw [updateSidechainBalance_true_iff]
      have hp := hpres c (List.mem_cons_self _ _)
      cases hv : v.mUpdate.find c.1 with
      | none => simp [hv] at hp
      | some info =>
        exact ⟨info, rfl, add_nonneg (hbal c.1 info hv) (hpos c (List.mem_cons_self _ _))⟩
    unfold updateBalanceLoop
    simp only [hstep, if_true]
    apply ih
    · intro c' hc'
      exact hpos c' (List.mem_cons_of_mem _ hc')
    · intro c' hc'
      have hp := hpres c' (List.mem_cons_of_mem _ hc')
      rw [updateSidechainBalance_find]
      by_cases hx : c'.1 = c.1
      · rw [hx] at hp
        simp only [hx, if_true]
        cases hv : v.mUpdate.find c.1 with
        | none => simp [hv] at hp
        | some i => rfl
      · simpa [hx] using hp
    · exact updateSidechainBalance_nonneg v c.1 c.2 hbal hstep

end ScCoinsViewCache

/-- What a true answer of `IsTxApplicableToState` on a view says of the
outputs: no creation ScId is staged, every forward-transfer target is staged or
created by the transaction. -/
theorem IsTxApplicableToState_outputs (mgr : ScMgr) (tx : CTransaction)
    (view : ScCoinsViewCache) (h : mgr.IsTxApplicableToState tx (some view) = true) :
    (∀ sc ∈ tx.vsc_ccout, view.mUpdate.find sc.scId = none) ∧
    (∀ ft ∈ tx.vft_ccout, (view.mUpdate.find ft.scId).isSome = true ∨
      ∃ sc ∈ tx.vsc_ccout, sc.scId = ft.scId) := by
  unfold ScMgr.IsTxApplicableToState at h
  simp only [ScMgr.sidechainExists, ScMgr.hasSidechainCreationOutput,
    ScCoinsViewCache.sidechainExists] at h
  by_cases h1 : tx.vsc_ccout.any (fun sc => (view.mUpdate.find sc.scId).isSome) = true
  · rw [if_pos h1] at h
    exact absurd h (by simp)
  · by_cases h2 : tx.vft_ccout.any (fun ft =>
        !(view.mUpdate.find ft.scId).isSome &&
          !tx.vsc_ccout.any (fun sc => decide (sc.scId = ft.scId))) = true
    · rw [if_neg h1, if_pos h2] at h
      exact absurd h (by simp)
    · constructor
      · intro sc hsc
        cases hv : view.mUpdate.find sc.scId with
        | none => rfl
        | some i =>
          exact absurd (List.any_eq_true.mpr ⟨sc, hsc, by simp [hv]⟩) h1
      · intro ft hft
        cases hv : view.mUpdate.find ft.scId with
        | some i => exact Or.inl rfl
        | none =>
          right
          by_contra hno
          apply h2
          refine List.any_eq_true.mpr ⟨ft, hft, ?_⟩
          have hnany : tx.vsc_ccout.any (fun sc => decide (sc.scId = ft.scId)) = false := by
            cases ha : tx.vsc_ccout.any (fun sc => decide (sc.scId = ft.scId))
            · rfl
            · obtain ⟨sc, hsc, he⟩ := List.any_eq_true.mp ha
              exact absurd ⟨sc, hsc, of_decide_eq_true he⟩ hno
          simp [hv, hnany]

/-- The part of "validated transactions always apply" that the code does have:
when, besides, the creation outputs of the transaction have pairwise distinct
ScIds, `UpdateScCoins` returns true. -/
theorem UpdateScCoins_true_of_applicable_distinct (mgr : ScMgr) (v : ScCoinsViewCache)
    (tx : CTransaction) (block : CBlock) (nHeight : Int)
    (hbal : balancesNonneg v.mUpdate)
    (hamt : ∀ ft ∈ tx.vft_ccout, 0 ≤ ft.nValue)
    (happ : mgr.IsTxApplicableToState tx (some v) = true)
    (hnd : (tx.vsc_ccout.map (fun sc => sc.scId)).Nodup) :
    (v.UpdateScCoins tx block nHeight).1 = true := by
  obtain ⟨hnew, htargets⟩ := IsTxApplicableToState_outputs mgr tx v happ
  have hc : (v.createSidechain tx block nHeight).1 = true :=
    ScCoinsViewCache.createSidechainLoop_true _ _ _ _ v hnd hnew
  obtain ⟨_, _, _, h4⟩ := ScCoinsViewCache.createSidechainLoop_spec
    block.GetHash tx.GetHash nHeight tx.vsc_ccout v hc
  unfold ScCoinsViewCache.UpdateScCoins
  simp only [hc, if_true]
  apply ScCoinsViewCache.updateBalanceLoop_true_of_nonneg
  · intro c hc'
    obtain ⟨ft, hft, he⟩ := List.mem_map.mp hc'
    rw [← he]
    exact hamt ft hft
  · intro c hc'
    obtain ⟨ft, hft, he⟩ := List.mem_map.mp hc'
    rw [← he]
    unfold ScCoinsViewCache.createSidechain
    rw [h4]
    rcases htargets ft hft with hs | ⟨sc, hsc, hsce⟩
    · cases hf : tx.vsc_ccout.find? (fun sc => decide (sc.scId = ft.scId)) with
      | some sc => simp [Option.or]
      | none =>
        cases hv : v.mUpdate.find ft.scId with
        | none => simp [hv] at hs
        | some i => simp [Option.or]
    · rw [← hsce, find?_scId_of_mem _ hnd sc hsc]
      simp [Option.or]
  · intro x i hx
    unfold ScCoinsViewCache.createSidechain at hx
    rw [h4] at hx
    cases hf : tx.vsc_ccout.find? (fun sc => decide (sc.scId = x)) with
    | some sc =>
      rw [hf] at hx
      simp only [Option.map_some', Option.or, Option.some.injEq] at hx
      rw [← hx]
      simp [ScCoinsViewCache.newScInfo, ScInfo.init]
    | none =>
      rw [hf] at hx
      simp only [Option.map_none', Option.or] at hx
      exact hbal x i hx

/-! ## Flush when something fails -/

/-- An overlay staging ScId 7 with balance 100 and ScId 8 with balance 30, with
an empty erase set. -/
def sampleStagedTwo : ScCoinsViewCache :=
  { mUpdate := (StdMap.empty.assign 7 (sampleInfo 100)).assign 8 (sampleInfo 30),
    sErase := StdMap.empty }

/-- A registry with no sidechain over an empty store whose successive
`WriteBatch` calls fail as `faults` says. -/
def sampleMgrFaulty (faults : List Bool) : ScMgr :=
  { mScInfo := StdMap.empty, db := some { records := [], faults := faults } }

namespace ScCoinsViewCache

/-- Whatever the first loop of `Flush` answers, an ScId registered before it is
registered after it. -/
theorem flushWriteLoop_keeps_isSome (l : List (uint256 × ScInfo)) (mgr : ScMgr) (x : uint256)
    (h : (mgr.mScInfo.find x).isSome = true) :
    ((flushWriteLoop l mgr).2.mScInfo.find x).isSome = true := by
  induction l generalizing mgr with
  | nil => exact h
  | cons e t ih =>
    unfold flushWriteLoop
    by_cases hw : (mgr.writeToDb e.1 e.2).1 = true
    · simp only [hw, if_true]
      apply ih
      simp only [StdMap.find_assign, ScMgr.writeToDb_mScInfo]
      by_cases hx : x = e.1
      · simp [hx]
      · simpa [hx] using h
    · simp only [hw, Bool.false_eq_true, if_false, ScMgr.writeToDb_mScInfo]
      exact h

/-- Whatever the second loop of `Flush` answers, an ScId the registry lacks
after it was lacking before it or is one of the ScIds to erase. -/
theorem flushEraseLoop_none_origin (ids : List uint256) (mgr : ScMgr) (x : uint256)
    (h : (flushEraseLoop ids mgr).2.mScInfo.find x = none) :
    mgr.mScInfo.find x = none ∨ x ∈ ids := by
  induction ids generalizing mgr with
  | nil => exact Or.inl h
  | cons k rest ih =>
    by_cases hx : x = k
    · exact Or.inr (hx ▸ List.mem_cons_self _ _)
    · unfold flushEraseLoop at h
      by_cases hn : (mgr.mScInfo.erase k).2 ≠ 0
      · rw [if_pos hn] at h
        rcases ih _ h with h1 | h1
        · rw [ScMgr.eraseFromDb_mScInfo] at h1
          simp only [StdMap.find_erase, hx, if_false] at h1
          exact Or.inl h1
        · exact Or.inr (List.mem_cons_of_mem _ h1)
      · rw [if_neg hn] at h
        simp only [StdMap.find_erase, hx, if_false] at h
        exact Or.inl h

end ScCoinsViewCache

/-- C13, the claim refuted as stated: nothing is registered, ScIds 7 and 8 are
staged, the write of the first staged entry succeeds and the write of the
second fails. `Flush` returns false and the mapping, which had no ScId 7,
holds ScId 7 afterwards. -/
theorem Flush_false_leaves_published_entry :
    (sampleMgrFaulty [false, true]).mScInfo.find 7 = none ∧
    (sampleStagedTwo.Flush (sampleMgrFaulty [false, true])).1 = false ∧
    (sampleStagedTwo.Flush (sampleMgrFaulty [false, true])).2.mScInfo.find 7 =
      some (sampleInfo 100) ∧
    (sampleStagedTwo.Flush (sampleMgrFaulty [false, true])).2.mScInfo ≠
      (sampleMgrFaulty [false, true]).mScInfo := by
  refine ⟨by decide, by decide, by decide, ?_⟩
  intro h
  have h7 : (sampleStagedTwo.Flush (sampleMgrFaulty [false, true])).2.mScInfo.find 7 =
      some (sampleInfo 100) := by decide
  rw [h] at h7
  exact absurd h7 (by decide)

/-- C13 as amended: `Flush` does not take back what it published before a
failure. Whatever it answers, every record of the persistent mapping afterwards
is the record the mapping held before the call or the staged record of that
ScId, and every ScId the mapping no longer holds is in the erase set. When the
durable write of the first staged entry fails, `Flush` returns false and the
mapping is identical to what it was before the call. -/
theorem Flush_failure_effect (v : ScCoinsViewCache) (mgr : ScMgr) :
    (∀ x info, (v.Flush mgr).2.mScInfo.find x = some info →
      mgr.mScInfo.find x = some info ∨ v.mUpdate.find x = some info) ∧
    (∀ x, (mgr.mScInfo.find x).isSome = true → (v.Flush mgr).2.mScInfo.find x = none →
      x ∈ v.sErase.keys) ∧
    (∀ e rest, v.mUpdate.entries = e :: rest → (mgr.writeToDb e.1 e.2).1 = false →
      (v.Flush mgr).1 = false ∧ (v.Flush mgr).2.mScInfo = mgr.mScInfo) := by
  refine ⟨fun x info h => Flush_find_origin v mgr x info h, ?_, ?_⟩
  · intro x hx hnone
    unfold ScCoinsViewCache.Flush at hnone
    have hkeep := ScCoinsViewCache.flushWriteLoop_keeps_isSome v.mUpdate.entries mgr x hx
    by_cases hw : (ScCoinsViewCache.flushWriteLoop v.mUpdate.entries mgr).1 = true
    · simp only [hw, if_true] at hnone
      rcases ScCoinsViewCache.flushEraseLoop_none_origin _ _ x hnone with h1 | h1
      · rw [h1] at hkeep
        exact absurd hkeep (by simp)
      · exact h1
    · simp only [hw, Bool.false_eq_true, if_false] at hnone
      rw [hnone] at hkeep
      exact absurd hkeep (by simp)
  · intro e rest hent hfail
    have hloop : ScCoinsViewCache.flushWriteLoop v.mUpdate.entries mgr =
        (false, (mgr.writeToDb e.1 e.2).2) := by
      rw [hent]
      unfold ScCoinsViewCache.flushWriteLoop
      simp only [hfail, Bool.false_eq_true, if_false]
    unfold ScCoinsViewCache.Flush
    rw [hloop]
    simp only [Bool.false_eq_true, if_false, ScMgr.writeToDb_mScInfo, and_self]

/-- C13 as amended, at a concrete input: the write of the first staged entry
fails. -/
theorem Flush_failure_effect_witness :
    (sampleStagedTwo.Flush (sampleMgrFaulty [true])).1 = false ∧
    (sampleStagedTwo.Flush (sampleMgrFaulty [true])).2.mScInfo =
      (sampleMgrFaulty [true]).mScInfo :=
  (Flush_failure_effect sampleStagedTwo (sampleMgrFaulty [true])).2.2
    (7, sampleInfo 100) [(8, sampleInfo 30)] (by decide) (by decide)

/-! ## Where the ScIds of the erase set come from -/

/-- The ScIds of the creation outputs applied by a sequence of calls. -/
def createdScIds : List ScOp → List uint256
  | [] => []
  | ScOp.apply tx _ _ :: rest => tx.vsc_ccout.map (fun sc => sc.scId) ++ createdScIds rest
  | ScOp.undo _ :: rest => createdScIds rest

/-- On one overlay: apply the transaction creating ScId 7 and forwarding 100 to
it, then undo it. -/
def sampleOpsCreateThenUndo : List ScOp :=
  [ScOp.apply sampleTxCreateFund sampleBlock 5, ScOp.undo sampleUndo]

namespace ScCoinsViewCache

theorem createSidechainLoop_sErase (blockHash txHash : uint256) (nHeight : Int)
    (scs : List CTxScCreationOut) (v : ScCoinsViewCache) :
    (createSidechainLoop blockHash txHash nHeight scs v).2.sErase = v.sErase := by
  induction scs generalizing v with
  | nil => rfl
  | cons sc rest ih =>
    unfold createSidechainLoop
    by_cases hex : v.sidechainExists sc.scId = true
    · simp only [hex, if_true]
    · simp only [hex, Bool.false_eq_true, if_false]
      by_cases hadd : (v.addSidechain sc.scId (newScInfo blockHash txHash nHeight sc)).1 = true
      · simp only [hadd, if_true]
        rw [ih]
        rfl
      · simp only [hadd, Bool.false_eq_true, if_false]
        rfl

/-- Whatever the creation loop answers, an ScId staged after it was staged
before it or is the ScId of one of the creation outputs. -/
theorem createSidechainLoop_staged_origin (blockHash txHash : uint256) (nHeight : Int)
    (scs : List CTxScCreationOut) (v : ScCoinsViewCache) (x : uint256)
    (h : ((createSidechainLoop blockHash txHash nHeight scs v).2.mUpdate.find x).isSome = true) :
    (v.mUpdate.find x).isSome = true ∨ x ∈ scs.map (fun sc => sc.scId) := by
  induction scs generalizing v with
  | nil => exact Or.inl h
  | cons sc rest ih =>
    have hstep : ((v.addSidechain sc.scId (newScInfo blockHash txHash nHeight sc)).2.mUpdate.find
        x).isSome = true → (v.mUpdate.find x).isSome = true ∨ x = sc.scId := by
      intro hs
      rw [addSidechain_find] at hs
      by_cases hx : x = sc.scId
      · exact Or.inr hx
      · simp only [hx, if_false] at hs
        exact Or.inl hs
    unfold createSidechainLoop at h
    by_cases hex : v.sidechainExists sc.scId = true
    · simp only [hex, if_true] at h
      exact Or.inl h
    · simp only [hex, Bool.false_eq_true, if_false] at h
      by_cases hadd : (v.addSidechain sc.scId (newScInfo blockHash txHash nHeight sc)).1 = true
      · simp only [hadd, if_true] at h
        rcases ih _ h with h1 | h1
        · rcases hstep h1 with h2 | h2
          · exact Or.inl h2
          · exact Or.inr (h2 ▸ List.mem_cons_self _ _)
        · exact Or.inr (List.mem_cons_of_mem _ h1)
      · simp only [hadd, Bool.false_eq_true, if_false] at h
        rcases hstep h with h2 | h2
        · exact Or.inl h2
        · exact Or.inr (h2 ▸ List.mem_cons_self _ _)

theorem deleteSidechain_sErase_origin (v : ScCoinsViewCache) (k x : uint256)
    (h : x ∈ (v.deleteSidechain k).2.sErase.keys) :
    x ∈ v.sErase.keys ∨ (v.mUpdate.find x).isSome = true := by
  unfold deleteSidechain at h
  cases hk : v.mUpdate.find k with
  | none =>
    rw [hk] at h
    exact Or.inl h
  | some info =>
    rw [hk] at h
    by_cases hb : info.balance > 0
    · simp only [hb, if_true] at h
      exact Or.inl h
    · simp only [hb, if_false] at h
      rw [removeSidechain_mem_sErase] at h
      rcases h with h | h
      · right
        rw [h, hk]
        rfl
      · exact Or.inl h

/-- Whatever the delete loop answers, an ScId of the erase set after it was in
the erase set or staged before it. -/
theorem deleteLoop_sErase_origin (crs : List CTxScCreationOut) (v : ScCoinsViewCache)
    (x : uint256) (h : x ∈ (deleteLoop crs v).2.sErase.keys) :
    x ∈ v.sErase.keys ∨ (v.mUpdate.find x).isSome = true := by
  induction crs generalizing v with
  | nil => exact Or.inl h
  | cons cr rest ih =>
    have hback : ∀ y, ((v.deleteSidechain cr.scId).2.mUpdate.find y).isSome = true →
        (v.mUpdate.find y).isSome = true := by
      intro y hy
      cases hv : (v.deleteSidechain cr.scId).2.mUpdate.find y with
      | none => simp [hv] at hy
      | some b => simp [deleteSidechain_origin v cr.scId y b hv]
    unfold deleteLoop at h
    by_cases hs : (v.deleteSidechain cr.scId).1 = true
    · simp only [hs, if_true] at h
      rcases ih _ h with h1 | h1
      · exact deleteSidechain_sErase_origin v cr.scId x h1
      · exact Or.inr (hback x h1)
    · simp only [hs, Bool.false_eq_true, if_false] at h
      exact deleteSidechain_sErase_origin v cr.scId x h

end ScCoinsViewCache

/-- Whatever a call answers, an ScId staged or in the erase set after it was
staged or in the erase set before it, or is created by the call. -/
theorem ScOp.run_origin (op : ScOp) (v : ScCoinsViewCache) (x : uint256)
    (h : ((op.run v).2.mUpdate.find x).isSome = true ∨ x ∈ (op.run v).2.sErase.keys) :
    ((v.mUpdate.find x).isSome = true ∨ x ∈ v.sErase.keys) ∨ x ∈ createdScIds [op] := by
  cases op with
  | apply tx block nHeight =>
    simp only [ScOp.run] at h
    simp only [createdScIds, List.append_nil]
    unfold ScCoinsViewCache.UpdateScCoins at h
    have hcs := ScCoinsViewCache.createSidechainLoop_staged_origin block.GetHash tx.GetHash
      nHeight tx.vsc_ccout v x
    have hce := ScCoinsViewCache.createSidechainLoop_sErase block.GetHash tx.GetHash
      nHeight tx.vsc_ccout v
    by_cases hc : (v.createSidechain tx block nHeight).1 = true
    · simp only [hc, if_true] at h
      rw [ScCoinsViewCache.updateBalanceLoop_isSome,
        ScCoinsViewCache.updateBalanceLoop_sErase] at h
      unfold ScCoinsViewCache.createSidechain at h
      rw [hce] at h
      rcases h with h | h
      · rcases hcs h with h1 | h1
        · exact Or.inl (Or.inl h1)
        · exact Or.inr h1
      · exact Or.inl (Or.inr h)
    · simp only [hc, Bool.false_eq_true, if_false] at h
      unfold ScCoinsViewCache.createSidechain at h
      rw [hce] at h
      rcases h with h | h
      · rcases hcs h with h1 | h1
        · exact Or.inl (Or.inl h1)
        · exact Or.inr h1
      · exact Or.inl (Or.inr h)
  | undo txundo =>
    simp only [ScOp.run] at h
    left
    unfold ScCoinsViewCache.UpdateScCoinsUndo at h
    by_cases hb : (ScCoinsViewCache.updateBalanceLoop
        (txundo.vft_ccout.map (fun ftUndo => (ftUndo.scId, -ftUndo.nValue))) v).1 = true
    · simp only [hb, if_true] at h
      rcases h with h | h
      · left
        cases hv : (ScCoinsViewCache.deleteLoop txundo.vsc_ccout
            (ScCoinsViewCache.updateBalanceLoop
              (txundo.vft_ccout.map (fun ftUndo => (ftUndo.scId, -ftUndo.nValue)))
              v).2).2.mUpdate.find x with
        | none => simp [hv] at h
        | some b =>
          have := ScCoinsViewCache.deleteLoop_origin _ _ x b hv
          rw [← ScCoinsViewCache.updateBalanceLoop_isSome
            (txundo.vft_ccout.map (fun ftUndo => (ftUndo.scId, -ftUndo.nValue))) v x, this]
          rfl
      · rcases ScCoinsViewCache.deleteLoop_sErase_origin _ _ x h with h1 | h1
        · rw [ScCoinsViewCache.updateBalanceLoop_sErase] at h1
          exact Or.inr h1
        · rw [ScCoinsViewCache.updateBalanceLoop_isSome] at h1
          exact Or.inl h1
    · simp only [hb, Bool.false_eq_true, if_false] at h
      rw [ScCoinsViewCache.updateBalanceLoop_isSome,
        ScCoinsViewCache.updateBalanceLoop_sErase] at h
      exact h

theorem runOps_origin (ops : List ScOp) (v : ScCoinsViewCache) (x : uint256)
    (h : ((runOps ops v).2.mUpdate.find x).isSome = true ∨ x ∈ (runOps ops v).2.sErase.keys) :
    ((v.mUpdate.find x).isSome = true ∨ x ∈ v.sErase.keys) ∨ x ∈ createdScIds ops := by
  induction ops generalizing v with
  | nil => exact Or.inl h
  | cons op rest ih =>
    unfold runOps at h
    have hcr : ∀ y, y ∈ createdScIds [op] ∨ y ∈ createdScIds rest → y ∈ createdScIds (op :: rest) := by
      intro y hy
      cases op with
      | apply tx block nHeight =>
        simp only [createdScIds, List.append_nil, List.mem_append] at hy ⊢
        exact hy
      | undo txundo =>
        simp only [createdScIds, List.not_mem_nil, false_or] at hy ⊢
        exact hy
    rcases ih _ h with h1 | h1
    · rcases ScOp.run_origin op v x h1 with h2 | h2
      · exact Or.inl h2
      · exact Or.inr (hcr x (Or.inl h2))
    · exact Or.inr (hcr x (Or.inr h1))

/-- C18, the claim refuted as stated: nothing is registered and the store never
fails. On one overlay the transaction creating ScId 7 is applied and then
undone; both calls return true. ScId 7 is then in the erase set without being a
key of the registry, and `Flush` returns false on the erase-set check. -/
theorem erase_set_check_reached :
    (runOps sampleOpsCreateThenUndo (ScCoinsViewCache.ctor sampleMgrEmpty)).1 = true ∧
    7 ∈ (runOps sampleOpsCreateThenUndo (ScCoinsViewCache.ctor sampleMgrEmpty)).2.sErase.keys ∧
    7 ∉ sampleMgrEmpty.mScInfo.keys ∧
    sampleMgrEmpty.storeReliable = true ∧
    ((runOps sampleOpsCreateThenUndo (ScCoinsViewCache.ctor sampleMgrEmpty)).2.Flush
      sampleMgrEmpty).1 = false := by
  decide

/-- C18 as amended: after any sequence of apply and undo calls on an overlay
constructed as a copy of the registry, whatever the calls return, every ScId of
the erase set is a key of the registry or the ScId of a creation output applied
by the sequence. When the sequence applies no creation output (undo calls only,
for instance), every ScId of the erase set is a key of the registry, and `Flush`
returns true as soon as its durable writes succeed: the erase-set check does
not fail. -/
theorem erase_set_origin (mgr : ScMgr) (ops : List ScOp) :
    (∀ k ∈ (runOps ops (ScCoinsViewCache.ctor mgr)).2.sErase.keys,
      k ∈ mgr.mScInfo.keys ∨ k ∈ createdScIds ops) ∧
    (createdScIds ops = [] →
      (∀ k ∈ (runOps ops (ScCoinsViewCache.ctor mgr)).2.sErase.keys, k ∈ mgr.mScInfo.keys) ∧
      ((ScCoinsViewCache.flushWriteLoop
          (runOps ops (ScCoinsViewCache.ctor mgr)).2.mUpdate.entries mgr).1 = true →
        ((runOps ops (ScCoinsViewCache.ctor mgr)).2.Flush mgr).1 = true)) := by
  have key : ∀ k ∈ (runOps ops (ScCoinsViewCache.ctor mgr)).2.sErase.keys,
      k ∈ mgr.mScInfo.keys ∨ k ∈ createdScIds ops := by
    intro k hk
    rcases runOps_origin ops _ k (Or.inr hk) with (h | h) | h
    · rw [ctor_mUpdate] at h
      exact Or.inl ((StdMap.mem_keys_iff _ _).mpr h)
    · rw [ctor_sErase] at h
      cases h
    · exact Or.inr h
  refine ⟨key, ?_⟩
  intro hnil
  have hin : ∀ k ∈ (runOps ops (ScCoinsViewCache.ctor mgr)).2.sErase.keys,
      k ∈ mgr.mScInfo.keys := by
    intro k hk
    rcases key k hk with h | h
    · exact h
    · rw [hnil] at h
      cases h
  refine ⟨hin, ?_⟩
  intro hw
  unfold ScCoinsViewCache.Flush
  simp only [hw, if_true]
  refine (ScCoinsViewCache.flushEraseLoop_spec _ (StdMap.keys_nodup _) _ ?_).1
  intro k hk
  apply ScCoinsViewCache.flushWriteLoop_keeps_isSome
  exact (StdMap.mem_keys_iff _ _).mp (hin k hk)

/-- On one overlay: undo the creation of ScId 7. -/
def sampleOpsUndoCreation : List ScOp :=
  [ScOp.undo { vft_ccout := [], vsc_ccout := sampleUndo.vsc_ccout }]

/-- C18 as amended, at a concrete input: the registry holds ScId 7 with balance
0 and the sequence is the undo of its creation, which applies no creation
output; ScId 7 is in the erase set and is a key of the registry. -/
theorem erase_set_origin_witness :
    createdScIds sampleOpsUndoCreation = [] ∧
    7 ∈ (runOps sampleOpsUndoCreation (ScCoinsViewCache.ctor (sampleMgrWith 0))).2.sErase.keys ∧
    7 ∈ (sampleMgrWith 0).mScInfo.keys :=
  ⟨rfl, by decide,
    ((erase_set_origin (sampleMgrWith 0) sampleOpsUndoCreation).2 rfl).1 7 (by decide)⟩

/-! ## The registry and the store across Flush -/

/-- The record the store holds under the key `(DB_SC_INFO, scId)`, `none` when
there is no such key or its value does not deserialize. -/
def CLevelDBWrapper.lookup (db : CLevelDBWrapper) (scId : uint256) : Option ScInfo :=
  match db.records.find? (fun r => r.hasKey scId) with
  | some r => r.value
  | none => none

/-- The persistent mapping and the store hold the same entries. -/
def ScMgr.storeAgrees (mgr : ScMgr) : Prop :=
  ∃ db, mgr.db = some db ∧ ∀ k, db.lookup k = mgr.mScInfo.find k

/-- A registry holding ScId 7 with balance 0 over a store that holds the same
record and whose next `WriteBatch` call fails. -/
def sampleMgrEraseFails : ScMgr :=
  { mScInfo := StdMap.empty.assign 7 (sampleInfo 0),
    db := some { records := [{ chType := DB_SC_INFO, keyScId := 7, value := some (sampleInfo 0) }],
                 faults := [true] } }

/-- C20 at its failing input. The registry holds ScId 7 with balance 0 and the
store holds the same record, so they agree. On an overlay built from the
registry the creation of ScId 7 is undone (the call returns true), and `Flush`
is called while the next store operation fails. `Flush` returns true; the
mapping no longer holds ScId 7, the store still does: `Flush` erases from the
mapping first and `eraseFromDb` only logs the failure of the durable erase. -/
theorem Flush_breaks_store_agreement_on_failed_erase :
    sampleMgrEraseFails.storeAgrees ∧
    (runOps sampleOpsUndoCreation (ScCoinsViewCache.ctor sampleMgrEraseFails)).1 = true ∧
    ((runOps sampleOpsUndoCreation (ScCoinsViewCache.ctor sampleMgrEraseFails)).2.Flush
      sampleMgrEraseFails).1 = true ∧
    ((runOps sampleOpsUndoCreation (ScCoinsViewCache.ctor sampleMgrEraseFails)).2.Flush
      sampleMgrEraseFails).2.mScInfo.find 7 = none ∧
    (((runOps sampleOpsUndoCreation (ScCoinsViewCache.ctor sampleMgrEraseFails)).2.Flush
      sampleMgrEraseFails).2.db.map (fun db => db.lookup 7)) = some (some (sampleInfo 0)) ∧
    ¬ ((runOps sampleOpsUndoCreation (ScCoinsViewCache.ctor sampleMgrEraseFails)).2.Flush
      sampleMgrEraseFails).2.storeAgrees := by
  have h4 : ((runOps sampleOpsUndoCreation (ScCoinsViewCache.ctor sampleMgrEraseFails)).2.Flush
      sampleMgrEraseFails).2.mScInfo.find 7 = none := by decide
  have h5 : (((runOps sampleOpsUndoCreation (ScCoinsViewCache.ctor sampleMgrEraseFails)).2.Flush
      sampleMgrEraseFails).2.db.map (fun db => db.lookup 7)) = some (some (sampleInfo 0)) := by
    decide
  refine ⟨?_, by decide, by decide, h4, h5, ?_⟩
  · refine ⟨_, rfl, ?_⟩
    intro k
    by_cases hk : k = 7
    · subst hk
      decide
    · have hk' : ¬ (7 : uint256) = k := fun e => hk e.symm
      simp [sampleMgrEraseFails, CLevelDBWrapper.lookup, DbRecord.hasKey, StdMap.find_assign,
        StdMap.find_empty, hk, hk']
  · rintro ⟨db, hdb, hall⟩
    rw [hdb] at h5
    simp only [Option.map_some', Option.some.injEq] at h5
    have := hall 7
    rw [h5, h4] at this
    exact absurd this (by simp)

/-! ## Loading the registry from the store -/

/-- The well-formed sidechain records at the head of a scan, up to the first
record of another type or that does not deserialize. -/
def loadedPrefix : List DbRecord → List (uint256 × ScInfo)
  | [] => []
  | r :: rest =>
    if r.chType = DB_SC_INFO then
      match r.value with
      | some info => (r.keyScId, info) :: loadedPrefix rest
      | none => []
    else []

/-- A store holding a well-formed record of ScId 7 followed by a record of
another type. -/
def sampleDiskBadSecond : CLevelDBWrapper :=
  { records := [{ chType := DB_SC_INFO, keyScId := 7, value := some (sampleInfo 100) },
                { chType := 'x', keyScId := 8, value := none }],
    faults := [] }

/-- A registry with no sidechain whose store is not opened yet. -/
def sampleMgrNotLoaded : ScMgr :=
  { mScInfo := StdMap.empty, db := none }

theorem initialUpdateFromDbLoop_mScInfo (rs : List DbRecord) (mgr : ScMgr) :
    (ScMgr.initialUpdateFromDbLoop rs mgr).2.mScInfo =
      (loadedPrefix rs).foldl (fun acc e => acc.assign e.1 e.2) mgr.mScInfo := by
  induction rs generalizing mgr with
  | nil => rfl
  | cons r rest ih =>
    unfold ScMgr.initialUpdateFromDbLoop loadedPrefix
    by_cases ht : r.chType = DB_SC_INFO
    · simp only [ht, if_true]
      cases hv : r.value with
      | none => rfl
      | some info =>
        simp only [List.foldl_cons]
        rw [ih]
    · simp only [ht, if_false]
      rfl

theorem foldl_assign_isSome (l : List (uint256 × ScInfo)) (acc : ScInfoMap) (x : uint256)
    (h : (acc.find x).isSome = true ∨ x ∈ Raw.keys l) :
    ((l.foldl (fun acc e => acc.assign e.1 e.2) acc).find x).isSome = true := by
  induction l generalizing acc with
  | nil =>
    rcases h with h | h
    · exact h
    · cases h
  | cons e t ih =>
    rw [List.foldl_cons]
    apply ih
    by_cases hx : x = e.1
    · left
      simp [StdMap.find_assign, hx]
    · rcases h with h | h
      · left
        simpa [StdMap.find_assign, hx] using h
      · right
        simp only [Raw.keys, List.map_cons, List.mem_cons] at h
        rcases h with h | h
        · exact absurd h hx
        · exact h

/-- C15, the claim refuted as stated: the mapping is empty, the store holds a
well-formed record of ScId 7 and then a record of another type.
`initialUpdateFromDb` returns false because of the bad record, and the mapping
holds ScId 7 afterwards: it is not what it was before the call. -/
theorem initialUpdateFromDb_false_leaves_records :
    sampleMgrNotLoaded.mScInfo.find 7 = none ∧
    (ScMgr.initialUpdateFromDb false sampleMgrNotLoaded sampleDiskBadSecond none 0 false).1 =
      false ∧
    (ScMgr.initialUpdateFromDb false sampleMgrNotLoaded sampleDiskBadSecond none 0
      false).2.2.mScInfo.find 7 = some (sampleInfo 100) := by
  decide

theorem loadedPrefix_length_le (rs : List DbRecord) :
    (loadedPrefix rs).length ≤ rs.length := by
  induction rs with
  | nil => simp [loadedPrefix]
  | cons r rest ih =>
    unfold loadedPrefix
    by_cases ht : r.chType = DB_SC_INFO
    · simp only [ht, if_true]
      cases r.value with
      | none => simp
      | some info => simpa using ih
    · simp [ht]

theorem initialUpdateFromDbLoop_true_iff (rs : List DbRecord) (mgr : ScMgr) :
    (ScMgr.initialUpdateFromDbLoop rs mgr).1 = true ↔
      (loadedPrefix rs).length = rs.length := by
  induction rs generalizing mgr with
  | nil => simp [ScMgr.initialUpdateFromDbLoop, loadedPrefix]
  | cons r rest ih =>
    have hlen := loadedPrefix_length_le rest
    unfold ScMgr.initialUpdateFromDbLoop loadedPrefix
    by_cases ht : r.chType = DB_SC_INFO
    · simp only [ht, if_true]
      cases hv : r.value with
      | none => simp
      | some info => simp [ih]
    · simp [ht]

/-- C15 as amended: `initialUpdateFromDb` does not take back what it loaded
before an error. A call made after the first one returns false and leaves the
registry as it was. On the first call, whatever it returns, the mapping is the
one before the call with the well-formed records scanned before the first bad
record (or before the scan error) assigned into it, in scan order; so each of
those records' ScIds is registered afterwards, also when the call returns
false. It returns true exactly when every record of the store is a well-formed
sidechain record and the scan ends without error. -/
theorem initialUpdateFromDb_effect (initDone : Bool) (mgr : ScMgr) (disk : CLevelDBWrapper)
    (scanLimit : Option Nat) (cacheSize : Nat) (fWipe : Bool) :
    (initDone = true →
      ScMgr.initialUpdateFromDb initDone mgr disk scanLimit cacheSize fWipe =
        (false, true, mgr)) ∧
    (initDone = false →
      (ScMgr.initialUpdateFromDb initDone mgr disk scanLimit cacheSize fWipe).2.2.mScInfo =
        (loadedPrefix (scannedRecords (openedStore disk fWipe) scanLimit)).foldl
          (fun acc e => acc.assign e.1 e.2) mgr.mScInfo ∧
      (∀ e ∈ loadedPrefix (scannedRecords (openedStore disk fWipe) scanLimit),
        ((ScMgr.initialUpdateFromDb initDone mgr disk scanLimit cacheSize
          fWipe).2.2.mScInfo.find e.1).isSome = true) ∧
      ((ScMgr.initialUpdateFromDb initDone mgr disk scanLimit cacheSize fWipe).1 = true ↔
        scanLimit = none ∧
        (loadedPrefix (scannedRecords (openedStore disk fWipe) scanLimit)).length =
          (scannedRecords (openedStore disk fWipe) scanLimit).length)) := by
  constructor
  · intro h
    simp [ScMgr.initialUpdateFromDb, h]
  · intro h
    have hmap : (ScMgr.initialUpdateFromDb initDone mgr disk scanLimit cacheSize fWipe).2.2.mScInfo =
        (loadedPrefix (scannedRecords (openedStore disk fWipe) scanLimit)).foldl
          (fun acc e => acc.assign e.1 e.2) mgr.mScInfo := by
      simp only [ScMgr.initialUpdateFromDb, h, Bool.false_eq_true, if_false]
      split <;> simp only [initialUpdateFromDbLoop_mScInfo]
    refine ⟨hmap, ?_, ?_⟩
    · intro e he
      rw [hmap]
      apply foldl_assign_isSome
      right
      exact List.mem_map.mpr ⟨e, he, rfl⟩
    · simp only [ScMgr.initialUpdateFromDb, h, Bool.false_eq_true, if_false]
      rw [← initialUpdateFromDbLoop_true_iff (scannedRecords (openedStore disk fWipe) scanLimit)
        { mgr with db := some (openedStore disk fWipe) }]
      cases hl : (ScMgr.initialUpdateFromDbLoop (scannedRecords (openedStore disk fWipe) scanLimit)
        { mgr with db := some (openedStore disk fWipe) }).1
      · simp
      · cases scanLimit <;> simp

/-- C15 as amended, at a concrete input: the store with a well-formed record of
ScId 7 followed by a record of another type; the call returns false and ScId 7
is registered. -/
theorem initialUpdateFromDb_effect_witness :
    (ScMgr.initialUpdateFromDb false sampleMgrNotLoaded sampleDiskBadSecond none 0 false).1 =
      false ∧
    ((ScMgr.initialUpdateFromDb false sampleMgrNotLoaded sampleDiskBadSecond none 0
      false).2.2.mScInfo.find 7).isSome = true :=
  ⟨by decide,
    ((initialUpdateFromDb_effect false sampleMgrNotLoaded sampleDiskBadSecond none 0 false).2
      rfl).2.1 (7, sampleInfo 100) (by decide)⟩

/-! ## The write path of Flush keeps the registry and the store in agreement -/

theorem find?_hasKey_map_value (rs : List DbRecord) (k x : uint256) (info : ScInfo) :
    (rs.map (fun r => if r.hasKey k then { r with value := some info } else r)).find?
        (fun r => r.hasKey x) =
      (rs.find? (fun r => r.hasKey x)).map
        (fun r => if r.hasKey k then { r with value := some info } else r) := by
  induction rs with
  | nil => rfl
  | cons r rest ih =>
    have hkey : (if r.hasKey k then { r with value := some info } else r).hasKey x =
        r.hasKey x := by
      by_cases h : r.hasKey k = true
      · rw [if_pos h]
        rfl
      · rw [if_neg h]
    simp only [List.map_cons, List.find?_cons, hkey]
    cases r.hasKey x
    · exact ih
    · rfl

theorem lookup_after_Write (db : CLevelDBWrapper) (faults : List Bool) (k x : uint256)
    (info : ScInfo) :
    CLevelDBWrapper.lookup
        { records := (CLevelDBBatch.Write k info).applyTo db.records, faults := faults } x =
      if x = k then some info else db.lookup x := by
  unfold CLevelDBWrapper.lookup CLevelDBBatch.applyTo
  simp only
  by_cases hany : db.records.any (fun r => r.hasKey k) = true
  · simp only [hany, if_true]
    rw [find?_hasKey_map_value]
    by_cases hx : x = k
    · subst hx
      obtain ⟨r, hr, hk⟩ := List.any_eq_true.mp hany
      cases hf : db.records.find? (fun r => r.hasKey x) with
      | none =>
        rw [List.find?_eq_none] at hf
        exact absurd hk (hf r hr)
      | some r' =>
        have hk' : r'.hasKey x = true := List.find?_some (p := fun (r : DbRecord) => r.hasKey x) hf
        simp [hk']
    · simp only [hx, if_false]
      cases hf : db.records.find? (fun r => r.hasKey x) with
      | none => rfl
      | some r' =>
        have hk' : r'.hasKey x = true := List.find?_some (p := fun (r : DbRecord) => r.hasKey x) hf
        have hnk : r'.hasKey k = false := by
          simp only [DbRecord.hasKey, Bool.and_eq_true, decide_eq_true_eq] at hk'
          simp only [DbRecord.hasKey, Bool.and_eq_false_iff, decide_eq_false_iff_not]
          right
          rw [hk'.2]
          exact hx
        simp [hnk]
  · simp only [hany, Bool.false_eq_true, if_false]
    have hnone : ∀ r ∈ db.records, r.hasKey k = false := by
      intro r hr
      cases hv : r.hasKey k
      · rfl
      · exact absurd (List.any_eq_true.mpr ⟨r, hr, hv⟩) hany
    rw [List.find?_append]
    by_cases hx : x = k
    · subst hx
      have hf : db.records.find? (fun r => r.hasKey x) = none := by
        rw [List.find?_eq_none]
        intro r hr
        simp [hnone r hr]
      rw [hf]
      simp [DbRecord.hasKey]
    · have hx' : ¬ k = x := fun e => hx e.symm
      simp only [hx, if_false]
      cases hf : db.records.find? (fun r => r.hasKey x) with
      | none => simp [DbRecord.hasKey, hx']
      | some r' => simp

/-- One step of the first loop of `Flush`: whether the durable write succeeds
(the entry is then published) or fails (the loop stops), the mapping and the
store hold the same entries afterwards if they did before. -/
theorem writeToDb_keeps_agreement (mgr : ScMgr) (k : uint256) (info : ScInfo)
    (h : mgr.storeAgrees) :
    ((mgr.writeToDb k info).1 = true →
      ScMgr.storeAgrees { (mgr.writeToDb k info).2 with
        mScInfo := (mgr.writeToDb k info).2.mScInfo.assign k info }) ∧
    ((mgr.writeToDb k info).1 = false → (mgr.writeToDb k info).2.storeAgrees) := by
  obtain ⟨db, hdb, hall⟩ := h
  unfold ScMgr.writeToDb
  rw [hdb]
  simp only
  unfold CLevelDBWrapper.WriteBatch
  cases hf : db.faults with
  | nil =>
    simp only [Bool.true_eq_false, false_implies, and_true, forall_const]
    refine ⟨_, rfl, ?_⟩
    intro x
    rw [lookup_after_Write, StdMap.find_assign, hall]
  | cons b rest =>
    cases b with
    | false =>
      simp only [Bool.true_eq_false, false_implies, and_true, forall_const]
      refine ⟨_, rfl, ?_⟩
      intro x
      rw [lookup_after_Write, StdMap.find_assign, hall]
    | true =>
      simp only [Bool.false_eq_true, false_implies, true_and, forall_const]
      refine ⟨_, rfl, ?_⟩
      intro x
      exact hall x

theorem flushWriteLoop_keeps_agreement (l : List (uint256 × ScInfo)) (mgr : ScMgr)
    (h : mgr.storeAgrees) : (ScCoinsViewCache.flushWriteLoop l mgr).2.storeAgrees := by
  induction l generalizing mgr with
  | nil => exact h
  | cons e t ih =>
    obtain ⟨h1, h2⟩ := writeToDb_keeps_agreement mgr e.1 e.2 h
    unfold ScCoinsViewCache.flushWriteLoop
    by_cases hw : (mgr.writeToDb e.1 e.2).1 = true
    · simp only [hw, if_true]
      exact ih _ (h1 hw)
    · have hw' : (mgr.writeToDb e.1 e.2).1 = false := by
        cases hv : (mgr.writeToDb e.1 e.2).1
        · rfl
        · exact absurd hv hw
      simp only [hw, Bool.false_eq_true, if_false]
      exact h2 hw'

/-- What the code does have of the agreement between registry and store: when
the erase set is empty, the mapping and the store hold the same entries after
`Flush` if they did before, whatever `Flush` returns and whichever durable
writes fail. -/
theorem Flush_keeps_agreement_without_erase (v : ScCoinsViewCache) (mgr : ScMgr)
    (herase : v.sErase.keys = []) (h : mgr.storeAgrees) : (v.Flush mgr).2.storeAgrees := by
  have hw := flushWriteLoop_keeps_agreement v.mUpdate.entries mgr h
  unfold ScCoinsViewCache.Flush
  by_cases hl : (ScCoinsViewCache.flushWriteLoop v.mUpdate.entries mgr).1 = true
  · simp only [hl, if_true, herase, ScCoinsViewCache.flushEraseLoop]
    exact hw
  · simp only [hl, Bool.false_eq_true, if_false]
    exact hw

end Sidechain
